import Mathlib

/-!
Verification development for the libmdcpp Markdown-to-HTML converter.

The definitions below are a shallow embedding of the C++ sources
`src/lib/markdown.cpp`, `src/lib/markdown_tokens.cpp` and the public headers.
Strings are embedded as `List Char`; `boost::optional` becomes `Option`;
the regular expressions used by the source are embedded as explicit
character-level matchers with the same existence/leftmost-match semantics.

The class header `markdown_tokens.h` is not part of the provided sources;
the handful of trivial accessors it declares (token predicates, the
`LinkIds` table type, paragraph wrapper strings) are modelled from the
specification and are marked `Modelled from the spec:` in their doc comments.
-/

namespace Libmdcpp

/-- ASCII lower-casing of one character, as `boost::algorithm::to_lower`

with the default C locale does (only `A`..`Z` are mapped). -/
def toLowerAscii (c : Char) : Char :=
  if 'A' ≤ c ∧ c ≤ 'Z' then Char.ofNat (c.toNat + 32) else c

/-- `str s` is the character-list view of a string literal. -/
def str (s : String) : List Char := s.data

/-- One space character test (the sources compare against `' '` directly). -/
def isSp (c : Char) : Bool := c = ' '

/-! ## Link reference table (`markdown.cpp:649-664`)

`LinkIds` stores case-folded ids.  The table member `mTable` is declared in
the missing header; Modelled from the spec: §3 states "last insertion for a
given id is not overwritten" (first-match semantics), which matches the only
use in the source, `mTable.insert(std::make_pair(...))` — for every standard
unique-key map, `insert` keeps the previously stored value for an existing
key.  We model the table as an association list looked up front-to-back,
where `add` appends only when the key is not yet present. -/

structure Target where
  url : List Char
  title : List Char
deriving DecidableEq, Repr

/-- The link-reference table: case-folded id → (url, title). -/
abbrev LinkIds := List (List Char × Target)

/-- The empty table (a fresh `LinkIds`). -/
def LinkIds.empty : LinkIds := []

/-- `LinkIds::_scrubKey` (`markdown.cpp:661`): case-fold the id. -/
def LinkIds._scrubKey (s : List Char) : List Char := s.map toLowerAscii

/-- `LinkIds::find` (`markdown.cpp:649`): scrub, then look up. -/
def LinkIds.find (t : LinkIds) (id : List Char) : Option Target :=
  List.lookup (LinkIds._scrubKey id) t

/-- `LinkIds::add` (`markdown.cpp:655`): `mTable.insert(make_pair(scrub id,
Target(url,title)))` — the insert is a no-op when the key is present. -/
def LinkIds.add (t : LinkIds) (id url title : List Char) : LinkIds :=
  if (List.lookup (LinkIds._scrubKey id) t).isSome then t
  else t ++ [(LinkIds._scrubKey id, ⟨url, title⟩)]

/-! ## Blank-line classification (`markdown.cpp:105-108`)

`isBlankLine` is `regex_match(line, " {0,3}(<--(.*)-- *> *)* *")`.
Note the pattern really says `<--`, not `<!--`.  We embed the regex as an
existence-of-decomposition matcher: after up to three leading spaces, zero
or more groups of the form `<--` … `--` spaces `>` spaces, then spaces. -/

/-- All ways of consuming `(.*)-- *> *` from `t`: for every split point whose
suffix starts with `--`, skip spaces, require `>`, skip spaces, and return
the remainder. -/
def matchGroupEnds (t : List Char) : List (List Char) :=
  (List.range (t.length + 1)).filterMap (fun i =>
    if (t.drop i).take 2 = ['-', '-'] then
      match (t.drop (i+2)).dropWhile isSp with
      | '>' :: rest => some (rest.dropWhile isSp)
      | _ => none
    else none)

theorem dropWhile_length_le (p : Char → Bool) (l : List Char) :
    (l.dropWhile p).length ≤ l.length := by
  induction l with
  | nil => simp [List.dropWhile]
  | cons a as ih =>
    simp only [List.dropWhile]
    split
    · exact le_trans ih (by simp)
    · simp

theorem matchGroupEnds_length {t r : List Char} (h : r ∈ matchGroupEnds t) :
    r.length + 3 ≤ t.length := by
  unfold matchGroupEnds at h
  simp only [List.mem_filterMap, List.mem_range] at h
  obtain ⟨i, _, hi⟩ := h
  split at hi
  · rename_i htake
    split at hi
    · rename_i rest heq
      simp only [Option.some.injEq] at hi
      subst hi
      have h1 : rest.length + 1 ≤ (t.drop (i+2)).length := by
        have hl := congrArg List.length heq
        simp only [List.length_cons] at hl
        have hd := dropWhile_length_le isSp (t.drop (i+2))
        omega
      have h2 : (rest.dropWhile isSp).length ≤ rest.length :=
        dropWhile_length_le isSp rest
      have h3 : (t.drop (i+2)).length = t.length - (i+2) := List.length_drop _ _
      -- the `--` prefix guarantees at least two characters remain at `i`
      have h4 : 2 ≤ (t.drop i).length := by
        have hp : ['-', '-'] <+: t.drop i := htake ▸ List.take_prefix 2 (t.drop i)
        simpa using hp.length_le
      have h5 : (t.drop i).length = t.length - i := List.length_drop _ _
      omega
    · simp at hi
  · simp at hi

/-- `(<--(.*)-- *> *)* *` run on `s`: either `s` is all spaces (zero further
groups, then trailing spaces), or one more `<--` group is consumed. -/
def blankGroups (fuel : Nat) (s : List Char) : Bool :=
  match fuel with
  | 0 => false
  | fuel + 1 =>
    s.all isSp ||
      (s.take 3 = ['<', '-', '-'] &&
        (matchGroupEnds (s.drop 3)).any (fun r => blankGroups fuel r))

/-- `isBlankLine` (`markdown.cpp:105`): full match of
`" {0,3}(<--(.*)-- *> *)* *"`.  Each comment group consumes at least five
characters, so a fuel of the line length suffices for the group loop. -/
def isBlankLine (line : List Char) : Bool :=
  (List.range 4).any (fun k =>
    (line.take k).all isSp && blankGroups (line.length + 1) (line.drop k))

/-- Modelled from the spec: the classification the spec (and claim C4)
describes — up to 3 leading spaces, then zero or more complete `<!-- ... -->`
HTML comments (each optionally followed by spaces), then only spaces.
Used solely as the reference point for the C4 divergence. -/
def specCommentEnds (t : List Char) : List (List Char) :=
  (List.range (t.length + 1)).filterMap (fun i =>
    if (t.drop i).take 3 = ['-', '-', '>'] then
      some ((t.drop (i+3)).dropWhile isSp)
    else none)

theorem specCommentEnds_length {t r : List Char} (h : r ∈ specCommentEnds t) :
    r.length + 3 ≤ t.length := by
  unfold specCommentEnds at h
  simp only [List.mem_filterMap, List.mem_range] at h
  obtain ⟨i, _, hi⟩ := h
  split at hi
  · rename_i htake
    simp only [Option.some.injEq] at hi
    subst hi
    have h2 := dropWhile_length_le isSp (t.drop (i+3))
    have h3 : (t.drop (i+3)).length = t.length - (i+3) := List.length_drop _ _
    have h4 : 3 ≤ (t.drop i).length := by
      have hp : ['-', '-', '>'] <+: t.drop i := htake ▸ List.take_prefix 3 (t.drop i)
      simpa using hp.length_le
    have h5 : (t.drop i).length = t.length - i := List.length_drop _ _
    omega
  · simp at hi

/-- Modelled from the spec: zero or more complete `<!-- ... -->` comments,
then only spaces. -/
def specBlankGroups (fuel : Nat) (s : List Char) : Bool :=
  match fuel with
  | 0 => false
  | fuel + 1 =>
    s.all isSp ||
      (s.take 4 = ['<', '!', '-', '-'] &&
        (specCommentEnds (s.drop 4)).any (fun r => specBlankGroups fuel r))

/-- Modelled from the spec: the blank-line classification claim C4 states. -/
def specBlankLine (line : List Char) : Bool :=
  (List.range 4).any (fun k =>
    (line.take k).all isSp && specBlankGroups (line.length + 1) (line.drop k))

/-! ## The token model

One constructor per concrete token class of `markdown_tokens`.  The class
bodies live in the missing header; each constructor's stored fields are the
members actually read by the provided `.cpp` sources, and the per-class
values of the virtual queries (`text()`, `canContainMarkup()`,
`isBlankLine()`, `isContainer()`, `inhibitParagraphs()`) are modelled from
the spec §3 ("Every token answers: …") and the uses in the sources. -/

/-- The encoding-flag bitmask (`cAmps`, `cDoubleAmps`, `cAngles`, `cQuotes`). -/
structure EncFlags where
  amps : Bool := false
  doubleAmps : Bool := false
  angles : Bool := false
  quotes : Bool := false
deriving DecidableEq, Repr

/-- `cAmps|cAngles`, the flags of `RawText`, `CodeSpan` and `CodeBlock`. -/
def ampsAngles : EncFlags := { amps := true, angles := true }

/-- `BoldOrItalicMarker` state: character, run length, open/close role,
match id (`mMatch`/`mId`, `none` while unmatched) and the disabled flag. -/
structure Marker where
  isOpen : Bool
  ch : Char
  size : Nat
  mtch : Option Nat := none
  disabled : Bool := false
deriving DecidableEq, Repr

inductive Tok where
  | rawText (text : List Char) (canMarkup : Bool)
  | blankLine (text : List Char)
  | codeBlock (text : List Char)
  | fencedCodeBlock (text : List Char) (info : List Char)
  | codeSpan (text : List Char)
  | textHolder (text : List Char) (canMarkup : Bool) (flags : EncFlags)
  | htmlTag (contents : List Char)
  | htmlAnchorTag (text : List Char)
  | inlineHtmlContents (text : List Char)
  | inlineHtmlComment (text : List Char)
  | escapedChar (c : Char)
  | image (alt url title : List Char)
  | boldOrItalic (m : Marker)
  | inlineHtmlBlock (sub : List Tok)
  | header (level : Nat) (sub : List Tok)
  | paragraph (sub : List Tok)
  | blockQuote (sub : List Tok)
  | unorderedList (sub : List Tok)
  | orderedList (sub : List Tok)
  | listItem (sub : List Tok) (inhibitPara : Bool)
  | container (sub : List Tok)
deriving Repr

/-- `Token::text()`: the stored text of the `TextHolder` family, `none` for
containers and for the marker/image/escaped tokens. -/
def Tok.text? : Tok → Option (List Char)
  | .rawText t _ => some t
  | .blankLine t => some t
  | .codeBlock t => some t
  | .fencedCodeBlock t _ => some t
  | .codeSpan t => some t
  | .textHolder t _ _ => some t
  | .htmlTag t => some t
  | .htmlAnchorTag t => some t
  | .inlineHtmlContents t => some t
  | .inlineHtmlComment t => some t
  | _ => none

/-- `Token::canContainMarkup()`: true only for `RawText` (by default) and
generic `TextHolder`s constructed with the flag set. -/
def Tok.canContainMarkup : Tok → Bool
  | .rawText _ cm => cm
  | .textHolder _ cm _ => cm
  | _ => false

/-- `Token::isBlankLine()`. -/
def Tok.isBlankLineTok : Tok → Bool
  | .blankLine _ => true
  | _ => false

/-- `Token::isContainer()`. -/
def Tok.isContainer : Tok → Bool
  | .inlineHtmlBlock _ => true
  | .header _ _ => true
  | .paragraph _ => true
  | .blockQuote _ => true
  | .unorderedList _ => true
  | .orderedList _ => true
  | .listItem _ _ => true
  | .container _ => true
  | _ => false

/-- `Token::inhibitParagraphs()`.  Modelled from the spec: containers
"flagged to inhibit paragraphs" are list items in tight mode, headers and
inline HTML blocks; all other tokens answer false. -/
def Tok.inhibitParagraphs : Tok → Bool
  | .listItem _ ip => ip
  | .header _ _ => true
  | .inlineHtmlBlock _ => true
  | _ => false

/-- Marker predicate `isUnmatchedOpenMarker`.  Modelled from the spec: an
open-role delimiter marker with no match reference and not disabled. -/
def Tok.isUnmatchedOpenMarker : Tok → Bool
  | .boldOrItalic m => m.isOpen && m.mtch.isNone && !m.disabled
  | _ => false

/-- Marker predicate `isUnmatchedCloseMarker` (see above). -/
def Tok.isUnmatchedCloseMarker : Tok → Bool
  | .boldOrItalic m => !m.isOpen && m.mtch.isNone && !m.disabled
  | _ => false

/-- Marker predicate `isMatchedOpenMarker`. -/
def Tok.isMatchedOpenMarker : Tok → Bool
  | .boldOrItalic m => m.isOpen && m.mtch.isSome
  | _ => false

/-- Marker predicate `isMatchedCloseMarker`. -/
def Tok.isMatchedCloseMarker : Tok → Bool
  | .boldOrItalic m => !m.isOpen && m.mtch.isSome
  | _ => false

/-- `Token::isRawText()` — used by `Paragraph::writeAsHtml` (src 790). -/
def Tok.isRawText : Tok → Bool
  | .rawText _ _ => true
  | _ => false

/-! ## Fenced code blocks (`markdown.cpp:235-306`, `763-801`) -/

/-- The data produced by `isCodeFenceBeginLine`'s out-parameters. -/
structure FenceBegin where
  indent : Nat
  length : Nat
  fence : Char
  info : List Char
deriving DecidableEq, Repr

/-- `isCodeFenceBeginLine` (`markdown.cpp:235`): up to 3 leading spaces, a
run of at least 3 backticks or tildes, and an info string that must not
contain a backtick.  (On an all-space line the C++ reads `*si` at the end
iterator; its callers never pass one, since such lines are `BlankLine`
tokens — we return `none` there.) -/
def isCodeFenceBeginLine (line : List Char) : Option FenceBegin :=
  let indent := (line.takeWhile isSp).length
  if indent > 3 then none
  else
    match line.drop indent with
    | [] => none
    | f :: rest' =>
      if f ≠ '`' ∧ f ≠ '~' then none
      else
        let len := ((f :: rest').takeWhile (· = f)).length
        if len < 3 then none
        else
          let info := (f :: rest').drop len
          if info = [] then some ⟨indent, len, f, []⟩
          else if info.contains '`' then none
          else some ⟨indent, len, f, info⟩

/-- `isCodeFenceEndLine` (`markdown.cpp:270`): skip up to `indent` leading
spaces (these are stripped from a kept line), then more spaces while the
total stays below 4; a closing line needs total indent ≤ 3, a run of the
opening fence character at least `openLen` long, and only spaces/tabs
after it.  Any other line is appended (minus the first skip) to `out`.
Returns (is-closing-fence, text appended to the block). -/
def isCodeFenceEndLine (line : List Char) (indent openLen : Nat) (fence : Char) :
    Bool × List Char :=
  let s1 := min (line.takeWhile isSp).length indent
  let rest1 := line.drop s1
  let s2 := min (rest1.takeWhile isSp).length (4 - s1)
  if s1 + s2 > 3 then (false, rest1 ++ ['\n'])
  else
    let rest2 := rest1.drop s2
    let closeLen := (rest2.takeWhile (· = fence)).length
    if closeLen < openLen then (false, rest1 ++ ['\n'])
    else if (rest2.drop closeLen).dropWhile (fun c => c = ' ' || c = '\t') ≠ [] then
      (false, rest1 ++ ['\n'])
    else (true, [])

/-- The collection loop of `Document::parseFencedCodeBlock`
(`markdown.cpp:771-776`): accumulate every non-closing line's contribution;
an unclosed fence is closed by the end of the document. -/
def fencedLoop (ts : List Tok) (indent openLen : Nat) (fence : Char)
    (acc : List Char) : List Char × List Tok :=
  match ts with
  | [] => (acc, [])
  | t :: ts' =>
    let r := isCodeFenceEndLine (t.text?.getD []) indent openLen fence
    if r.1 then (acc, ts') else fencedLoop ts' indent openLen fence (acc ++ r.2)

theorem fencedLoop_rest_length (ts : List Tok) (indent openLen : Nat)
    (fence : Char) (acc : List Char) :
    (fencedLoop ts indent openLen fence acc).2.length ≤ ts.length := by
  induction ts generalizing acc with
  | nil => simp [fencedLoop]
  | cons t ts' ih =>
    simp only [fencedLoop]
    split
    · simp
    · exact le_trans (ih _) (by simp)

/-- `Document::parseFencedCodeBlock` (`markdown.cpp:763`): returns the
fenced-block token and the tokens after the block. -/
def parseFencedCodeBlock (toks : List Tok) : Option (Tok × List Tok) :=
  match toks with
  | [] => none
  | t :: ts =>
    if t.isBlankLineTok || !t.text?.isSome || !t.canContainMarkup then none
    else
      match isCodeFenceBeginLine (t.text?.getD []) with
      | none => none
      | some fb =>
        let r := fencedLoop ts fb.indent fb.length fb.fence []
        some (Tok.fencedCodeBlock r.1 fb.info, r.2)

/-! ## Out-of-band placeholders (`markdown_tokens.cpp:624-689`)

Span sub-passes splice `"\x01@" + index + "@" + name + "\x01"` markers into
the working string; `_encodeProcessedItems` / `_restoreProcessedItems`
parse them back with the regex `\x01@(#?[0-9]*)@.+?\x01`. -/

/-- The `'\x01'` sentinel byte. -/
def SOH : Char := Char.ofNat 1

/-- Decimal digits of `n`, as `boost::lexical_cast<string>` produces. -/
def natToChars (n : Nat) : List Char := go (n + 1) n
where
  go : Nat → Nat → List Char
  | 0, _ => []
  | fuel + 1, k =>
    if k < 10 then [Char.ofNat (48 + k)]
    else go fuel (k / 10) ++ [Char.ofNat (48 + k % 10)]

/-- Parse decimal digits (`boost::lexical_cast<size_t>`). -/
def charsToNat (l : List Char) : Nat :=
  l.foldl (fun a c => a * 10 + (c.toNat - 48)) 0

/-- A placeholder `\x01@k@name\x01` for replacement-table slot `k`. -/
def placeholder (k : Nat) (name : List Char) : List Char :=
  SOH :: '@' :: (natToChars k ++ '@' :: (name ++ [SOH]))

/-- An escaped-character placeholder `\x01@#e@escaped\x01`. -/
def escPlaceholder (e : Nat) : List Char :=
  SOH :: '@' :: '#' :: (natToChars e ++ '@' :: (str "escaped" ++ [SOH]))

/-- The capture `(#?[0-9]*)` of the placeholder regex, already classified
the way lines 639-647 / 673-681 consume it. -/
inductive PHRef where
  | escaped (n : Nat)
  | idx (n : Nat)
  | empty
deriving DecidableEq, Repr

/-- Classify the `(#?[0-9]*)` capture the way lines 639-647 consume it. -/
def mkPHRef (isEsc : Bool) (digits : List Char) : PHRef :=
  if isEsc then PHRef.escaped (charsToNat digits)
  else if digits = [] then PHRef.empty
  else PHRef.idx (charsToNat digits)

/-- After the optional `#` was stripped from `t1`: match `[0-9]*@.+?\x01`
and return the remainder after the closing `\x01`. -/
def matchPHBody (isEsc : Bool) (t1 : List Char) : Option (PHRef × List Char) :=
  match t1.drop (t1.takeWhile Char.isDigit).length with
  | '@' :: t3 =>
    if (t3.takeWhile (· ≠ SOH)).length ≥ 1 ∧
        (t3.drop (t3.takeWhile (· ≠ SOH)).length).head? = some SOH then
      some (mkPHRef isEsc (t1.takeWhile Char.isDigit),
        t3.drop ((t3.takeWhile (· ≠ SOH)).length + 1))
    else none
  | _ => none

/-- Match `\x01@(#?[0-9]*)@.+?\x01` at the head of `s`; returns the
classified reference and the text after the closing `\x01`. -/
def matchPH (s : List Char) : Option (PHRef × List Char) :=
  match s with
  | c1 :: c2 :: t =>
    if c1 = SOH ∧ c2 = '@' then
      matchPHBody (t.head? = some '#') (if t.head? = some '#' then t.drop 1 else t)
    else none
  | _ => none

theorem matchPHBody_length {isEsc : Bool} {t1 : List Char} {r : PHRef × List Char}
    (h : matchPHBody isEsc t1 = some r) : r.2.length + 2 ≤ t1.length := by
  unfold matchPHBody at h
  split at h
  · rename_i t3 ht3
    split at h
    · rename_i hcond
      simp only [Option.some.injEq] at h
      subst h
      have ht3l : t3.length + 1 ≤ t1.length := by
        have h1 := congrArg List.length ht3
        simp only [List.length_drop, List.length_cons] at h1
        omega
      have hta : (t3.takeWhile (· ≠ SOH)).length ≤ t3.length :=
        (List.takeWhile_sublist _).length_le
      simp only [List.length_drop]
      omega
    · simp at h
  · simp at h

theorem matchPH_length {s : List Char} {r : PHRef × List Char}
    (h : matchPH s = some r) : r.2.length + 4 ≤ s.length := by
  unfold matchPH at h
  split at h
  · rename_i x0 c1 c2 t
    split at h
    · have hb := matchPHBody_length h
      have htd : (if t.head? = some '#' then t.drop 1 else t).length ≤ t.length := by
        split <;> simp
      simp only [List.length_cons]
      omega
    · simp at h
  · simp at h

/-- `escapedCharacter` / `cEscapedCharacters` (`markdown_tokens.cpp:32-44`). -/
def cEscapedCharacters : List Char := str "\\`*_{}[]()#+-.!>"

/-- `Token::writeAsOriginal`.  The `CodeSpan` override is
`markdown_tokens.cpp:729`; Modelled from the spec: for the other
`TextHolder`s it emits the stored text unchanged. -/
def Tok.writeAsOriginal : Tok → List Char
  | .codeSpan t => '`' :: (t ++ ['`'])
  | t => t.text?.getD []

/-- `RawText::_restoreProcessedItems` (`markdown_tokens.cpp:658`). -/
def restoreProcessedItems (s : List Char) (reps : List Tok) : List Char :=
  go (s.length + 1) s
where
  go : Nat → List Char → List Char
  | 0, s0 => s0
  | fuel + 1, s0 =>
    match s0 with
    | [] => []
    | c :: t =>
      match matchPH (c :: t) with
      | some (ref, rest) =>
        (match ref with
         | .escaped n => '\\' :: [cEscapedCharacters.getD n ' ']
         | .idx n => (match reps[n]? with
                      | some tok => tok.writeAsOriginal
                      | none => [])
         | .empty => []) ++ go fuel rest
      | none => c :: go fuel t

/-- `RawText::_encodeProcessedItems` (`markdown_tokens.cpp:624`): cut the
string at each placeholder, turning text pieces into `RawText` tokens and
placeholders into their replacement tokens. -/
def encodeProcessedItems (s : List Char) (reps : List Tok) : List Tok :=
  go (s.length + 1) s
where
  go : Nat → List Char → List Tok
  | 0, _ => []
  | fuel + 1, s0 =>
    match s0 with
    | [] => []
    | c :: t =>
      match matchPH (c :: t) with
      | some (ref, rest) =>
        (match ref with
         | .escaped n => [Tok.escapedChar (cEscapedCharacters.getD n ' ')]
         | .idx n => (match reps[n]? with
                      | some tok => [tok]
                      | none => [])
         | .empty => []) ++ go fuel rest
      | none =>
        -- no placeholder starts here: the character joins the text chunk in
        -- front of the next placeholder (or the final chunk)
        match go fuel t with
        | .rawText pre cm :: r => Tok.rawText (c :: pre) cm :: r
        | r => Tok.rawText [c] true :: r

/-! ## Code spans (`markdown_tokens.cpp:290-313`)

`_processCodeSpans` repeatedly searches
`(?<!`)(`+)(?!`) *(.*?[^ ]) *(?<!`)\1(?!`)`: an opening maximal backtick
run of length N (not preceded by a backtick), then — lazily — a closing
maximal run of exactly N backticks such that the delimited text contains at
least one non-space; the capture is the delimited text with all leading and
all trailing spaces stripped. -/

/-- The slice `s[a..b)`. -/
def sliceBetween (s : List Char) (a b : Nat) : List Char := (s.take b).drop a

/-- Strip all leading and all trailing spaces. -/
def trimSpaces (l : List Char) : List Char :=
  ((l.dropWhile isSp).reverse.dropWhile isSp).reverse

/-- Modelled from the claim's words (C3): the delimited text trimmed of
exactly one leading space and one trailing space, if present — used only
as the reference point for the C3 divergence. -/
def specTrimOne (l : List Char) : List Char :=
  let a := match l with | ' ' :: t => t | x => x
  match a.reverse with | ' ' :: t => t.reverse | _ => a

/-- A maximal backtick run starts at `p`. -/
def openCond (s : List Char) (p : Nat) : Bool :=
  s[p]? = some '`' && (p = 0 || s[p-1]? ≠ some '`')

/-- Length of the character run of `c` starting at `p`. -/
def runLen (s : List Char) (p : Nat) (c : Char) : Nat :=
  ((s.drop p).takeWhile (· = c)).length

/-- A closing candidate at `q` for an opening run of length `n` that started
at `p`: a maximal backtick run of exactly `n`, with a non-space somewhere in
the delimited text. -/
def closeCond (s : List Char) (p n q : Nat) : Bool :=
  decide (p + n ≤ q) && (q = 0 || s[q-1]? ≠ some '`') && s[q]? = some '`' &&
    runLen s q '`' = n && (sliceBetween s (p + n) q).any (fun c => !isSp c)

/-- The first (lazy) closing run for the opening run at `p`. -/
def findCloseQ (s : List Char) (p n : Nat) : Option Nat :=
  (List.range s.length).find? (fun q => closeCond s p n q)

/-- The leftmost code-span match: start `p`, run length `n`, close `q`. -/
def codeSpanMatch (s : List Char) : Option (Nat × Nat × Nat) :=
  match (List.range s.length).find?
      (fun p => openCond s p && (findCloseQ s p (runLen s p '`')).isSome) with
  | none => none
  | some p =>
    let n := runLen s p '`'
    (findCloseQ s p n).map (fun q => (p, n, q))

theorem lt_length_of_getElem? {s : List Char} {p : Nat} {c : Char}
    (h : s[p]? = some c) : p < s.length := by
  by_contra hc
  push_neg at hc
  rw [List.getElem?_eq_none (by omega)] at h
  simp at h

theorem drop_eq_cons_of_getElem? {s : List Char} {p : Nat} {c : Char}
    (h : s[p]? = some c) : s.drop p = c :: s.drop (p + 1) := by
  have hp := lt_length_of_getElem? h
  rw [List.drop_eq_getElem_cons hp]
  have hg := List.getElem?_eq_getElem hp
  rw [hg] at h
  simp only [Option.some.injEq] at h
  rw [h]

theorem runLen_pos {s : List Char} {p : Nat} {c : Char}
    (h : s[p]? = some c) : 1 ≤ runLen s p c := by
  unfold runLen
  rw [drop_eq_cons_of_getElem? h]
  simp [List.takeWhile]

theorem codeSpanMatch_bounds {s : List Char} {p n q : Nat}
    (h : codeSpanMatch s = some (p, n, q)) : p + n ≤ q ∧ q < s.length ∧ 1 ≤ n := by
  unfold codeSpanMatch at h
  split at h
  · simp at h
  · rename_i p0 hfind
    simp only [Option.map_eq_some'] at h
    obtain ⟨q0, hq0, heq⟩ := h
    simp only [Prod.mk.injEq] at heq
    obtain ⟨hp0, hn0, hq0e⟩ := heq
    subst hp0; subst hn0; subst hq0e
    have hqc : closeCond s p0 (runLen s p0 '`') q0 = true := List.find?_some hq0
    have hqr : q0 ∈ List.range s.length := List.mem_of_find?_eq_some hq0
    simp only [closeCond, Bool.and_eq_true, decide_eq_true_eq] at hqc
    have hq : q0 < s.length := List.mem_range.mp hqr
    have hpopen := List.find?_some hfind
    simp only [Bool.and_eq_true, openCond] at hpopen
    have hsp : s[p0]? = some '`' := by
      have h1 := hpopen.1.1
      simpa using h1
    exact ⟨hqc.1.1.1.1, hq, runLen_pos hsp⟩

/-- `RawText::_processCodeSpans` (`markdown_tokens.cpp:290`): replace each
match with a placeholder and store a `CodeSpan` token built from the
trimmed capture (run through `_restoreProcessedItems` first). -/
def processCodeSpans (s : List Char) (reps : List Tok) : List Char × List Tok :=
  go (s.length + 1) s reps
where
  go : Nat → List Char → List Tok → List Char × List Tok
  | 0, s0, reps0 => (s0, reps0)
  | fuel + 1, s0, reps0 =>
    match codeSpanMatch s0 with
    | none => (s0, reps0)
    | some (p, n, q) =>
      let content := trimSpaces (sliceBetween s0 (p + n) q)
      let reps' := reps0 ++ [Tok.codeSpan (restoreProcessedItems content reps0)]
      let r := go fuel (s0.drop (q + n)) reps'
      (s0.take p ++ placeholder reps0.length (str "codeSpan") ++ r.1, r.2)

/-! ## Escaped characters (`markdown_tokens.cpp:315-338`) -/

/-- `RawText::_processEscapedCharacters`: a backslash followed by a member
of `cEscapedCharacters` becomes an escaped-character placeholder; any other
backslash sequence passes through; a trailing lone backslash is kept. -/
def processEscapedCharacters (s : List Char) : List Char :=
  match s with
  | [] => []
  | c :: t =>
    if c = '\\' then
      match t with
      | [] => ['\\']
      | d :: t' =>
        match cEscapedCharacters.findIdx? (· = d) with
        | some e => escPlaceholder e ++ processEscapedCharacters t'
        | none => '\\' :: d :: processEscapedCharacters t'
    else c :: processEscapedCharacters t

/-! ## Autolink and tag helpers (`markdown_tokens.cpp:71-218`) -/

/-- `looksLikeUrl` (`markdown_tokens.cpp:71`): known scheme or
`www.`/`ftp.` prefix. -/
def looksLikeUrl (s : List Char) : Bool :=
  [str "http://", str "https://", str "ftp://", str "ftps://",
   str "file://", str "www.", str "ftp."].any (fun t => s.take t.length = t)

/-- ASCII `isalnum` under the default C locale. -/
def isAlnumAscii (c : Char) : Bool :=
  ('0' ≤ c && c ≤ '9') || ('a' ≤ c && c ≤ 'z') || ('A' ≤ c && c ≤ 'Z')

/-- ASCII `isalpha` under the default C locale. -/
def isAlphaAscii (c : Char) : Bool :=
  ('a' ≤ c && c ≤ 'z') || ('A' ≤ c && c ≤ 'Z')

/-- `notValidNameCharacter` (`markdown_tokens.cpp:86`). -/
def notValidNameCharacter (c : Char) : Bool :=
  !(isAlnumAscii c || c = '.' || c = '_' || c = '%' || c = '-' || c = '+')

/-- `notValidSiteCharacter` (`markdown_tokens.cpp:90`); the `c & 0x80`
kludge admits every non-ASCII byte, i.e. every code point above 127. -/
def notValidSiteCharacter (c : Char) : Bool :=
  !(isAlnumAscii c || c = '.' || c = '_' || c = '%' || c = '-' || c.toNat ≥ 128)

/-- `looksLikeEmailAddress` (`markdown_tokens.cpp:119`): a valid name part
before `@`, a valid site part after it, ending in a dot followed by 2-4
alphabetic characters. -/
def looksLikeEmailAddress (s : List Char) : Bool :=
  let name := s.takeWhile (fun c => !notValidNameCharacter c)
  let rest := s.drop name.length
  (rest.head? = some '@') && (name.length ≥ 1) &&
    ((rest.drop 1).all (fun c => !notValidSiteCharacter c)) &&
    (let tld := s.reverse.takeWhile isAlphaAscii
     (s.reverse.drop tld.length).head? = some '.' &&
       2 ≤ tld.length && tld.length ≤ 4)

/-- `emailEncode` (`markdown_tokens.cpp:102`): alternate decimal and
hexadecimal character references; bytes above 127 pass through. -/
def emailEncode (s : List Char) (inHex : Bool := false) : List Char :=
  match s with
  | [] => []
  | c :: t =>
    if c.toNat ≥ 128 then c :: emailEncode t inHex
    else if inHex then
      (str "&#x" ++ natToHexChars c.toNat ++ [';']) ++ emailEncode t (!inHex)
    else
      (str "&#" ++ natToChars c.toNat ++ [';']) ++ emailEncode t (!inHex)
where
  /-- Lowercase hexadecimal digits, as `std::hex` prints an `int`. -/
  natToHexChars (n : Nat) : List Char := hexGo (n + 1) n
  hexGo : Nat → Nat → List Char
  | 0, _ => []
  | fuel + 1, k =>
    let d := fun (j : Nat) => if j < 10 then Char.ofNat (48 + j) else Char.ofNat (87 + j)
    if k < 16 then [d k] else hexGo fuel (k / 16) ++ [d (k % 16)]

/-- `cOtherTagInit` (`markdown_tokens.cpp:144`), with the trailing `/`
markers stripped as `initTag` does. -/
def otherTags : List (List Char) :=
  [str "title", str "link", str "script", str "style", str "object",
   str "meta", str "em", str "strong", str "q", str "cite", str "dfn",
   str "abbr", str "acronym", str "code", str "samp", str "kbd", str "var",
   str "sub", str "sup", str "del", str "ins", str "isindex", str "a",
   str "img", str "br", str "map", str "area", str "object", str "param",
   str "applet", str "span"]

/-- `cBlockTagInit` (`markdown_tokens.cpp:158`), `/`-stripped. -/
def blockTags : List (List Char) :=
  [str "address", str "article", str "aside", str "base", str "basefont",
   str "blockquote", str "body", str "caption", str "center", str "col",
   str "colgroup", str "dd", str "details", str "dir", str "div", str "dl",
   str "dt", str "fieldset", str "figcaption", str "figure", str "footer",
   str "form", str "frame", str "frameset", str "h1", str "h2", str "h3",
   str "h4", str "h5", str "h6", str "ul", str "head", str "header",
   str "hr", str "html", str "iframe", str "legend", str "li", str "link",
   str "main", str "menu", str "menuitem", str "meta", str "nav",
   str "noframes", str "ol", str "optgroup", str "option", str "p",
   str "param", str "section", str "source", str "summary", str "table",
   str "tbody", str "tr", str "th", str "td", str "thead", str "tfoot",
   str "title", str "track", str "ul"]

/-- `isValidTag` (`markdown_tokens.cpp:202`): 2 for block tags, 1 for other
known tags, 0 otherwise; `nonBlockFirst` flips the lookup order (it only
changes which priority wins when a name is in both sets — none is). -/
def isValidTag (tag : List Char) (nonBlockFirst : Bool := false) : Nat :=
  let t := tag.map toLowerAscii
  if nonBlockFirst then
    if otherTags.contains t then 1
    else if blockTags.contains t then 2
    else 0
  else
    if blockTags.contains t then 2
    else if otherTags.contains t then 1
    else 0

/-! ## HTML entity escaping (`markdown_tokens.cpp:46-69`) -/

/-- The prefix test `^(&amp;)|(&#[0-9]{1,3};)|(&#[xX][0-9a-fA-F]{1,2};)`
used to leave already-valid entities alone. -/
def isEntityStart (s : List Char) : Bool :=
  (s.take 5 = str "&amp;") ||
    (match s with
     | '&' :: '#' :: rest =>
       let ds := rest.takeWhile Char.isDigit
       decide (1 ≤ ds.length) && decide (ds.length ≤ 3) &&
         ((rest.drop ds.length).head? = some ';')
     | _ => false) ||
    (match s with
     | '&' :: '#' :: x :: rest =>
       (x = 'x' || x = 'X') &&
         (let hs := rest.takeWhile (fun c =>
             Char.isDigit c || ('a' ≤ c && c ≤ 'f') || ('A' ≤ c && c ≤ 'F'))
          decide (1 ≤ hs.length) && decide (hs.length ≤ 2) &&
            ((rest.drop hs.length).head? = some ';'))
     | _ => false)

/-- `encodeString` (`markdown_tokens.cpp:46`): per-character entity
escaping controlled by the flag set. -/
def encodeString (s : List Char) (f : EncFlags) : List Char :=
  match s with
  | [] => []
  | c :: t =>
    (if c = '&' && f.amps then
       (if isEntityStart (c :: t) then [c] else str "&amp;")
     else if c = '&' && f.doubleAmps then str "&amp;"
     else if c = '<' && f.angles then str "&lt;"
     else if c = '>' && f.angles then str "&gt;"
     else if c = '"' && f.quotes then str "&quot;"
     else [c]) ++ encodeString t f

/-- `HtmlAnchorTag::HtmlAnchorTag` (`markdown_tokens.cpp:691`): the
prebuilt `<a href="…" title="…">` text. -/
def mkHtmlAnchorTag (url : List Char) (title : List Char := []) : Tok :=
  Tok.htmlAnchorTag
    (str "<a href=\"" ++ encodeString url { quotes := true, amps := true } ++ ['"'] ++
      (if title = [] then []
       else str " title=\"" ++ encodeString title { quotes := true, amps := true } ++ ['"']) ++
      ['>'])

/-! ## Links, images, auto-links and literal HTML
(`markdown_tokens.cpp:362-482`)

The pass searches, left to right, for the first match of
`(?:(!?)\[(.*)\]\(([^\(]*(?:\(.*?\).*?)*?)\))`   (inline link/image)
`|(?:(!?)\[((?:[^]]*?\[.*?\].*?)|(?:.+?))\](?: *\[(.*?)\])?)`  (reference)
`|(?:<(/?([a-zA-Z0-9]+).*?)>)`            (potential HTML tag / auto-link)
with the alternatives tried in this order at each start position.  Each
alternative is embedded as an explicit scanner below; greedy groups pick
the rightmost candidate and lazy groups the leftmost one, as the engine
does (deeper backtracking re-orderings inside the reference alternative's
first branch are not modelled — they only arise for inputs whose link text
mixes partial bracket pairs). -/

/-- `cleanTextLinkRef` (`markdown_tokens.cpp:186`): collapse runs of
spaces to a single space. -/
def cleanTextLinkRef (s : List Char) : List Char := go (s.length + 1) s
where
  go : Nat → List Char → List Char
  | 0, s0 => s0
  | fuel + 1, s0 =>
    match s0 with
    | [] => []
    | c :: t =>
      if c = ' ' then ' ' :: go fuel (t.dropWhile isSp)
      else c :: go fuel t

/-- First index `i ≥ start` whose character satisfies `pred`. -/
def findFrom (s : List Char) (start : Nat) (pred : Char → Bool) : Option Nat :=
  (List.range s.length).find? (fun i =>
    decide (start ≤ i) && (match s[i]? with | some c => pred c | none => false))

/-- The URL body pattern `[^\(]*(?:\(.*?\).*?)*?`: matchable iff the first
`(`, when present, is followed by some `)`. -/
def urlOk (T : List Char) : Bool :=
  match T.dropWhile (· ≠ '(') with
  | [] => true
  | _ :: rest => rest.contains ')'

/-- The lazily-first closing `)` of an inline link's URL part starting at
`u`. -/
def inlineUrlClose (s : List Char) (u : Nat) : Option Nat :=
  (List.range s.length).find? (fun k =>
    decide (u ≤ k) && (s[k]? = some ')') && urlOk (sliceBetween s u k))

/-- One classified match of the links/images/tags expression. -/
inductive LMKind where
  | inl (isImage : Bool) (contents urlAndTitle : List Char)
  | ref (isImage : Bool) (contents : List Char) (idStr : Option (List Char))
  | tag (contents name : List Char)
deriving Repr

structure LM where
  kind : LMKind
  startPos : Nat
  endPos : Nat
deriving Repr

/-- The inline link/image alternative with the image flag and bracket
position resolved. -/
def matchInlineAt (s : List Char) (p : Nat) (isImg : Bool) (b : Nat) : Option LM :=
  if s[b]? = some '[' then
    match ((List.range s.length).reverse).find? (fun j =>
        decide (b + 1 ≤ j) && (s[j]? = some ']') && (s[j+1]? = some '(') &&
          (inlineUrlClose s (j+2)).isSome) with
    | some j =>
      match inlineUrlClose s (j+2) with
      | some k =>
        some ⟨.inl isImg (sliceBetween s (b+1) j) (sliceBetween s (j+2) k), p, k+1⟩
      | none => none
    | none => none
  else none

/-- The inline link/image alternative at position `p`: greedy contents up
to the rightmost `](`, then the lazily-first admissible `)`. -/
def matchInline (s : List Char) (p : Nat) : Option LM :=
  if s[p]? = some '!' then matchInlineAt s p true (p + 1)
  else matchInlineAt s p false p

/-- Start of the optional ` *\[(.*?)\]` id tail after the contents closed
at `j`: skip the spaces. -/
def refIdPos (s : List Char) (j : Nat) : Nat :=
  j + 1 + ((s.drop (j+1)).takeWhile isSp).length

/-- Build a reference match whose contents closed at `j`, with the id tail
parsed from position `m` on. -/
def mkRefLM (s : List Char) (isImg : Bool) (b j p m : Nat) : LM :=
  if s[m]? = some '[' then
    match findFrom s (m+1) (· = ']') with
    | some e => ⟨.ref isImg (sliceBetween s (b+1) j) (some (sliceBetween s (m+1) e)), p, e+1⟩
    | none => ⟨.ref isImg (sliceBetween s (b+1) j) none, p, j+1⟩
  else ⟨.ref isImg (sliceBetween s (b+1) j) none, p, j+1⟩

/-- Closing bracket of the first contents branch `[^]]*?\[.*?\].*?`:
an inner bracket pair must be reachable without crossing `]`. -/
def refCloseJ (s : List Char) (b : Nat) : Option Nat :=
  match findFrom s (b+1) (fun c => c = '[' || c = ']') with
  | some f =>
    if s[f]? = some '[' then
      match findFrom s (f+1) (· = ']') with
      | some g => findFrom s (g+1) (· = ']')
      | none => none
    else none
  | none => none

/-- The reference link/image alternative with the image flag and bracket
position resolved; the second contents branch `.+?` closes at the first
`]` leaving non-empty contents. -/
def matchRefAt (s : List Char) (p : Nat) (isImg : Bool) (b : Nat) : Option LM :=
  if s[b]? = some '[' then
    match refCloseJ s b with
    | some j => some (mkRefLM s isImg b j p (refIdPos s j))
    | none =>
      match findFrom s (b+2) (· = ']') with
      | some j => some (mkRefLM s isImg b j p (refIdPos s j))
      | none => none
  else none

/-- The reference link/image alternative at position `p`. -/
def matchRef (s : List Char) (p : Nat) : Option LM :=
  if s[p]? = some '!' then matchRefAt s p true (p + 1)
  else matchRefAt s p false p

/-- The tag alternative with the name start position resolved. -/
def matchTagAt (s : List Char) (p nmStart : Nat) : Option LM :=
  if ((s.drop nmStart).takeWhile isAlnumAscii).length = 0 then none
  else
    match findFrom s (nmStart + ((s.drop nmStart).takeWhile isAlnumAscii).length)
        (· = '>') with
    | some g =>
      some ⟨.tag (sliceBetween s (p+1) g) ((s.drop nmStart).takeWhile isAlnumAscii),
        p, g+1⟩
    | none => none

/-- The potential-HTML-tag / auto-link alternative `<(/?([a-zA-Z0-9]+).*?)>`
at position `p`. -/
def matchTag (s : List Char) (p : Nat) : Option LM :=
  if s[p]? = some '<' then
    matchTagAt s p (if s[p+1]? = some '/' then p + 2 else p + 1)
  else none

/-- Alternation at one start position, in the pattern's order. -/
def linkMatchAt (s : List Char) (p : Nat) : Option LM :=
  match matchInline s p with
  | some lm => some lm
  | none =>
    match matchRef s p with
    | some lm => some lm
    | none => matchTag s p

/-- The leftmost match of the whole expression. -/
def linkSearch (s : List Char) : Option LM :=
  match (List.range s.length).find? (fun p => (linkMatchAt s p).isSome) with
  | some p => linkMatchAt s p
  | none => none

/-- The inline URL/title sub-parse `^<?([^ >]*)>?(?: *(?:('|\")(.*)\2)|(?:\((.*)\)))? *$`
(`markdown_tokens.cpp:423`).  `none` means the whole inline candidate is
treated as unresolved. -/
def parseUrlTitle (T : List Char) : Option (List Char × List Char) :=
  let T1 := if T.head? = some '<' then T.drop 1 else T
  let url := T1.takeWhile (fun c => c ≠ ' ' && c ≠ '>')
  let T2 := T1.drop url.length
  let T3 := if T2.head? = some '>' then T2.drop 1 else T2
  if T3.all isSp then some (url, [])
  else
    let T4 := T3.dropWhile isSp
    match T4.head? with
    | some q =>
      if q = '\'' || q = '"' then
        match ((List.range T4.length).reverse).find? (fun r =>
            decide (1 ≤ r) && (T4[r]? = some q) && (T4.drop (r+1)).all isSp) with
        | some r => some (url, sliceBetween T4 1 r)
        | none => none
      else if T3.head? = some '(' then
        match ((List.range T3.length).reverse).find? (fun r =>
            decide (1 ≤ r) && (T3[r]? = some ')') && (T3.drop (r+1)).all isSp) with
        | some r => some (url, sliceBetween T3 1 r)
        | none => none
      else none
    | none => none

theorem mkRefLM_endPos (s : List Char) (isImg : Bool) (b j p m : Nat) :
    1 ≤ (mkRefLM s isImg b j p m).endPos := by
  unfold mkRefLM
  split
  · split <;> simp
  · simp

theorem matchInlineAt_endPos {s : List Char} {p : Nat} {isImg : Bool} {b : Nat}
    {lm : LM} (h : matchInlineAt s p isImg b = some lm) : 1 ≤ lm.endPos := by
  unfold matchInlineAt at h
  split at h
  · split at h
    · split at h
      · simp only [Option.some.injEq] at h
        subst h
        simp
      · simp at h
    · simp at h
  · simp at h

theorem matchRefAt_endPos {s : List Char} {p : Nat} {isImg : Bool} {b : Nat}
    {lm : LM} (h : matchRefAt s p isImg b = some lm) : 1 ≤ lm.endPos := by
  unfold matchRefAt at h
  split at h
  · split at h
    · simp only [Option.some.injEq] at h
      subst h
      exact mkRefLM_endPos _ _ _ _ _ _
    · split at h
      · simp only [Option.some.injEq] at h
        subst h
        exact mkRefLM_endPos _ _ _ _ _ _
      · simp at h
  · simp at h

theorem matchTagAt_endPos {s : List Char} {p nmStart : Nat} {lm : LM}
    (h : matchTagAt s p nmStart = some lm) : 1 ≤ lm.endPos := by
  unfold matchTagAt at h
  split at h
  · simp at h
  · split at h
    · simp only [Option.some.injEq] at h
      subst h
      simp
    · simp at h

theorem linkMatchAt_endPos {s : List Char} {p : Nat} {lm : LM}
    (h : linkMatchAt s p = some lm) : 1 ≤ lm.endPos := by
  unfold linkMatchAt at h
  split at h
  · rename_i lm1 h1
    simp only [Option.some.injEq] at h
    subst h
    unfold matchInline at h1
    split at h1
    · exact matchInlineAt_endPos h1
    · exact matchInlineAt_endPos h1
  · split at h
    · rename_i lm2 h2
      simp only [Option.some.injEq] at h
      subst h
      unfold matchRef at h2
      split at h2
      · exact matchRefAt_endPos h2
      · exact matchRefAt_endPos h2
    · unfold matchTag at h
      split at h
      · exact matchTagAt_endPos h
      · simp at h

theorem linkSearch_bounds {s : List Char} {lm : LM}
    (h : linkSearch s = some lm) : 1 ≤ lm.endPos ∧ 1 ≤ s.length := by
  unfold linkSearch at h
  split at h
  · rename_i p hp
    refine ⟨linkMatchAt_endPos h, ?_⟩
    have := List.mem_range.mp (List.mem_of_find?_eq_some hp)
    omega
  · simp at h

/-- One classified match's effect (`markdown_tokens.cpp:402-475`): the
position scanning resumes at, the replacement-table additions, and the text
re-emitted into the working string after the first placeholder. -/
def linkStep (s : List Char) (reps : List Tok) (idTable : LinkIds) (lm : LM) :
    Nat × List Tok × List Char :=
  match lm.kind with
  | .ref isImg contents idStr =>
    let linkId := match idStr with
      | some l => if l = [] then cleanTextLinkRef contents else l
      | none => cleanTextLinkRef contents
    match idTable.find linkId with
    | some target =>
      if isImg then
        (lm.endPos, reps ++ [Tok.image contents target.url target.title], [])
      else
        (lm.endPos, reps ++ [mkHtmlAnchorTag target.url target.title,
          Tok.htmlTag (str "/a")],
          contents ++ placeholder (reps.length + 1) (str "links&Images2"))
    | none =>
      (lm.startPos + 1,
        reps ++ [Tok.rawText (sliceBetween s lm.startPos (lm.startPos + 1)) true], [])
  | .inl isImg contents urlAndTitle =>
    match parseUrlTitle urlAndTitle with
    | some r =>
      if isImg then
        (lm.endPos, reps ++ [Tok.image contents r.1 r.2], [])
      else
        (lm.endPos, reps ++ [mkHtmlAnchorTag r.1 r.2, Tok.htmlTag (str "/a")],
          contents ++ placeholder (reps.length + 1) (str "links&Images2"))
    | none =>
      (lm.startPos + 1,
        reps ++ [Tok.rawText (sliceBetween s lm.startPos (lm.startPos + 1)) true], [])
  | .tag contents name =>
    let rep :=
      if looksLikeUrl contents then
        Tok.container [mkHtmlAnchorTag contents, Tok.rawText contents false,
          Tok.htmlTag (str "/a")]
      else if looksLikeEmailAddress contents then
        Tok.container [mkHtmlAnchorTag (emailEncode (str "mailto:" ++ contents)),
          Tok.rawText (emailEncode contents) false, Tok.htmlTag (str "/a")]
      else if isValidTag name ≠ 0 then
        Tok.htmlTag (restoreProcessedItems contents reps)
      else Tok.rawText (sliceBetween s lm.startPos lm.endPos) true
    (lm.endPos, reps ++ [rep], [])

theorem linkStep_pos {s : List Char} {reps : List Tok} {idTable : LinkIds}
    {lm : LM} (h : 1 ≤ lm.endPos) : 1 ≤ (linkStep s reps idTable lm).1 := by
  simp only [linkStep]
  rcases lm with ⟨kind, sp, ep⟩
  cases kind with
  | ref isImg contents idStr =>
    simp only
    split
    · split <;> simp_all
    · simp
  | inl isImg contents urlAndTitle =>
    simp only
    split
    · split <;> simp_all
    · simp
  | tag contents name => simpa using h

/-- `RawText::_processLinksImagesAndTags` (`markdown_tokens.cpp:362`). -/
def processLinksImagesAndTags (s : List Char) (reps : List Tok)
    (idTable : LinkIds) : List Char × List Tok :=
  go (s.length + 1) s reps
where
  go : Nat → List Char → List Tok → List Char × List Tok
  | 0, s0, reps0 => (s0, reps0)
  | fuel + 1, s0, reps0 =>
    match linkSearch s0 with
    | none => (s0, reps0)
    | some lm =>
      let st := linkStep s0 reps0 idTable lm
      let r := go fuel (s0.drop st.1) st.2.1
      (s0.take lm.startPos ++ placeholder reps0.length (str "links&Images1") ++
        st.2.2 ++ r.1, r.2)

/-! ## HTML tag attribute protection (`markdown_tokens.cpp:243-288`)

`_processHtmlTagAttributes` searches
`<((/?)([a-zA-Z0-9]+)(?:( +[a-zA-Z0-9]+?(?: ?= ?("|').*?\5))+? */? *))>`
(note: at least one quoted attribute) and, when the tag name is known,
replaces each `= ?("|').*?\1` attribute string inside the matched tag with
a placeholder protecting it from the code-span pass. -/

/-- The quoted value `(q).*?(q)` at `r4`; returns the position after the
closing quote. -/
def parseAttrQuote (s : List Char) (r4 : Nat) : Option Nat :=
  match s[r4]? with
  | some q =>
    if q = '"' || q = '\'' then
      match findFrom s (r4+1) (· = q) with
      | some e => some (e+1)
      | none => none
    else none
  | none => none

/-- The ` ?= ?(q).*?(q)` value part at `r3`. -/
def parseAttrEq2 (s : List Char) (r3 : Nat) : Option Nat :=
  if s[r3]? = some '=' then
    parseAttrQuote s (if s[r3+1]? = some ' ' then r3 + 2 else r3 + 1)
  else none

def parseAttrEq (s : List Char) (r2 : Nat) : Option Nat :=
  parseAttrEq2 s (if s[r2]? = some ' ' then r2 + 1 else r2)

/-- The attribute after its leading spaces. -/
def parseAttrNamed (s : List Char) (r1 : Nat) : Option Nat :=
  if ((s.drop r1).takeWhile isAlnumAscii).length = 0 then none
  else
    parseAttrEq s (r1 + ((s.drop r1).takeWhile isAlnumAscii).length)

/-- One ` +name ?= ?(q)value(q)` attribute starting at `r`; returns the
position after the closing quote. -/
def parseAttr (s : List Char) (r : Nat) : Option Nat :=
  if ((s.drop r).takeWhile isSp).length = 0 then none
  else
    parseAttrNamed s (r + ((s.drop r).takeWhile isSp).length)

def tryTagClose3 (s : List Char) (r3 : Nat) : Option Nat :=
  if s[r3 + ((s.drop r3).takeWhile isSp).length]? = some '>' then
    some (r3 + ((s.drop r3).takeWhile isSp).length + 1)
  else none

def tryTagClose2 (s : List Char) (r2 : Nat) : Option Nat :=
  tryTagClose3 s (if s[r2]? = some '/' then r2 + 1 else r2)

/-- The closing ` */? *>` of the tag, at `r`; returns the position after
`>`. -/
def tryTagClose (s : List Char) (r : Nat) : Option Nat :=
  tryTagClose2 s (r + ((s.drop r).takeWhile isSp).length)

theorem findFrom_ge {s : List Char} {start e : Nat} {pred : Char → Bool}
    (h : findFrom s start pred = some e) : start ≤ e ∧ e < s.length := by
  unfold findFrom at h
  have h1 := List.find?_some h
  have h2 := List.mem_range.mp (List.mem_of_find?_eq_some h)
  simp only [Bool.and_eq_true, decide_eq_true_eq] at h1
  exact ⟨h1.1, h2⟩

theorem parseAttrQuote_gt {s : List Char} {r4 r' : Nat}
    (h : parseAttrQuote s r4 = some r') : r4 + 1 ≤ r' := by
  unfold parseAttrQuote at h
  split at h
  · split at h
    · split at h
      · simp only [Option.some.injEq] at h
        rename_i e he
        have := findFrom_ge he
        omega
      · simp at h
    · simp at h
  · simp at h

theorem parseAttrEq2_gt {s : List Char} {r3 r' : Nat}
    (h : parseAttrEq2 s r3 = some r') : r3 + 1 ≤ r' := by
  unfold parseAttrEq2 at h
  split at h
  · have := parseAttrQuote_gt h
    split at this <;> omega
  · simp at h

theorem parseAttrEq_gt {s : List Char} {r2 r' : Nat}
    (h : parseAttrEq s r2 = some r') : r2 + 1 ≤ r' := by
  unfold parseAttrEq at h
  have := parseAttrEq2_gt h
  split at this <;> omega

theorem parseAttr_gt {s : List Char} {r r' : Nat}
    (h : parseAttr s r = some r') : r + 1 ≤ r' := by
  unfold parseAttr at h
  split at h
  · simp at h
  · rename_i hsp
    unfold parseAttrNamed at h
    split at h
    · simp at h
    · have := parseAttrEq_gt h
      omega

theorem parseAttr_lt {s : List Char} {r r' : Nat}
    (h : parseAttr s r = some r') : r < s.length := by
  unfold parseAttr at h
  split at h
  · simp at h
  · rename_i hsp
    by_contra hc
    push_neg at hc
    have hnil : s.drop r = [] := List.drop_eq_nil_of_le (by omega)
    rw [hnil] at hsp
    simp [List.takeWhile] at hsp

theorem tryTagClose_pos {s : List Char} {r e : Nat}
    (h : tryTagClose s r = some e) : 1 ≤ e := by
  unfold tryTagClose tryTagClose2 tryTagClose3 at h
  split at h
  · split at h
    · simp only [Option.some.injEq] at h
      omega
    · simp at h
  · split at h
    · simp only [Option.some.injEq] at h
      omega
    · simp at h

/-- `(attr)+? */? *>`: lazily take one attribute after another until the
closing part matches; at least one attribute is required. -/
def parseAttrsThenClose (s : List Char) (r : Nat) : Option Nat :=
  go (s.length + 1) r
where
  go : Nat → Nat → Option Nat
  | 0, _ => none
  | fuel + 1, r0 =>
    match parseAttr s r0 with
    | none => none
    | some r1 =>
      match tryTagClose s r1 with
      | some e => some e
      | none => go fuel r1

theorem parseAttrsThenClose_go_pos {s : List Char} {fuel r e : Nat}
    (h : parseAttrsThenClose.go s fuel r = some e) : 1 ≤ e := by
  induction fuel generalizing r with
  | zero => simp [parseAttrsThenClose.go] at h
  | succ fuel ih =>
    rw [parseAttrsThenClose.go] at h
    split at h
    · simp at h
    · split at h
      · rename_i he
        simp only [Option.some.injEq] at h
        subst h
        exact tryTagClose_pos he
      · exact ih h

theorem parseAttrsThenClose_pos {s : List Char} {r e : Nat}
    (h : parseAttrsThenClose s r = some e) : 1 ≤ e :=
  parseAttrsThenClose_go_pos h

/-- The name-and-attributes part of the tag match, from position `q1`. -/
def matchHtmlTokenNamed (s : List Char) (q1 : Nat) : Option (List Char × Nat) :=
  if ((s.drop q1).takeWhile isAlnumAscii).length = 0 then none
  else
    match parseAttrsThenClose s (q1 + ((s.drop q1).takeWhile isAlnumAscii).length) with
    | some e => some ((s.drop q1).takeWhile isAlnumAscii, e)
    | none => none

/-- The whole-tag match at `p`: `<`, optional `/`, a name, one or more
quoted attributes, the close.  Returns (name, end position). -/
def matchHtmlToken (s : List Char) (p : Nat) : Option (List Char × Nat) :=
  if s[p]? = some '<' then
    matchHtmlTokenNamed s (if s[p+1]? = some '/' then p + 2 else p + 1)
  else none

/-- Leftmost whole-tag match: (start, name, end). -/
def htmlTokenSearch (s : List Char) : Option (Nat × List Char × Nat) :=
  match (List.range s.length).find? (fun p => (matchHtmlToken s p).isSome) with
  | some p =>
    match matchHtmlToken s p with
    | some r => some (p, r.1, r.2)
    | none => none
  | none => none

/-- One `= ?("|').*?\1` attribute-string match inside a tag's text:
returns the end position. -/
def attrStringAt (ft : List Char) (i : Nat) : Option Nat :=
  if ft[i]? = some '=' then
    parseAttrQuote ft (if ft[i+1]? = some ' ' then i + 2 else i + 1)
  else none

/-- Leftmost attribute-string match in `ft`. -/
def attrStringSearch (ft : List Char) : Option (Nat × Nat) :=
  match (List.range ft.length).find? (fun i => (attrStringAt ft i).isSome) with
  | some i =>
    match attrStringAt ft i with
    | some e => some (i, e)
    | none => none
  | none => none

theorem attrStringAt_gt {ft : List Char} {i e : Nat}
    (h : attrStringAt ft i = some e) : i + 1 ≤ e := by
  unfold attrStringAt at h
  split at h
  · have := parseAttrQuote_gt h
    split at this <;> omega
  · simp at h

/-- The inner rewriting loop (`markdown_tokens.cpp:261-274`): protect each
attribute string of the matched tag text behind a placeholder. -/
def processAttrStrings (ft : List Char) (reps : List Tok) : List Char × List Tok :=
  go (ft.length + 1) ft reps
where
  go : Nat → List Char → List Tok → List Char × List Tok
  | 0, f0, reps0 => (f0, reps0)
  | fuel + 1, f0, reps0 =>
    match attrStringSearch f0 with
    | none => (f0, reps0)
    | some (i, e) =>
      let r := go fuel (f0.drop e)
        (reps0 ++ [Tok.textHolder (sliceBetween f0 i e) false ampsAngles])
      (f0.take i ++ placeholder reps0.length (str "htmlTagAttr") ++ r.1, r.2)

theorem matchHtmlTokenNamed_pos {s : List Char} {q1 : Nat}
    {r : List Char × Nat} (h : matchHtmlTokenNamed s q1 = some r) : 1 ≤ r.2 := by
  unfold matchHtmlTokenNamed at h
  split at h
  · simp at h
  · split at h
    · rename_i e he
      simp only [Option.some.injEq] at h
      subst h
      simpa using parseAttrsThenClose_pos he
    · simp at h

theorem htmlTokenSearch_bounds {s : List Char} {p : Nat} {nm : List Char}
    {e : Nat} (h : htmlTokenSearch s = some (p, nm, e)) :
    p < s.length ∧ 1 ≤ e := by
  unfold htmlTokenSearch at h
  split at h
  · rename_i p0 hp
    split at h
    · rename_i r hr
      simp only [Option.some.injEq, Prod.mk.injEq] at h
      obtain ⟨rfl, rfl, rfl⟩ := h
      refine ⟨List.mem_range.mp (List.mem_of_find?_eq_some hp), ?_⟩
      unfold matchHtmlToken at hr
      split at hr
      · exact matchHtmlTokenNamed_pos hr
      · simp at hr
    · simp at h
  · simp at h

/-- `RawText::_processHtmlTagAttributes` (`markdown_tokens.cpp:243`). -/
def processHtmlTagAttributes (s : List Char) (reps : List Tok) :
    List Char × List Tok :=
  go (s.length + 1) s reps
where
  go : Nat → List Char → List Tok → List Char × List Tok
  | 0, s0, reps0 => (s0, reps0)
  | fuel + 1, s0, reps0 =>
    match htmlTokenSearch s0 with
    | none => (s0, reps0)
    | some (p, nm, e) =>
      if isValidTag nm ≠ 0 then
        let ftr := processAttrStrings (sliceBetween s0 p e) reps0
        let r := go fuel (s0.drop e) ftr.2
        (s0.take p ++ ftr.1 ++ r.1, r.2)
      else
        let r := go fuel (s0.drop e) reps0
        (s0.take e ++ r.1, r.2)

/-! ## Emphasis / strong matching (`markdown_tokens.cpp:484-622`)

`_processBoldAndItalicSpans` has four stages: a delimiter-run scan driven
by `cEmphasisExpression`, a forward matching pass with 3-run splitting, a
stack-based nesting validation pass, and the final placeholder decoding.

The matching pass is embedded with explicit fuel: for delimiter sizes 1-3
produced by the scanner the fuel `3·n+3` is never exhausted, and the
nesting invariants proved below hold for every fuel value.  (For a size-3
open marker meeting a size-3 close marker of the other character, the C++
splits the open into sizes 0 and 3 and then re-splits the close against
the size-0 open forever — e.g. on `a ***x___ b` the original
`_processBoldAndItalicSpans` does not terminate.) -/

/-- `[[:punct:]]` of the C locale: ASCII punctuation. -/
def isPunctAscii (c : Char) : Bool :=
  (33 ≤ c.toNat && c.toNat ≤ 47) || (58 ≤ c.toNat && c.toNat ≤ 64) ||
    (91 ≤ c.toNat && c.toNat ≤ 96) || (123 ≤ c.toNat && c.toNat ≤ 126)

/-- The character before position `p`. -/
def prevChar (s : List Char) (p : Nat) : Option Char :=
  if p = 0 then none else s[p-1]?

/-- The largest run length `1 ≤ k ≤ cap` whose lookahead succeeds
(`{1,3}` is greedy and backtracks). -/
def bestK (cap : Nat) (cond : Nat → Bool) : Option Nat :=
  ((List.range (cap+1)).reverse).find? (fun k => decide (1 ≤ k) && cond k)

/-- `(?! |$)` after `k` delimiter characters. -/
def nextNotSpace (s : List Char) (p k : Nat) : Bool :=
  match s[p+k]? with
  | some d => d ≠ ' '
  | none => false

/-- `(?! |$|[[:punct:]])` after `k` delimiter characters. -/
def nextNotSpacePunct (s : List Char) (p k : Nat) : Bool :=
  match s[p+k]? with
  | some d => !(d = ' ' || isPunctAscii d)
  | none => false

/-- `(?=$| |[[:punct:]])` after `k` delimiter characters. -/
def nextSpaceEndPunct (s : List Char) (p k : Nat) : Bool :=
  match s[p+k]? with
  | some d => d = ' ' || isPunctAscii d
  | none => true

/-- The `*` alternatives of `cEmphasisExpression` at `p`: m[1] (open,
lookbehind space/punct or lookahead not-space/punct) before m[3] (close).
Returns (is-open, run length). -/
def emphMatchStar (s : List Char) (p : Nat) : Option (Bool × Nat) :=
  match (if (match prevChar s p with
             | some d => d = ' ' || isPunctAscii d
             | none => false) then
      bestK (min 3 (runLen s p '*')) (fun k => nextNotSpace s p k)
    else none) with
  | some k => some (true, k)
  | none =>
    match bestK (min 3 (runLen s p '*')) (fun k => nextNotSpacePunct s p k) with
    | some k => some (true, k)
    | none =>
      match (if (match prevChar s p with
                 | some d => !(d = ' ')
                 | none => true) then
          bestK (min 3 (runLen s p '*')) (fun k => nextSpaceEndPunct s p k)
        else none) with
      | some k => some (false, k)
      | none =>
        if (match prevChar s p with
            | some d => !(d = ' ' || isPunctAscii d)
            | none => true) && decide (1 ≤ min 3 (runLen s p '*')) then
          some (false, min 3 (runLen s p '*'))
        else none

/-- The `_` alternatives: m[2] (open; its second branch is subsumed by the
first) before m[4] (close; no-lookbehind branch first, then the
punctuation-flanked branch). -/
def emphMatchUnderscore (s : List Char) (p : Nat) : Option (Bool × Nat) :=
  match bestK (min 3 (runLen s p '_')) (fun k => nextNotSpacePunct s p k) with
  | some k => some (true, k)
  | none =>
    if (match prevChar s p with
        | some d => !(d = ' ' || isPunctAscii d)
        | none => true) && decide (1 ≤ min 3 (runLen s p '_')) then
      some (false, min 3 (runLen s p '_'))
    else
      match (if (match prevChar s p with
                 | some d => isPunctAscii d
                 | none => false) then
          bestK (min 3 (runLen s p '_')) (fun k =>
            match s[p+k]? with
            | some d => d = ' '
            | none => true)
        else none) with
      | some k => some (false, k)
      | none => none

/-- One scan match at `p`: (is-open, character, run length, subject to the
mid-word alphanumeric demotion of m[2]/m[4]). -/
def emphAt (s : List Char) (p : Nat) : Option (Bool × Char × Nat × Bool) :=
  if s[p]? = some '*' then
    (emphMatchStar s p).map (fun r => (r.1, '*', r.2, false))
  else if s[p]? = some '_' then
    (emphMatchUnderscore s p).map (fun r => (r.1, '_', r.2, true))
  else none

/-- The next scan match at or after `cur`. -/
def emphFind (s : List Char) (cur : Nat) : Option Nat :=
  (List.range s.length).find? (fun p => decide (cur ≤ p) && (emphAt s p).isSome)

theorem bestK_pos {cap k : Nat} {cond : Nat → Bool}
    (h : bestK cap cond = some k) : 1 ≤ k := by
  have h1 := List.find?_some h
  simp only [Bool.and_eq_true, decide_eq_true_eq] at h1
  exact h1.1

theorem emphAt_k_pos {s : List Char} {p : Nat} {r : Bool × Char × Nat × Bool}
    (h : emphAt s p = some r) : 1 ≤ r.2.2.1 := by
  unfold emphAt at h
  split at h
  · simp only [Option.map_eq_some'] at h
    obtain ⟨a, ha, rfl⟩ := h
    unfold emphMatchStar at ha
    split at ha
    · rename_i k hk
      simp only [Option.some.injEq] at ha
      subst ha
      split at hk
      · exact bestK_pos hk
      · simp at hk
    · split at ha
      · rename_i k hk
        simp only [Option.some.injEq] at ha
        subst ha
        exact bestK_pos hk
      · split at ha
        · rename_i k hk
          simp only [Option.some.injEq] at ha
          subst ha
          split at hk
          · exact bestK_pos hk
          · simp at hk
        · split at ha
          · rename_i hc
            simp only [Option.some.injEq] at ha
            subst ha
            simp only [Bool.and_eq_true, decide_eq_true_eq] at hc
            exact hc.2
          · simp at ha
  · split at h
    · simp only [Option.map_eq_some'] at h
      obtain ⟨a, ha, rfl⟩ := h
      unfold emphMatchUnderscore at ha
      split at ha
      · rename_i k hk
        simp only [Option.some.injEq] at ha
        subst ha
        exact bestK_pos hk
      · split at ha
        · rename_i hc
          simp only [Option.some.injEq] at ha
          subst ha
          simp only [Bool.and_eq_true, decide_eq_true_eq] at hc
          exact hc.2
        · split at ha
          · rename_i k hk
            simp only [Option.some.injEq] at ha
            subst ha
            split at hk
            · exact bestK_pos hk
            · simp at hk
          · simp at ha
    · simp at h

/-- The delimiter-run scan (`markdown_tokens.cpp:498-538`): emit raw text
between matches and one marker (or demoted raw text) per match. -/
def emphasisScanFrom (s : List Char) (cur : Nat) : List Tok :=
  go (s.length + 1) cur
where
  go : Nat → Nat → List Tok
  | 0, _ => []
  | fuel + 1, cur0 =>
    match emphFind s cur0 with
    | none => if s.drop cur0 = [] then [] else [Tok.rawText (s.drop cur0) true]
    | some p =>
      match emphAt s p with
      | some r =>
        let isOpen := r.1
        let c := r.2.1
        let k := r.2.2.1
        let dem := r.2.2.2
        let tok :=
          if dem && decide (0 < p) && decide (p + k < s.length) &&
              (match s[p-1]? with | some d => isAlnumAscii d | none => false) &&
              (match s[p+k]? with | some d => isAlnumAscii d | none => false) then
            Tok.rawText (sliceBetween s p (p+k)) true
          else Tok.boldOrItalic ⟨isOpen, c, k, none, false⟩
        (if sliceBetween s cur0 p = [] then []
         else [Tok.rawText (sliceBetween s cur0 p) true]) ++
          tok :: go fuel (p + k)
      | none => []

/-- The forward-matching inner scan (`markdown_tokens.cpp:546-589`): for
the open marker `o`, walk the following tokens; split a 3-run close
against a shorter open, match on equal character and size, split a 3-run
open against a shorter close. -/
inductive InnerStatus where
  | matched
  | nomatch
  | osplit (csize : Nat)
deriving DecidableEq, Repr

def innerScan (fuel : Nat) (o : Marker) (id : Nat) (ts : List Tok) :
    List Tok × InnerStatus :=
  match fuel with
  | 0 => (ts, .nomatch)
  | fuel + 1 =>
    match ts with
    | [] => ([], .nomatch)
    | t :: rest =>
      match t with
      | .boldOrItalic c =>
        if !c.isOpen && c.mtch.isNone && !c.disabled then
          if c.size = 3 ∧ o.size ≠ 3 then
            let res := innerScan fuel o id
              (Tok.boldOrItalic ⟨false, c.ch, 3 - o.size, none, false⟩ ::
               Tok.boldOrItalic ⟨false, c.ch, o.size, none, false⟩ :: rest)
            (Tok.boldOrItalic { c with disabled := true } :: res.1, res.2)
          else if c.ch = o.ch ∧ c.size = o.size then
            (Tok.boldOrItalic { c with mtch := some id } :: rest, .matched)
          else if o.size = 3 then
            (t :: rest, .osplit c.size)
          else
            let res := innerScan fuel o id rest
            (t :: res.1, res.2)
        else
          let res := innerScan fuel o id rest
          (t :: res.1, res.2)
      | _ =>
        let res := innerScan fuel o id rest
        (t :: res.1, res.2)

/-- The outer matching loop (`markdown_tokens.cpp:540-591`), processing
each unmatched open marker in turn. -/
def pass1 (fuel : Nat) (id : Nat) (done todo : List Tok) : List Tok :=
  match fuel with
  | 0 => done.reverse ++ todo
  | fuel + 1 =>
    match todo with
    | [] => done.reverse
    | t :: ts =>
      match t with
      | .boldOrItalic o =>
        if o.isOpen && o.mtch.isNone && !o.disabled then
          let res := innerScan (3 * ts.length + 3) o id ts
          match res.2 with
          | .matched =>
            pass1 fuel (id+1) (Tok.boldOrItalic { o with mtch := some id } :: done) res.1
          | .nomatch => pass1 fuel id (t :: done) res.1
          | .osplit csize =>
            pass1 fuel id (Tok.boldOrItalic { o with disabled := true } :: done)
              (Tok.boldOrItalic ⟨true, o.ch, o.size - csize, none, false⟩ ::
               Tok.boldOrItalic ⟨true, o.ch, csize, none, false⟩ :: res.1)
        else pass1 fuel id (t :: done) ts
      | _ => pass1 fuel id (t :: done) ts

/-- The nesting-validation traversal (`markdown_tokens.cpp:593-611`):
push matched opens; a matched close whose id differs from the top of the
stack un-matches its pair, otherwise pop and drop the already-un-matched
opens below.  Returns `none` when `top()` is read on an empty stack (that
read is undefined behaviour in the C++), else the ids invalidated. -/
def pass2Aux (stack : List Nat) (invalid : List Nat) (l : List Tok) :
    Option (List Nat) :=
  match l with
  | [] => some invalid
  | t :: ts =>
    match t with
    | .boldOrItalic m =>
      match m.mtch with
      | some i =>
        if m.isOpen then pass2Aux (i :: stack) invalid ts
        else
          match stack with
          | [] => none
          | top :: rest =>
            if i ≠ top then pass2Aux stack (i :: invalid) ts
            else pass2Aux (rest.dropWhile (fun j => invalid.contains j)) invalid ts
      | none => pass2Aux stack invalid ts
    | _ => pass2Aux stack invalid ts

/-- Apply the invalidations of the second traversal (`matched(0)`). -/
def pass2Apply (l : List Tok) : List Tok :=
  match pass2Aux [] [] l with
  | none => l
  | some invalid =>
    l.map (fun t =>
      match t with
      | .boldOrItalic m =>
        match m.mtch with
        | some i =>
          if invalid.contains i then Tok.boldOrItalic { m with mtch := none } else t
        | none => t
      | _ => t)

/-- `RawText::_processBoldAndItalicSpans` (`markdown_tokens.cpp:484`):
scan, match, validate nesting, then decode placeholders in the remaining
text chunks. -/
def processBoldAndItalicSpans (s : List Char) (reps : List Tok) : List Tok :=
  let tgt := emphasisScanFrom s 0
  let t2 := pass2Apply (pass1 (3 * tgt.length + 3) 0 [] tgt)
  t2.flatMap (fun t =>
    if t.text?.isSome && t.canContainMarkup then
      encodeProcessedItems (t.text?.getD []) reps
    else [t])

/-- `BoldOrItalicMarker::writeAsHtml` (`markdown_tokens.cpp:798`):
disabled markers emit nothing, matched markers the `<em>`/`<strong>`
wrappers, unmatched markers their literal characters. -/
def markerHtml (m : Marker) : List Char :=
  if m.disabled then []
  else
    match m.mtch with
    | some _ =>
      if m.isOpen then
        if m.size = 1 then str "<em>"
        else if m.size = 2 then str "<strong>"
        else str "<strong><em>"
      else
        if m.size = 1 then str "</em>"
        else if m.size = 2 then str "</strong>"
        else str "</em></strong>"
    | none => List.replicate m.size m.ch

/-! ## Block-level line matchers (`markdown.cpp:308-641`) -/

/-- Number of leading spaces. -/
def leadSp (ln : List Char) : Nat := (ln.takeWhile isSp).length

/-- The ` +([^*-].*)$` tail of a list-item line, after the marker at
`markerEnd`: greedy spaces backtrack until the content starts with a
character other than `*`/`-` (a space qualifies). -/
def listTail (ln : List Char) (markerEnd : Nat) : Option (List Char) :=
  match bestK ((ln.drop markerEnd).takeWhile isSp).length (fun k =>
      match (ln.drop (markerEnd + k)).head? with
      | some c => !(c = '*' || c = '-')
      | none => false) with
  | some k => some (ln.drop (markerEnd + k))
  | none => none

/-- `cUnorderedListExpression` `^( *)([*+-]) +([^*-].*)$`:
(indent, marker character, content). -/
def matchUnorderedList (ln : List Char) : Option (Nat × Char × List Char) :=
  match ln[(leadSp ln)]? with
  | some c =>
    if c = '*' || c = '+' || c = '-' then
      (listTail ln (leadSp ln + 1)).map (fun t => (leadSp ln, c, t))
    else none
  | none => none

/-- `cOrderedListExpression` `^( *)([0-9]+)\. +(.*)$`: (indent, content). -/
def matchOrderedList (ln : List Char) : Option (Nat × List Char) :=
  let ind := leadSp ln
  let ds := (ln.drop ind).takeWhile Char.isDigit
  if ds.length = 0 then none
  else if ln[(ind + ds.length)]? = some '.' then
    let afterDot := ind + ds.length + 1
    let sp := ((ln.drop afterDot).takeWhile isSp).length
    if sp = 0 then none
    else some (ind, ln.drop (afterDot + sp))
  else none

/-- `nextItemExpression` for an unordered list:
`^<indent spaces>\<marker> +([^*-].*)$`. -/
def matchNextUnordered (ln : List Char) (indent : Nat) (startChar : Char) :
    Option (List Char) :=
  if ln.take indent = List.replicate indent ' ' && ln[(indent : Nat)]? = some startChar then
    listTail ln (indent + 1)
  else none

/-- `nextItemExpression` for an ordered list:
`^<indent spaces>[0-9]+\. +(.*)$`. -/
def matchNextOrdered (ln : List Char) (indent : Nat) : Option (List Char) :=
  if ln.take indent = List.replicate indent ' ' then
    let ds := (ln.drop indent).takeWhile Char.isDigit
    if ds.length = 0 then none
    else if ln[(indent + ds.length)]? = some '.' then
      let afterDot := indent + ds.length + 1
      let sp := ((ln.drop afterDot).takeWhile isSp).length
      if sp = 0 then none else some (ln.drop (afterDot + sp))
    else none
  else none

def matchNextItem (isU : Bool) (indent : Nat) (startChar : Char)
    (ln : List Char) : Option (List Char) :=
  if isU then matchNextUnordered ln indent startChar
  else matchNextOrdered ln indent

/-- `startSublistExpression` `^<indent spaces> +(([*+-])|([0-9]+\.)) +.*$`. -/
def matchStartSublist (ln : List Char) (indent : Nat) : Bool :=
  let lead := leadSp ln
  decide (indent + 1 ≤ lead) &&
    (match ln[(lead : Nat)]? with
     | some c =>
       if c = '*' || c = '+' || c = '-' then
         decide (1 ≤ ((ln.drop (lead + 1)).takeWhile isSp).length)
       else
         (let ds := (ln.drop lead).takeWhile Char.isDigit
          decide (1 ≤ ds.length) && (ln[(lead + ds.length)]? = some '.') &&
            decide (1 ≤ ((ln.drop (lead + ds.length + 1)).takeWhile isSp).length))
     | none => false)

/-- `continuedAfterBlankLineExpression` `^ {indent+4}([^ ].*)$`:
exactly `indent+4` leading spaces followed by a non-space. -/
def matchContinuedAfterBlank (ln : List Char) (indent : Nat) :
    Option (List Char) :=
  if leadSp ln = indent + 4 && ln[(indent + 4)]?.isSome then
    some (ln.drop (indent + 4))
  else none

/-- `codeBlockAfterBlankLineExpression` `^ {indent+8}(.*)$`. -/
def matchCodeBlockAfterBlank (ln : List Char) (indent : Nat) :
    Option (List Char) :=
  if ln.take (indent + 8) = List.replicate (indent + 8) ' ' then
    some (ln.drop (indent + 8))
  else none

/-- `countQuoteLevel` (`markdown.cpp:308`). -/
def countQuoteLevel (prefixStr : List Char) : Nat :=
  prefixStr.countP (fun c => c = '>')

/-- Consume one ` {0,3}>` group at `r`; `none` when the group fails (4+
spaces before the `>` or no `>`). -/
def quoteGroup (ln : List Char) (r : Nat) : Option Nat :=
  let sp := ((ln.drop r).takeWhile isSp).length
  if sp ≤ 3 && ln[(r + sp)]? = some '>' then some (r + sp + 1) else none

/-- Greedily consume `(?: {0,3}>)+` (at least `minG`, as many as possible)
returning the end of the prefix and the group count. -/
def quotePrefix (ln : List Char) (r : Nat) (count : Nat) (fuel : Nat) :
    Nat × Nat :=
  match fuel with
  | 0 => (r, count)
  | fuel + 1 =>
    match quoteGroup ln r with
    | some r2 => quotePrefix ln r2 (count + 1) fuel
    | none => (r, count)

/-- `cBlockQuoteExpression` `^((?: {0,3}>)+) ?(.*)$`:
(quote level, content after the optional single space). -/
def matchBlockQuote (ln : List Char) : Option (Nat × List Char) :=
  let r := quotePrefix ln 0 0 (ln.length + 1)
  if r.2 = 0 then none
  else
    let after := if ln[(r.1)]? = some ' ' then r.1 + 1 else r.1
    some (r.2, ln.drop after)

/-- The continuation expression `^((?: {0,3}>){N}) ?(.*)$`: exactly `N`
groups, then the optional space and the content. -/
def matchBlockQuoteContinuation (ln : List Char) (level : Nat) :
    Option (List Char) :=
  quoteGroups ln 0 level
where
  quoteGroups (ln : List Char) (r : Nat) : Nat → Option (List Char)
    | 0 => some (ln.drop (if ln[(r : Nat)]? = some ' ' then r + 1 else r))
    | n + 1 =>
      match quoteGroup ln r with
      | some r2 => quoteGroups ln r2 n
      | none => none

/-- `cHashHeaders` `^ {0,3}(#{1,6}) +(.*?)( +#* *)?$`:
(level, content). -/
def matchHashHeader (ln : List Char) : Option (Nat × List Char) :=
  let k := min 3 (leadSp ln)
  let rest := ln.drop k
  if rest.head? ≠ some '#' then none
  else
    let hs := min 6 ((rest.takeWhile (fun c => c = '#')).length)
    if (rest.takeWhile (fun c => c = '#')).length > 6 then none
    else
      let afterH := rest.drop hs
      let sp := (afterH.takeWhile isSp).length
      if sp = 0 then none
      else
        let body := afterH.drop sp
        match (List.range (body.length + 1)).find? (fun i =>
            isTrailingHash (body.drop i)) with
        | some i => some (hs, body.take i)
        | none => none
where
  /-- `( +#* *)?$`: empty, or spaces then hashes then spaces. -/
  isTrailingHash (r : List Char) : Bool :=
    r = [] ||
      (r.head? = some ' ' &&
        ((r.dropWhile isSp).dropWhile (fun c => c = '#')).all isSp)

/-- `cUnderlinedHeaders` `^ {0,3}([-=])\1* *$`: the Setext underline. -/
def matchUnderline (ln : List Char) : Option Char :=
  let rest := ln.drop (min 3 (leadSp ln))
  match rest.head? with
  | some c =>
    if c = '-' || c = '=' then
      if (rest.dropWhile (fun d => d = c)).all isSp then some c else none
    else none
  | none => none

/-- `titleWithSpaces` `^ {0,3}(.*[^ ]) *$`: the Setext title capture. -/
def setextTitle (ln : List Char) : List Char :=
  ((ln.drop (min 3 (leadSp ln))).reverse.dropWhile isSp).reverse

/-- `cHorizontalRules` `^ {0,3}((\* *){3,}|(- *){3,}|(_ *){3,})$`. -/
def isHorizontalRule (ln : List Char) : Bool :=
  let r := ln.drop (min 3 (leadSp ln))
  match r.head? with
  | some c =>
    (c = '*' || c = '-' || c = '_') &&
      r.all (fun d => d = c || d = ' ') && decide (3 ≤ r.countP (fun d => d = c))
  | none => false

/-! ## Token-level block parsers (`markdown.cpp:110-641`)

Convention: each parser takes the token sequence starting at the C++
iterator `i` and returns the constructed token together with the tokens
strictly after the final position of `i` (the caller's `++ii` then starts
exactly there).  `parseListBlock` uses fuel for the mutual recursion with
its sub-list parsing; the fuel `2·n+4` is not exhausted on any input whose
sub-list recursion the C++ itself completes. -/

/-- Guard shared by the block recognizers:
`!(*i)->isBlankLine() && (*i)->text() && (*i)->canContainMarkup()`. -/
def lineGuard (t : Tok) : Bool :=
  !t.isBlankLineTok && t.text?.isSome && t.canContainMarkup

/-- `parseHorizontalRule` (`markdown.cpp:632`). -/
def parseHorizontalRule (toks : List Tok) : Option (Tok × List Tok) :=
  match toks with
  | [] => none
  | t :: ts =>
    if lineGuard t && isHorizontalRule (t.text?.getD []) then
      some (Tok.htmlTag (str "hr /"), ts)
    else none

/-- `parseHeader` (`markdown.cpp:598`): ATX hash headers, then Setext
underlined headers. -/
def parseHeader (toks : List Tok) : Option (Tok × List Tok) :=
  match toks with
  | [] => none
  | t :: ts =>
    if lineGuard t then
      match matchHashHeader (t.text?.getD []) with
      | some r => some (Tok.header r.1 [Tok.rawText r.2 true], ts)
      | none =>
        match ts with
        | [] => none
        | t2 :: ts2 =>
          if lineGuard t2 then
            match matchUnderline (t2.text?.getD []) with
            | some c =>
              some (Tok.header (if c = '=' then 1 else 2)
                [Tok.rawText (setextTitle (t.text?.getD [])) true], ts2)
            | none => none
          else none
    else none

/-- `isCodeBlockLine` (`markdown.cpp:194`): an indented code line, or blank
lines followed by one (each contributing a `\n`). -/
def isCodeBlockLine (toks : List Tok) : Option (List Char × List Tok) :=
  match toks with
  | [] => none
  | t :: ts =>
    if t.isBlankLineTok then
      match isCodeBlockLine ts with
      | some r => some ('\n' :: r.1, r.2)
      | none => none
    else if t.text?.isSome && t.canContainMarkup then
      if decide (4 ≤ (t.text?.getD []).length) &&
          (t.text?.getD []).take 4 = List.replicate 4 ' ' then
        some ((t.text?.getD []).drop 4, ts)
      else none
    else none

theorem isCodeBlockLine_rest {toks : List Tok} {r : List Char × List Tok}
    (h : isCodeBlockLine toks = some r) : r.2.length < toks.length := by
  induction toks generalizing r with
  | nil => simp [isCodeBlockLine] at h
  | cons t ts ih =>
    unfold isCodeBlockLine at h
    split at h
    · split at h
      · rename_i r2 hr2
        simp only [Option.some.injEq] at h
        subst h
        have := ih hr2
        simp only [List.length_cons]
        omega
      · simp at h
    · split at h
      · split at h
        · simp only [Option.some.injEq] at h
          subst h
          simp
        · simp at h
      · simp at h

/-- The collection loop of `parseCodeBlock` (`markdown.cpp:217`). -/
def codeBlockLoop (toks : List Tok) (acc : List Char) : List Char × List Tok :=
  go (toks.length + 1) toks acc
where
  go : Nat → List Tok → List Char → List Char × List Tok
  | 0, ts0, acc0 => (acc0, ts0)
  | fuel + 1, ts0, acc0 =>
    match isCodeBlockLine ts0 with
    | some r => go fuel r.2 (acc0 ++ r.1 ++ ['\n'])
    | none => (acc0, ts0)

/-- `parseCodeBlock` (`markdown.cpp:217`). -/
def parseCodeBlock (toks : List Tok) : Option (Tok × List Tok) :=
  match toks with
  | [] => none
  | t :: _ =>
    if t.isBlankLineTok then none
    else
      match isCodeBlockLine toks with
      | some r =>
        let l := codeBlockLoop r.2 (r.1 ++ ['\n'])
        some (Tok.codeBlock l.1, l.2)
      | none => none

/-- `parseBlockQuote` (`markdown.cpp:316`): the matched first line and all
continuation lines become `RawText`/`BlankLine` entries appended to the
accumulator; returns those entries and the unconsumed remainder. -/
def parseBlockQuote (toks : List Tok) : Option (List Tok × List Tok) :=
  match toks with
  | [] => none
  | t :: ts =>
    if lineGuard t then
      match matchBlockQuote (t.text?.getD []) with
      | some r =>
        let rest := bqLoop r.1 ts
        some (bqContent r.2 :: rest.1, rest.2)
      | none => none
    else none
where
  bqContent (content : List Char) : Tok :=
    if isBlankLine content then Tok.blankLine content else Tok.rawText content true
  bqLoop (level : Nat) : List Tok → List Tok × List Tok
    | [] => ([], [])
    | t :: ts =>
      match matchBlockQuoteContinuation (t.text?.getD []) level with
      | some content =>
        let r := bqLoop level ts
        (bqContent content :: r.1, r.2)
      | none => ([], t :: ts)

/-- `cReference`'s part after `"]:"`: ` +<?([^ >]+)>?` then the optional
inline title, anchored at the end of the line. -/
def refAfterColon (s : List Char) : Option (List Char × Option (List Char)) :=
  let sp := (s.takeWhile isSp).length
  if sp = 0 then none
  else
    let t1 := s.drop sp
    let t2 := if t1.head? = some '<' then t1.drop 1 else t1
    let url := t2.takeWhile (fun c => !(c = ' ' || c = '>'))
    if url.length = 0 then none
    else
      let t3 := t2.drop url.length
      let t4 := if t3.head? = some '>' then t3.drop 1 else t3
      if t4 = [] then some (url, none)
      else
        let t5 := t4.dropWhile isSp
        match t5.head? with
        | some q =>
          if (q = '\'' || q = '"') && decide (2 ≤ t5.length) &&
              t5.getLast? = some q then
            some (url, some (sliceBetween t5 1 (t5.length - 1)))
          else if t4.head? = some '(' && t4.getLast? = some ')' &&
              decide (2 ≤ t4.length) then
            some (url, some (sliceBetween t4 1 (t4.length - 1)))
          else none
        | none => none

/-- `cReference` `^ {0,3}\[(.+)\]: +<?([^ >]+)>?(?: *(?:('|")(.*)\3)|(?:\((.*)\)))?$`
(`markdown.cpp:551`): (id, url, inline title when present). -/
def matchReference (ln : List Char) :
    Option (List Char × List Char × Option (List Char)) :=
  let k := min 3 (leadSp ln)
  if ln[(k : Nat)]? = some '[' then
    match ((List.range ln.length).reverse).find? (fun j =>
        decide (k + 2 ≤ j) && (ln[(j : Nat)]? = some ']') &&
          (ln[(j + 1 : Nat)]? = some ':') &&
          (refAfterColon (ln.drop (j + 2))).isSome) with
    | some j =>
      match refAfterColon (ln.drop (j + 2)) with
      | some r => some (sliceBetween ln (k + 1) j, r.1, r.2)
      | none => none
    | none => none
  else none

/-- `cSeparateTitle` `^ *(?:(?:('|")(.*)\1)|(?:\((.*)\))) *$`
(`markdown.cpp:565`). -/
def matchSeparateTitle (ln : List Char) : Option (List Char) :=
  let t := ln.dropWhile isSp
  match t.head? with
  | some q =>
    if q = '\'' || q = '"' then
      match ((List.range t.length).reverse).find? (fun r =>
          decide (1 ≤ r) && (t[(r : Nat)]? = some q) && (t.drop (r+1)).all isSp) with
      | some r => some (sliceBetween t 1 r)
      | none => none
    else if q = '(' then
      match ((List.range t.length).reverse).find? (fun r =>
          decide (1 ≤ r) && (t[(r : Nat)]? = some ')') && (t.drop (r+1)).all isSp) with
      | some r => some (sliceBetween t 1 r)
      | none => none
    else none
  | none => none

/-- `parseReference` (`markdown.cpp:549`): on a match, record the id and
return the unconsumed remainder (the title may sit on the following
line). -/
def parseReference (toks : List Tok) (idt : LinkIds) :
    Option (LinkIds × List Tok) :=
  match toks with
  | [] => none
  | t :: ts =>
    if t.text?.isSome then
      match matchReference (t.text?.getD []) with
      | some (id, url, titleOpt) =>
        match titleOpt with
        | some title => some (idt.add id url title, ts)
        | none =>
          match ts with
          | [] => some (idt.add id url [], [])
          | t2 :: ts2 =>
            if t2.text?.isSome then
              match matchSeparateTitle (t2.text?.getD []) with
              | some title => some (idt.add id url title, ts2)
              | none => some (idt.add id url [], ts)
            else some (idt.add id url [], ts)
      | none => none
    else none

/-- The code-block collection loop inside `parseListBlock`
(`markdown.cpp:460-477`).  (When a blank line is the last token the C++
dereferences the end iterator; we stop instead.) -/
def collectListCodeBlock (todo : List Tok) (indent : Nat) (acc : List Char) :
    List Char × List Tok :=
  match todo with
  | [] => (acc, [])
  | t :: rest =>
    if t.isBlankLineTok then
      match rest with
      | [] => (acc, todo)
      | t2 :: rest2 =>
        match matchCodeBlockAfterBlank (t2.text?.getD []) indent with
        | some m1 => collectListCodeBlock rest2 indent (acc ++ '\n' :: (m1 ++ ['\n']))
        | none => (acc, todo)
    else if t.text?.isSome then
      match matchCodeBlockAfterBlank (t.text?.getD []) indent with
      | some m1 => collectListCodeBlock rest indent (acc ++ m1 ++ ['\n'])
      | none => (acc, todo)
    else (acc, todo)

/-- Flush the pending item tokens into a `ListItem`
(`markdown.cpp:512-515`, `528-531`). -/
def flushItem (subTokens subItemTokens : List Tok) : List Tok :=
  if subItemTokens.isEmpty then subTokens
  else subTokens ++ [Tok.listItem subItemTokens true]

/-- `UnorderedList`/`OrderedList` construction (`markdown_tokens.cpp:773`):
paragraph mode clears each item's paragraph inhibition. -/
def mkList (isU : Bool) (subTokens : List Tok) (pMode : Bool) : Tok :=
  let items := if pMode then
      subTokens.map (fun t =>
        match t with
        | .listItem s _ => Tok.listItem s false
        | x => x)
    else subTokens
  if isU then Tok.unorderedList items else Tok.orderedList items

mutual

/-- `parseListBlock` (`markdown.cpp:354`), returning the tokens from the
final position of `i` inclusive (the recursive sub-list calls resume
there; the top-level wrapper drops one more, as the caller's `++ii`
does). -/
def parseListInner (fuel : Nat) (sub : Bool) (toks : List Tok) :
    Option (Tok × List Tok) :=
  match fuel with
  | 0 => none
  | fuel + 1 =>
    match toks with
    | [] => none
    | t :: ts =>
      if lineGuard t then
        match matchUnorderedList (t.text?.getD []) with
        | some (ind, ch, content) =>
          if sub || decide (ind < 4) then
            let r := listLoop fuel true ind ch ts [] [Tok.rawText content true] 1 false
            if r.2.1 > 1 || ind ≠ 0 then some (mkList true r.1 r.2.2.1, r.2.2.2)
            else none
          else none
        | none =>
          match matchOrderedList (t.text?.getD []) with
          | some (ind, content) =>
            if sub || decide (ind < 4) then
              let r := listLoop fuel false ind '*' ts [] [Tok.rawText content true] 1 false
              if r.2.1 > 1 || ind ≠ 0 then some (mkList false r.1 r.2.2.1, r.2.2.2)
              else none
            else none
          | none => none
      else none

/-- The main loop of `parseListBlock` (`markdown.cpp:425-525`).  Returns
(items, itemCount, paragraphMode, tokens from the final `i`). -/
def listLoop (fuel : Nat) (isU : Bool) (ind : Nat) (startChar : Char)
    (todo subTokens subItemTokens : List Tok) (itemCount : Nat) (pMode : Bool) :
    List Tok × Nat × Bool × List Tok :=
  match fuel with
  | 0 => (flushItem subTokens subItemTokens, itemCount, pMode, todo)
  | fuel + 1 =>
    match todo with
    | [] => (flushItem subTokens subItemTokens, itemCount, pMode, [])
    | t :: rest =>
      if t.isBlankLineTok then
        match rest with
        | [] => (flushItem subTokens subItemTokens, itemCount, pMode, [])
        | t2 :: rest2 =>
          if t2.text?.isSome then
            if matchStartSublist (t2.text?.getD []) ind then
              match parseListInner fuel true (t2 :: rest2) with
              | some (p, restI) =>
                listLoop fuel isU ind startChar restI subTokens
                  (subItemTokens ++ [p]) (itemCount + 1) true
              | none =>
                (flushItem subTokens subItemTokens, itemCount + 1, true, t2 :: rest2)
            else
              match matchNextItem isU ind startChar (t2.text?.getD []) with
              | some m1 =>
                listLoop fuel isU ind startChar rest2
                  (flushItem subTokens subItemTokens) [Tok.rawText m1 true]
                  (itemCount + 1) true
              | none =>
                match matchContinuedAfterBlank (t2.text?.getD []) ind with
                | some m1 =>
                  listLoop fuel isU ind startChar rest2 subTokens
                    (subItemTokens ++ [Tok.blankLine [], Tok.rawText m1 true])
                    itemCount pMode
                | none =>
                  match matchCodeBlockAfterBlank (t2.text?.getD []) ind with
                  | some m1 =>
                    let cb := collectListCodeBlock rest2 ind (m1 ++ ['\n'])
                    listLoop fuel isU ind startChar cb.2 subTokens
                      (subItemTokens ++ [Tok.blankLine [], Tok.codeBlock cb.1])
                      (itemCount + 1) true
                  | none =>
                    (flushItem subTokens subItemTokens, itemCount, pMode, todo)
          else (flushItem subTokens subItemTokens, itemCount, pMode, todo)
      else if t.text?.isSome then
        if matchStartSublist (t.text?.getD []) ind then
          match parseListInner fuel true todo with
          | some (p, restI) =>
            listLoop fuel isU ind startChar restI subTokens
              (subItemTokens ++ [p]) (itemCount + 1) pMode
          | none => (flushItem subTokens subItemTokens, itemCount + 1, pMode, todo)
        else
          match matchNextItem isU ind startChar (t.text?.getD []) with
          | some m1 =>
            listLoop fuel isU ind startChar rest
              (flushItem subTokens subItemTokens) [Tok.rawText m1 true]
              (itemCount + 1) pMode
          | none =>
            if (matchUnorderedList (t.text?.getD [])).isSome ||
                (matchOrderedList (t.text?.getD [])).isSome then
              (flushItem subTokens subItemTokens, itemCount, pMode, todo)
            else
              listLoop fuel isU ind startChar rest subTokens
                (subItemTokens ++ [Tok.rawText ((t.text?.getD []).dropWhile isSp) true])
                itemCount pMode
      else (flushItem subTokens subItemTokens, itemCount, pMode, todo)

end

/-- The caller-facing `parseListBlock` (the caller's `++ii` drops the
terminator token the C++ leaves `i` on). -/
def parseListBlock (toks : List Tok) : Option (Tok × List Tok) :=
  (parseListInner (2 * toks.length + 4) false toks).map (fun r => (r.1, r.2.drop 1))

/-! ## Inline HTML blocks (`markdown.cpp:38-192`, `803-863`) -/

/-- `(attr)*? */? *>`: zero or more attributes, lazily, then the close
(the `cHtmlTokenSource` pattern, `markdown.cpp:38`). -/
def parseAttrsStarThenClose (s : List Char) (r : Nat) : Option Nat :=
  go (s.length + 1) r
where
  go : Nat → Nat → Option Nat
  | 0, _ => none
  | fuel + 1, r0 =>
    match tryTagClose s r0 with
    | some e => some e
    | none =>
      match parseAttr s r0 with
      | some r1 => go fuel r1
      | none => none

/-- The information `parseHtmlTag` extracts. -/
structure HtmlTagInfo where
  tagName : List Char
  isClosingTag : Bool
  endPos : Nat
deriving DecidableEq, Repr

/-- The `cHtmlTokenSource` tag anchored at position `p`. -/
def parseHtmlTagAt (s : List Char) (p : Nat) : Option HtmlTagInfo :=
  if s[(p : Nat)]? = some '<' then
    parseHtmlTagNamed s (s[(p+1 : Nat)]? = some '/')
      (if s[(p+1 : Nat)]? = some '/' then p + 2 else p + 1)
  else none
where
  parseHtmlTagNamed (s : List Char) (closing : Bool) (q1 : Nat) : Option HtmlTagInfo :=
    if ((s.drop q1).takeWhile isAlnumAscii).length = 0 then none
    else
      (parseAttrsStarThenClose s
          (q1 + ((s.drop q1).takeWhile isAlnumAscii).length)).map
        (fun e => ⟨(s.drop q1).takeWhile isAlnumAscii, closing, e⟩)

/-- `parseHtmlTag(..., cStarts)` (`markdown.cpp:45`): anchored at the
start of the line. -/
def parseHtmlTagStart (ln : List Char) : Option HtmlTagInfo := parseHtmlTagAt ln 0

/-- `parseHtmlTag(..., cAlone)`: the tag must span the whole line. -/
def parseHtmlTagAlone (ln : List Char) : Option HtmlTagInfo :=
  match parseHtmlTagAt ln 0 with
  | some ti => if ti.endPos = ln.length then some ti else none
  | none => none

/-- Leftmost `cHtmlTokenExpression` match in a line: (start, end). -/
def htmlTokenStarSearch (s : List Char) : Option (Nat × Nat) :=
  match (List.range s.length).find? (fun p => (parseHtmlTagAt s p).isSome) with
  | some p =>
    match parseHtmlTagAt s p with
    | some ti => some (p, ti.endPos)
    | none => none
  | none => none

theorem parseAttrsStarThenClose_go_pos {s : List Char} {fuel r e : Nat}
    (h : parseAttrsStarThenClose.go s fuel r = some e) : 1 ≤ e := by
  induction fuel generalizing r with
  | zero => simp [parseAttrsStarThenClose.go] at h
  | succ fuel ih =>
    rw [parseAttrsStarThenClose.go] at h
    split at h
    · rename_i he
      simp only [Option.some.injEq] at h
      subst h
      exact tryTagClose_pos he
    · split at h
      · exact ih h
      · simp at h

theorem parseAttrsStarThenClose_pos {s : List Char} {r e : Nat}
    (h : parseAttrsStarThenClose s r = some e) : 1 ≤ e :=
  parseAttrsStarThenClose_go_pos h

theorem parseHtmlTagAt_endPos_pos {s : List Char} {p : Nat} {ti : HtmlTagInfo}
    (h : parseHtmlTagAt s p = some ti) : 1 ≤ ti.endPos := by
  unfold parseHtmlTagAt at h
  split at h
  · unfold parseHtmlTagAt.parseHtmlTagNamed at h
    set q1 := (if s[(p+1 : Nat)]? = some '/' then p + 2 else p + 1) with hq
    split at h
    · simp at h
    · rw [Option.map_eq_some'] at h
      obtain ⟨e2, he, rfl⟩ := h
      exact parseAttrsStarThenClose_pos he
  · simp at h

theorem htmlTokenStarSearch_bounds {s : List Char} {p e : Nat}
    (h : htmlTokenStarSearch s = some (p, e)) : p < s.length ∧ 1 ≤ e := by
  unfold htmlTokenStarSearch at h
  split at h
  · rename_i p0 hp
    split at h
    · rename_i ti hti
      simp only [Option.some.injEq, Prod.mk.injEq] at h
      obtain ⟨rfl, rfl⟩ := h
      exact ⟨List.mem_range.mp (List.mem_of_find?_eq_some hp),
        parseHtmlTagAt_endPos_pos hti⟩
    · simp at h
  · simp at h

/-- `parseInlineHtmlText` (`markdown.cpp:62`): split a line into
`HtmlTag` and `InlineHtmlContents` tokens; the last piece keeps its
newline. -/
def parseInlineHtmlText (ln : List Char) : List Tok :=
  go (ln.length + 1) ln
where
  go : Nat → List Char → List Tok
  | 0, _ => []
  | fuel + 1, l0 =>
    match htmlTokenStarSearch l0 with
    | some (p, e) =>
      (if l0.take p = [] then [] else [Tok.inlineHtmlContents (l0.take p)]) ++
        Tok.htmlTag (sliceBetween l0 (p+1) (e-1)) :: go fuel (l0.drop e)
    | none => [Tok.inlineHtmlContents (l0 ++ ['\n'])]

/-- `isHtmlCommentStart` (`markdown.cpp:89`). -/
def isHtmlCommentStart (ln : List Char) : Bool := ln.take 4 = str "<!--"

/-- `isHtmlCommentEnd` (`markdown.cpp:98`): `.*-- *>$`. -/
def isHtmlCommentEnd (ln : List Char) : Bool :=
  match ln.reverse with
  | '>' :: r => (r.dropWhile isSp).take 2 = ['-', '-']
  | _ => false

/-- The tag-block collection loop (`markdown.cpp:130-151`): returns the
contents, the line count, and the tokens after the final `i`. -/
def inlineHtmlTagLoop (todo acc : List Tok) (lines : Nat) :
    List Tok × Nat × List Tok :=
  match todo with
  | [] => (acc, lines, [])
  | t :: ts =>
    if (match ts.head? with | some b => b.isBlankLineTok | none => false) &&
        t.text?.isSome &&
        (decide (lines + 1 = 1) || (parseHtmlTagAlone (t.text?.getD [])).isSome) then
      (acc ++ (match t.text? with | some l => parseInlineHtmlText l | none => [t]),
        lines + 1, ts)
    else
      inlineHtmlTagLoop ts
        (acc ++ (match t.text? with | some l => parseInlineHtmlText l | none => [t]))
        (lines + 1)

/-- The comment-block collection loop (`markdown.cpp:169-185`). -/
def inlineHtmlCommentLoop (todo acc : List Tok) (first : Bool) :
    List Tok × List Tok :=
  match todo with
  | [] => (acc, [])
  | t :: ts =>
    if (match ts.head? with | some b => b.isBlankLineTok | none => false) &&
        t.text?.isSome && (first || isHtmlCommentEnd (t.text?.getD [])) then
      (acc ++ [match t.text? with
               | some l => Tok.inlineHtmlComment (l ++ ['\n'])
               | none => t], ts)
    else
      inlineHtmlCommentLoop ts
        (acc ++ [match t.text? with
                 | some l => Tok.inlineHtmlComment (l ++ ['\n'])
                 | none => t]) false

/-- `parseInlineHtml` (`markdown.cpp:110`). -/
def parseInlineHtml (toks : List Tok) : Option (Tok × List Tok) :=
  match toks with
  | [] => none
  | t :: _ =>
    match t.text? with
    | none => none
    | some ln =>
      match parseHtmlTagStart ln with
      | some ti =>
        if isValidTag ti.tagName > 1 then
          match inlineHtmlTagLoop toks [] 0 with
          | (contents, lines, rest) =>
            if lines > 1 || isValidTag ti.tagName true > 1 then
              some (Tok.inlineHtmlBlock contents, rest)
            else none
        else
          if isHtmlCommentStart ln then
            match inlineHtmlCommentLoop toks [] true with
            | (contents, rest) => some (Tok.inlineHtmlBlock contents, rest)
          else none
      | none =>
        if isHtmlCommentStart ln then
          match inlineHtmlCommentLoop toks [] true with
          | (contents, rest) => some (Tok.inlineHtmlBlock contents, rest)
        else none

/-- ` */? *$` at position `r` of `ln` (tail of `cHtmlTokenStart`). -/
def lineEndAt (ln : List Char) (r : Nat) : Bool :=
  ((ln.drop (if ln[(r + ((ln.drop r).takeWhile isSp).length : Nat)]? = some '/'
      then r + ((ln.drop r).takeWhile isSp).length + 1
      else r + ((ln.drop r).takeWhile isSp).length)).all isSp)

/-- `(attr)*? */? *$`: zero or more attributes lazily, then the line end. -/
def attrsToLineEnd (ln : List Char) (r : Nat) : Bool :=
  go (ln.length + 1) r
where
  go : Nat → Nat → Bool
  | 0, _ => false
  | fuel + 1, r0 =>
    if lineEndAt ln r0 then true
    else
      match parseAttr ln r0 with
      | some r1 => go fuel r1
      | none => false

/-- `cHtmlTokenStart` (`markdown.cpp:804`): a whole line that is an
unterminated tag opening. -/
def matchHtmlTokenStartLine (ln : List Char) : Bool :=
  if ln.head? = some '<' then
    (fun q1 =>
      if ((ln.drop q1).takeWhile isAlnumAscii).length = 0 then false
      else attrsToLineEnd ln (q1 + ((ln.drop q1).takeWhile isAlnumAscii).length))
      (if ln[(1 : Nat)]? = some '/' then 2 else 1)
  else false

/-- `cHtmlTokenEnd` (`markdown.cpp:805`): a whole line
` *(attr)*? */? *>`. -/
def matchHtmlTokenEndLine (ln : List Char) : Bool :=
  match parseAttrsStarThenClose ln 0 with
  | some e => e = ln.length
  | none =>
    -- zero attributes with no leading space handled by tryTagClose above;
    -- extra leading spaces are consumed by tryTagClose's own space skip
    false

/-- `Document::_mergeMultilineHtmlTags` (`markdown.cpp:803`). -/
def mergeMultilineHtmlTags (toks : List Tok) : List Tok :=
  match toks with
  | [] => []
  | [t] => [t]
  | t :: t2 :: ts2 =>
    if (match t.text? with | some l => matchHtmlTokenStartLine l | none => false) then
      if (match t2.text? with | some l => matchHtmlTokenEndLine l | none => false) then
        Tok.rawText ((t.text?.getD []) ++ ' ' :: (t2.text?.getD [])) true ::
          mergeMultilineHtmlTags ts2
      else t :: mergeMultilineHtmlTags (t2 :: ts2)
    else t :: mergeMultilineHtmlTags (t2 :: ts2)

/-- `Document::_processInlineHtmlAndReferences` (`markdown.cpp:831`).
`prevBlank` tracks `processed.empty() || processed.back()->isBlankLine()`. -/
def processInlineHtmlAndReferences (fuel : Nat) (toks : List Tok)
    (idt : LinkIds) (prevBlank : Bool) : List Tok × LinkIds :=
  match fuel with
  | 0 => (toks, idt)
  | fuel + 1 =>
    match toks with
    | [] => ([], idt)
    | t :: ts =>
      if t.text?.isSome then
        match (if prevBlank then parseInlineHtml (t :: ts) else none) with
        | some (blk, rest) =>
          let r := processInlineHtmlAndReferences fuel rest idt false
          (blk :: r.1, r.2)
        | none =>
          match parseReference (t :: ts) idt with
          | some (idt2, rest) => processInlineHtmlAndReferences fuel rest idt2 prevBlank
          | none =>
            let r := processInlineHtmlAndReferences fuel ts idt t.isBlankLineTok
            (t :: r.1, r.2)
      else
        let r := processInlineHtmlAndReferences fuel ts idt t.isBlankLineTok
        (t :: r.1, r.2)

theorem parseFencedCodeBlock_rest_length {t : Tok} {ts : List Tok}
    {r : Tok × List Tok} (hp : parseFencedCodeBlock (t :: ts) = some r) :
    r.2.length ≤ ts.length := by
  unfold parseFencedCodeBlock at hp
  split at hp
  · simp at hp
  · rename_i ts0 t2 ts2 heq
    injection heq with h1 h2
    subst h1; subst h2
    split at hp
    · simp at hp
    · split at hp
      · simp at hp
      · simp only [Option.some.injEq] at hp
        subst hp
        exact fencedLoop_rest_length _ _ _ _ _

/-- `Document::_processFencedBlocks` (`markdown.cpp:782`). -/
def processFencedBlocks (toks : List Tok) : List Tok :=
  go (toks.length + 1) toks
where
  go : Nat → List Tok → List Tok
  | 0, ts0 => ts0
  | fuel + 1, ts0 =>
    match ts0 with
    | [] => []
    | t :: ts =>
      match parseFencedCodeBlock (t :: ts) with
      | some r => r.1 :: go fuel r.2
      | none => t :: go fuel ts

/-! ## `Document::_processBlocksItems` (`markdown.cpp:865-995`)

The C++ recursion re-parses freshly built `BlockQuote` containers whose
contents derive from, but are not subterms of, the input, so the
embedding carries an explicit fuel that every recursive call decrements;
the pipeline below passes a budget large enough for the work the C++
code performs. -/

/-- The sub-token list of a container (empty for leaves). -/
def Tok.sub : Tok → List Tok
  | .inlineHtmlBlock s => s
  | .header _ s => s
  | .paragraph s => s
  | .blockQuote s => s
  | .unorderedList s => s
  | .orderedList s => s
  | .listItem s _ => s
  | .container s => s
  | _ => []

/-- `Container::swapSubtokens`: the same container with new children. -/
def Tok.withSub : Tok → List Tok → Tok
  | .inlineHtmlBlock _, s => .inlineHtmlBlock s
  | .header l _, s => .header l s
  | .paragraph _, s => .paragraph s
  | .blockQuote _, s => .blockQuote s
  | .unorderedList _, s => .unorderedList s
  | .orderedList _, s => .orderedList s
  | .listItem _ ip, s => .listItem s ip
  | .container _, s => .container s
  | t, _ => t

mutual

/-- `_processBlocksItems` on one token: containers get their children
run through the six-status loop, other tokens are returned unchanged. -/
def pbiTok : Nat → Tok → Tok
  | 0, t => t
  | Nat.succ fuel, t =>
    if t.isContainer then t.withSub (pbiLoop fuel t.sub [] [] false false) else t

/-- The six-status loop of `_processBlocksItems` (`markdown.cpp:879-993`).
`accu` is the pending block-quote accumulator, `prevPara`/`prevBQ` the
`isPrevParagraph`/`isPrevBlockQuote` flags. -/
def pbiLoop : Nat → List Tok → List Tok → List Tok → Bool → Bool → List Tok
  | 0, todo, _, processed, _, _ => processed ++ todo
  | Nat.succ fuel, todo, accu, processed, prevPara, prevBQ =>
    match todo with
    | [] => processed
    | t :: rest =>
      if t.text?.isSome then
        let pbq := parseBlockQuote (t :: rest)
        let accu1 := accu ++ (match pbq with | some r => r.1 | none => [])
        let cur := match pbq with | some r => r.2 | none => t :: rest
        let sub := if cur.isEmpty then none else
          match parseHorizontalRule cur with
          | some r => some r
          | none =>
            match parseListBlock cur with
            | some r => some r
            | none =>
              match parseHeader cur with
              | some r => some r
              | none => if !prevPara then parseCodeBlock cur else none
        if pbq.isSome then
          match sub with
          | some (st, rest2) =>
            -- status 1
            pbiLoop fuel rest2 []
              (processed ++ [pbiTok fuel (Tok.blockQuote accu1), pbiTok fuel st])
              false false
          | none =>
            match cur with
            | c :: crest =>
              -- status 2
              let blank := c.isBlankLineTok
              let accu2 := if blank then accu1 else accu1 ++ [c]
              if blank || crest.isEmpty then
                pbiLoop fuel crest []
                  (processed ++ [pbiTok fuel (Tok.blockQuote accu2)]) false (!blank)
              else
                pbiLoop fuel crest accu2 processed false (!blank)
            | [] =>
              -- status 3
              processed ++ [pbiTok fuel (Tok.blockQuote accu1)]
        else
          match sub with
          | some (st, rest2) =>
            -- status 4
            pbiLoop fuel rest2 (if prevBQ then [] else accu1)
              ((if prevBQ then processed ++ [pbiTok fuel (Tok.blockQuote accu1)]
                else processed) ++ [pbiTok fuel st]) false false
          | none =>
            -- status 5
            let blank := t.isBlankLineTok
            if prevBQ then
              let accu2 := if blank then accu1 else accu1 ++ [t]
              if blank || rest.isEmpty then
                pbiLoop fuel rest []
                  (processed ++ [pbiTok fuel (Tok.blockQuote accu2)]) false (!blank)
              else
                pbiLoop fuel rest accu2 processed false (!blank)
            else
              pbiLoop fuel rest accu1 (processed ++ [t]) (!blank) false
      else if t.isContainer then
        -- status 6
        pbiLoop fuel rest (if prevBQ then [] else accu)
          ((if prevBQ then processed ++ [pbiTok fuel (Tok.blockQuote accu)]
            else processed) ++ [pbiTok fuel t]) false false
      else
        -- status 0: the switch default drops the token
        pbiLoop fuel rest accu processed prevPara prevBQ

end

/-! ## `Document::_processParagraphLines` (`markdown.cpp:997-1029`) -/

/-- `^ *(.*?)(  +)?$` on a paragraph line: the text with leading spaces
stripped, and whether two or more trailing spaces were present. -/
def paraLine (ln : List Char) : List Char × Bool :=
  let t := ln.dropWhile isSp
  let trail := (t.reverse.takeWhile isSp).length
  if 2 ≤ trail then (t.take (t.length - trail), true) else (t, false)

/-- `flushParagraph` (`markdown.cpp:583`). -/
def flushParagraph (paraToks processed : List Tok) (noPara : Bool) :
    List Tok :=
  if paraToks.isEmpty then processed
  else if noPara then
    if paraToks.length > 1 then processed ++ [Tok.container paraToks]
    else processed ++ paraToks
  else processed ++ [Tok.paragraph paraToks]

/-- The grouping loop of `_processParagraphLines` (`markdown.cpp:1008`). -/
def paraGroup (todo paraToks processed : List Tok) (noPara : Bool) :
    List Tok :=
  match todo with
  | [] => flushParagraph paraToks processed noPara
  | t :: rest =>
    if t.text?.isSome && t.canContainMarkup && !t.inhibitParagraphs then
      let m := paraLine (t.text?.getD [])
      paraGroup rest
        (paraToks ++ Tok.rawText m.1 true ::
          (if m.2 && !rest.isEmpty then [Tok.htmlTag (str "br /")] else []))
        processed noPara
    else
      paraGroup rest [] (flushParagraph paraToks processed noPara ++ [t]) noPara

mutual

/-- `_processParagraphLines` on one token: recurse into the container's
children first, then group runs of markup-capable text lines. -/
def paraTok : Nat → Tok → Tok
  | 0, t => t
  | Nat.succ fuel, t =>
    if t.isContainer then
      t.withSub (paraGroup (paraMap fuel t.sub) [] [] t.inhibitParagraphs)
    else t

def paraMap : Nat → List Tok → List Tok
  | 0, l => l
  | Nat.succ fuel, l =>
    match l with
    | [] => []
    | t :: ts =>
      (if t.isContainer then paraTok fuel t else t) :: paraMap fuel ts

end

/-! ## Span-element resolution over the tree (`markdown_tokens.cpp:232`, `749`) -/

/-- `RawText::processSpanElements` (`markdown_tokens.cpp:232`): the five
character-level passes in order. -/
def rawTextSpan (tx : List Char) (idt : LinkIds) : List Tok :=
  let r1 := processHtmlTagAttributes tx []
  let r2 := processCodeSpans r1.1 r1.2
  let s3 := processEscapedCharacters r2.1
  let r4 := processLinksImagesAndTags s3 r2.2 idt
  processBoldAndItalicSpans r4.1 r4.2

mutual

/-- `Container::processSpanElements` (`markdown_tokens.cpp:749`) on one
container: markup-capable raw-text children are replaced by their span
group (wrapped in a `Container` when it has more than one token, dropped
when empty), container children are processed recursively, everything
else is kept. -/
def spanTok : Nat → Tok → LinkIds → Tok
  | 0, t, _ => t
  | Nat.succ fuel, t, idt =>
    if t.isContainer then t.withSub (spanToks fuel t.sub idt) else t

def spanToks : Nat → List Tok → LinkIds → List Tok
  | 0, l, _ => l
  | Nat.succ fuel, l, idt =>
    match l with
    | [] => []
    | t :: ts =>
      (if t.isContainer then [spanTok fuel t idt]
       else
         match t with
         | .rawText tx true =>
           let g := rawTextSpan tx idt
           if g.length > 1 then [Tok.container g] else g
         | _ => [t]) ++ spanToks fuel ts idt

end

/-! ## HTML output (`markdown_tokens.cpp:699-836`)

The `preWrite`/`postWrite` wrapper strings and the leaves' encoding flags
live in the missing `markdown_tokens.h`; they are modelled from the spec:
container nodes emit an optional wrapper (`<p>…</p>`,
`<blockquote>…</blockquote>`, `<li>…</li>`, …) around their rendered
children, and text leaves are entity-escaped per a per-node flag set.
Everything else below is translated from the `writeAsHtml`
implementations in `markdown_tokens.cpp`. -/

mutual

def tokHtml : Nat → Tok → List Char
  | 0, _ => []
  | Nat.succ fuel, t =>
    match t with
    | .rawText tx _ => encodeString tx ampsAngles
    | .blankLine tx => tx
    | .codeBlock tx =>
      str "<pre><code>" ++ encodeString tx ampsAngles ++ str "</code></pre>\n"
    | .fencedCodeBlock tx info =>
      if info.isEmpty then
        str "<pre><code>" ++ encodeString tx ampsAngles ++ str "</code></pre>\n\n"
      else
        -- the default SyntaxHighlighter (markdown.h:38) copies the code
        -- through verbatim
        str "<pre><code class=\"language-" ++
          (info.dropWhile isSp).takeWhile (fun c => !isSp c) ++ str "\">" ++
          tx ++ str "</code></pre>\n\n"
    | .codeSpan tx => str "<code>" ++ encodeString tx ampsAngles ++ str "</code>"
    | .textHolder tx _ f => encodeString tx f
    | .htmlTag c => '<' :: c ++ ['>']
    | .htmlAnchorTag tx => tx
    | .inlineHtmlContents tx => tx
    | .inlineHtmlComment tx => tx
    | .escapedChar c => [c]
    | .image alt url title =>
      str "<img src=\"" ++ url ++ str "\" alt=\"" ++ alt ++ str "\"" ++
        (if title.isEmpty then [] else str " title=\"" ++ title ++ str "\"") ++
        str "/>"
    | .boldOrItalic m => markerHtml m
    | .inlineHtmlBlock sub => toksHtml fuel sub
    | .header l sub =>
      str "<h" ++ Nat.toDigits 10 l ++ ['>'] ++ toksHtml fuel sub ++
        str "</h" ++ Nat.toDigits 10 l ++ str ">\n\n"
    | .paragraph sub => str "<p>" ++ paraBodyHtml fuel sub ++ str "</p>\n\n"
    | .blockQuote sub =>
      str "<blockquote>\n" ++ toksHtml fuel sub ++ str "</blockquote>\n\n"
    | .unorderedList sub => str "<ul>\n" ++ toksHtml fuel sub ++ str "</ul>\n\n"
    | .orderedList sub => str "<ol>\n" ++ toksHtml fuel sub ++ str "</ol>\n\n"
    | .listItem sub _ => str "<li>" ++ toksHtml fuel sub ++ str "</li>\n"
    | .container sub => toksHtml fuel sub

def toksHtml : Nat → List Tok → List Char
  | 0, _ => []
  | Nat.succ fuel, l =>
    match l with
    | [] => []
    | t :: ts => tokHtml fuel t ++ toksHtml fuel ts

/-- `Paragraph::writeAsHtml` (`markdown_tokens.cpp:785`): a newline after
a child when the next child is raw text or an unmatched marker. -/
def paraBodyHtml : Nat → List Tok → List Char
  | 0, _ => []
  | Nat.succ fuel, l =>
    match l with
    | [] => []
    | [t] => tokHtml fuel t
    | t :: t2 :: ts =>
      tokHtml fuel t ++
        (if t2.isRawText || t2.isUnmatchedOpenMarker || t2.isUnmatchedCloseMarker
         then ['\n'] else []) ++
        paraBodyHtml fuel (t2 :: ts)

end

/-! ## The `Document` class (`markdown.cpp:665-761`, `markdown.h:43`) -/

/-- `Document::_getline` (`markdown.cpp:692`): one line with `\r`/`\n`
combinations and tab expansion handled; returns the line and the rest of
the input, or `none` at the end. -/
def getline (spt : Nat) (cs line : List Char) (initWs : Bool) :
    Option (List Char × List Char) :=
  match cs with
  | [] => if line.isEmpty then none else some (line, [])
  | c :: t =>
    if c = '\r' then
      some (line, if t.head? = some '\n' then t.drop 1 else t)
    else if c = '\n' then
      some (line, if t.head? = some '\r' then t.drop 1 else t)
    else if c = '\t' then
      getline spt t
        (line ++ List.replicate ((if initWs then 4 else spt) -
          line.length % (if initWs then 4 else spt)) ' ') initWs
    else getline spt t (line ++ [c]) (initWs && c = ' ')

/-- The line-classification loop of `Document::read` (`markdown.cpp:725`):
blank-classified lines become `BlankLine` tokens, the rest `RawText`. -/
def readLines (spt fuel : Nat) (cs : List Char) : List Tok :=
  match fuel with
  | 0 => []
  | fuel + 1 =>
    match getline spt cs [] true with
    | none => []
    | some (ln, rest) =>
      (if isBlankLine ln then Tok.blankLine ln else Tok.rawText ln true) ::
        readLines spt fuel rest

/-! An executable size measure on token trees, used for fuel budgets. -/

mutual

def tokWeight : Tok → Nat
  | .inlineHtmlBlock s => 2 + toksWeight s
  | .header _ s => 2 + toksWeight s
  | .paragraph s => 2 + toksWeight s
  | .blockQuote s => 2 + toksWeight s
  | .unorderedList s => 2 + toksWeight s
  | .orderedList s => 2 + toksWeight s
  | .listItem s _ => 2 + toksWeight s
  | t => 2 + (t.text?.getD []).length + (Tok.sub t).length

def toksWeight : List Tok → Nat
  | [] => 1
  | t :: ts => tokWeight t + toksWeight ts

end

/-- The `Document` state (`markdown.h:43`): the root container's
children, the link-reference table and the `mProcessed` flag. -/
structure Document where
  tokens : List Tok
  idTable : LinkIds
  processed : Bool
deriving Repr

/-- A fresh document (`markdown.cpp:668`). -/
def Document.new : Document := ⟨[], [], false⟩

/-- `Document::read` (`markdown.cpp:718`): returns false and leaves the
document unchanged once processed; otherwise classifies and appends the
input's lines and returns true. -/
def Document.read (d : Document) (input : List Char) : Bool × Document :=
  if d.processed then (false, d)
  else
    (true, { d with
      tokens := d.tokens ++ readLines 4 (input.length + 1) input })

/-- `Document::_process` (`markdown.cpp:751`): the six passes, then the
processed flag is set.  The fuel budgets passed to the fueled passes are
generous overestimates of the work the C++ recursion performs. -/
def Document.process (d : Document) : Document :=
  if d.processed then d
  else
    let t1 := processFencedBlocks d.tokens
    let t2 := mergeMultilineHtmlTags t1
    let r3 := processInlineHtmlAndReferences (t2.length + 1) t2 d.idTable true
    let root := Tok.container r3.1
    let root4 := pbiTok ((tokWeight root + 4) * (tokWeight root + 4)) root
    let root5 := paraTok (tokWeight root4 + 2) root4
    let root6 := spanTok (tokWeight root5 + 2) root5 r3.2
    { tokens := root6.sub, idTable := r3.2, processed := true }

/-- `Document::write` (`markdown.cpp:739`): process, then render the root
container. -/
def Document.write (d : Document) : List Char × Document :=
  let d2 := d.process
  (toksHtml (toksWeight d2.tokens + 1) d2.tokens, d2)

/-- The whole pipeline: a fresh document, one `read`, one `write`. -/
def markdownToHtml (input : List Char) : List Char :=
  ((Document.new.read input).2.write).1


/-! ## Helper lemmas for the claim theorems -/

theorem lookup_append_of_none {k : List Char} {t : LinkIds} {v : Target}
    (h : List.lookup k t = none) : List.lookup k (t ++ [(k, v)]) = some v := by
  induction t with
  | nil => simp [List.lookup]
  | cons a t ih =>
    obtain ⟨ak, av⟩ := a
    rw [List.cons_append, List.lookup]
    rw [List.lookup] at h
    rcases hka : k == ak with _ | _
    · simp only [hka] at h ⊢
      exact ih h
    · simp only [hka] at h
      simp at h

theorem lookup_append_isSome {k : List Char} {t : LinkIds} {v : Target} :
    (List.lookup k (t ++ [(k, v)])).isSome = true := by
  induction t with
  | nil => simp [List.lookup]
  | cons a t ih =>
    obtain ⟨ak, av⟩ := a
    rw [List.cons_append, List.lookup]
    rcases hka : k == ak with _ | _
    · simpa only [hka] using ih
    · simp only [hka, Option.isSome_some]

theorem Document_process_processed (d : Document) :
    (d.process).processed = true := by
  unfold Document.process
  split
  · assumption
  · rfl

/-! ## The claims -/

/-- C4: the spec says a line is classified blank iff it is up to three
leading spaces, optionally one or more complete `<!-- ... -->` HTML
comments, then only spaces.  The code's regex (`markdown.cpp:106`) spells
the comment opener `<--` instead of `<!--`, so a well-formed comment line
is classified non-blank (and enters the document as raw text), while a
malformed `<-- ... -->` line is classified blank: the classification and
the spec genuinely diverge on `<!-- c -->`. -/
theorem c4_blank_line_classification :
    specBlankLine (str "<!-- c -->") = true ∧
    isBlankLine (str "<!-- c -->") = false ∧
    isBlankLine (str "<-- c -->") = true ∧
    (Document.new.read (str "<!-- c -->")).2.tokens =
      [Tok.rawText (str "<!-- c -->") true] :=
  ⟨by decide, by decide, by decide, rfl⟩

/-- C2 (amended): `LinkIds::add` uses `std::unordered_map::insert`
(`markdown.cpp:658`), which does *not* overwrite an existing key, so for
two ids equal after case-folding the FIRST stored target wins and a later
duplicate is silently dropped; `find` case-folds its argument before the
lookup, so any case variant of the id retrieves that first target. -/
theorem c2_linkids_first_add_wins (tbl : LinkIds)
    (id1 id2 url1 t1 url2 t2 : List Char)
    (hfold : LinkIds._scrubKey id1 = LinkIds._scrubKey id2)
    (habsent : tbl.find id1 = none) :
    ((tbl.add id1 url1 t1).add id2 url2 t2).find id2 = some ⟨url1, t1⟩ := by
  unfold LinkIds.find at habsent
  have h1 : tbl.add id1 url1 t1 =
      tbl ++ [(LinkIds._scrubKey id1, ⟨url1, t1⟩)] := by
    unfold LinkIds.add
    rw [habsent]
    rfl
  have h2 : (tbl ++ [(LinkIds._scrubKey id1, (⟨url1, t1⟩ : Target))]).add
      id2 url2 t2 = tbl ++ [(LinkIds._scrubKey id1, ⟨url1, t1⟩)] := by
    unfold LinkIds.add
    rw [← hfold]
    rw [if_pos lookup_append_isSome]
  rw [h1, h2]
  unfold LinkIds.find
  rw [← hfold]
  exact lookup_append_of_none habsent

/-- C2 witness: the amended behaviour at concrete inputs. -/
theorem c2_linkids_first_add_wins_witness :
    ((LinkIds.empty.add (str "Id") (str "u1") (str "T1")).add (str "id")
        (str "u2") (str "T2")).find (str "id") = some ⟨str "u1", str "T1"⟩ :=
  c2_linkids_first_add_wins [] (str "Id") (str "id") (str "u1") (str "T1")
    (str "u2") (str "T2") (by decide) (by decide)

/-- C2 counterexample to the claimed overwrite: after two adds whose ids
agree up to case, `find` (case-folding a third variant of the id) returns
the FIRST target, not the later one the claim promises. -/
theorem c2_add_does_not_overwrite :
    ((LinkIds.empty.add (str "Id") (str "u1") (str "T1")).add (str "id")
        (str "u2") (str "T2")).find (str "ID") = some ⟨str "u1", str "T1"⟩ ∧
    str "u1" ≠ str "u2" := by
  constructor
  · decide
  · decide

/-- C1: once a document has been written (processed), every further
`read` returns false and leaves the document (tokens and link table)
unchanged; before processing, `read` returns true and appends the
input's classified lines. -/
theorem c1_read_after_write (d : Document) (s1 s2 : List Char) :
    ((d.write.2.read s1).1 = false ∧ (d.write.2.read s1).2 = d.write.2) ∧
    (d.processed = false →
      (d.read s2).1 = true ∧
      (d.read s2).2.tokens = d.tokens ++ readLines 4 (s2.length + 1) s2 ∧
      (d.read s2).2.idTable = d.idTable) := by
  constructor
  · have hp : (d.write.2).processed = true := Document_process_processed d
    unfold Document.read
    rw [hp]
    exact ⟨rfl, rfl⟩
  · intro h
    unfold Document.read
    rw [h]
    exact ⟨rfl, rfl, rfl⟩

/-- C1 witness: a fresh document at concrete inputs. -/
theorem c1_read_after_write_witness :
    (Document.new.write.2.read (str "a")).1 = false ∧
    (Document.new.read (str "b")).1 = true :=
  ⟨(c1_read_after_write Document.new (str "a") (str "b")).1.1,
   ((c1_read_after_write Document.new (str "a") (str "b")).2 rfl).1⟩

theorem parseListInner_unordered_guard {fuel : Nat} {t0 : Tok} {ts : List Tok}
    {ind : Nat} {ch : Char} {content : List Char} {r0 : Tok × List Tok}
    (hm : matchUnorderedList (t0.text?.getD []) = some (ind, ch, content))
    (h : parseListInner (fuel + 1) false (t0 :: ts) = some r0) :
    1 < (listLoop fuel true ind ch ts [] [Tok.rawText content true] 1 false).2.1 ∨
      ind ≠ 0 := by
  rw [parseListInner] at h
  split at h
  · rw [hm] at h
    split at h
    · rename_i ind2 ch2 content2 heq
      injection heq with heq1
      obtain ⟨rfl, rfl, rfl⟩ : ind = ind2 ∧ ch = ch2 ∧ content = content2 := by
        refine ⟨?_, ?_, ?_⟩ <;> injection heq1 with h1 h2 <;>
          first | exact h1 | injection h2 with h3 h4 <;>
            first | exact h3 | exact h4
      dsimp only at h
      split at h
      · split at h
        · rename_i hcond
          simp only [Bool.or_eq_true, decide_eq_true_eq, ne_eq] at hcond
          rcases hcond with hc | hc
          · exact Or.inl hc
          · exact Or.inr hc
        · simp at h
      · simp at h
    · rename_i heq
      simp at heq
  · simp at h

theorem parseListInner_ordered_guard {fuel : Nat} {t0 : Tok} {ts : List Tok}
    {ind : Nat} {content : List Char} {r0 : Tok × List Tok}
    (hu : matchUnorderedList (t0.text?.getD []) = none)
    (hm : matchOrderedList (t0.text?.getD []) = some (ind, content))
    (h : parseListInner (fuel + 1) false (t0 :: ts) = some r0) :
    1 < (listLoop fuel false ind '*' ts [] [Tok.rawText content true] 1 false).2.1 ∨
      ind ≠ 0 := by
  rw [parseListInner] at h
  split at h
  · rw [hu] at h
    rw [hm] at h
    split at h
    · rename_i heq
      simp at heq
    · split at h
      · rename_i ind2 content2 heq
        injection heq with heq1
        obtain ⟨rfl, rfl⟩ : ind = ind2 ∧ content = content2 := by
          constructor <;> injection heq1 with h1 h2 <;>
            first | exact h1 | exact h2
        dsimp only at h
        split at h
        · split at h
          · rename_i hcond
            simp only [Bool.or_eq_true, decide_eq_true_eq, ne_eq] at hcond
            rcases hcond with hc | hc
            · exact Or.inl hc
            · exact Or.inr hc
          · simp at h
        · simp at h
      · rename_i heq
        simp at heq
  · simp at h

/-- C8: a candidate list that still has a single item and zero
indentation when it ends is rejected (`parseListBlock` returns `none`,
so its caller continues with the untouched token cursor and the lines
are later grouped as an ordinary paragraph); whenever `parseListBlock`
does produce a list from a zero-indent candidate (of either marker
kind), its item-count loop counted more than one item. -/
theorem c8_single_item_guard :
    (parseListBlock [Tok.rawText (str "* a") true] = none ∧
     markdownToHtml (str "* a") = str "<p>* a</p>\n\n") ∧
    (∀ t0 ts t rest ind ch content,
      parseListBlock (t0 :: ts) = some (t, rest) →
      matchUnorderedList (t0.text?.getD []) = some (ind, ch, content) →
      ind = 0 →
      1 < (listLoop (2 * (t0 :: ts).length + 3) true ind ch ts []
            [Tok.rawText content true] 1 false).2.1) ∧
    (∀ t0 ts t rest ind content,
      parseListBlock (t0 :: ts) = some (t, rest) →
      matchUnorderedList (t0.text?.getD []) = none →
      matchOrderedList (t0.text?.getD []) = some (ind, content) →
      ind = 0 →
      1 < (listLoop (2 * (t0 :: ts).length + 3) false ind '*' ts []
            [Tok.rawText content true] 1 false).2.1) := by
  refine ⟨⟨rfl, by decide⟩, ?_, ?_⟩
  · intro t0 ts t rest ind ch content hp hm hind
    unfold parseListBlock at hp
    rw [Option.map_eq_some'] at hp
    obtain ⟨r0, hr0, _⟩ := hp
    have := parseListInner_unordered_guard hm hr0
    rcases this with hc | hc
    · exact hc
    · exact absurd hind hc
  · intro t0 ts t rest ind content hp hu hm hind
    unfold parseListBlock at hp
    rw [Option.map_eq_some'] at hp
    obtain ⟨r0, hr0, _⟩ := hp
    have := parseListInner_ordered_guard hu hm hr0
    rcases this with hc | hc
    · exact hc
    · exact absurd hind hc

/-- C8 witness: the guard at a two-item list. -/
theorem c8_single_item_guard_witness :
    1 < (listLoop (2 * ([Tok.rawText (str "* a") true,
            Tok.rawText (str "* b") true] : List Tok).length + 3) true 0 '*'
          [Tok.rawText (str "* b") true] [] [Tok.rawText (str "a") true]
          1 false).2.1 :=
  c8_single_item_guard.2.1
    (Tok.rawText (str "* a") true) [Tok.rawText (str "* b") true]
    (Tok.unorderedList
      [Tok.listItem [Tok.rawText (str "a") true] true,
       Tok.listItem [Tok.rawText (str "b") true] true])
    [] 0 '*' (str "a") rfl rfl rfl


theorem takeWhile_length_drop (p : Char → Bool) (s : List Char) (k : Nat)
    (hk : k ≤ (s.takeWhile p).length) :
    ((s.drop k).takeWhile p).length = (s.takeWhile p).length - k := by
  induction s generalizing k with
  | nil => simp
  | cons c t ih =>
    match k with
    | 0 => simp
    | j + 1 =>
      rw [List.takeWhile_cons] at hk ⊢
      by_cases hpc : p c = true
      · rw [if_pos hpc] at hk ⊢
        simp only [List.length_cons, Nat.add_le_add_iff_right] at hk
        simp only [List.drop_succ_cons, List.length_cons]
        rw [ih j hk]
        omega
      · rw [if_neg hpc] at hk
        simp at hk

theorem head_of_takeWhile_pos {p : Char → Bool} {s : List Char}
    (h : 1 ≤ (s.takeWhile p).length) : ∃ c, s.head? = some c ∧ p c = true := by
  match s with
  | [] => simp at h
  | c :: t =>
    rw [List.takeWhile] at h
    rcases hpc : p c with _ | _
    · rw [hpc] at h
      simp at h
    · exact ⟨c, rfl, hpc⟩

/-- C9 (amended): a fenced block's closing line must use the opening
fence character — a fence of one character never closes a block opened
with the other, whatever the run lengths — and a candidate line that
fails the closing test is appended to the block's content with
`min(opening indent, its leading spaces)` leading spaces removed, *not*
verbatim. -/
theorem c9_fence_close :
    (∀ ln indent openLen fence indent2 openLen2 fence2,
      3 ≤ openLen → 1 ≤ openLen2 → fence ≠ fence2 →
      (isCodeFenceEndLine ln indent openLen fence).1 = true →
      (isCodeFenceEndLine ln indent2 openLen2 fence2).1 = false) ∧
    (∀ ln indent openLen fence,
      (isCodeFenceEndLine ln indent openLen fence).1 = false →
      (isCodeFenceEndLine ln indent openLen fence).2 =
        ln.drop (min (ln.takeWhile isSp).length indent) ++ ['\n']) := by
  constructor
  · intro ln indent openLen fence indent2 openLen2 fence2 hol hol2 hne h1
    unfold isCodeFenceEndLine at h1
    dsimp only at h1
    rw [takeWhile_length_drop isSp ln _
      (Nat.min_le_left (ln.takeWhile isSp).length indent)] at h1
    rw [List.drop_drop] at h1
    split at h1
    · simp at h1
    · rename_i hs12
      split at h1
      · simp at h1
      · rename_i hclose
        have hpos : min (ln.takeWhile isSp).length indent +
            min ((ln.takeWhile isSp).length - min (ln.takeWhile isSp).length indent)
              (4 - min (ln.takeWhile isSp).length indent) =
            (ln.takeWhile isSp).length := by omega
        rw [hpos] at hclose
        push_neg at hclose
        have hrun : openLen ≤
            ((ln.drop (ln.takeWhile isSp).length).takeWhile (· = fence)).length :=
          hclose
        obtain ⟨c, hc, hcf⟩ := head_of_takeWhile_pos
          (le_trans (by omega : 1 ≤ openLen) hrun)
        have hcf2 : ((ln.drop (ln.takeWhile isSp).length).takeWhile
            (· = fence2)).length = 0 := by
          match hd : ln.drop (ln.takeWhile isSp).length with
          | [] => simp
          | d :: t =>
            rw [hd] at hc
            simp only [List.head?_cons, Option.some.injEq] at hc
            subst hc
            simp only [decide_eq_true_eq] at hcf
            subst hcf
            rw [List.takeWhile_cons]
            rw [if_neg (by simpa using hne)]
            simp
        unfold isCodeFenceEndLine
        dsimp only
        rw [takeWhile_length_drop isSp ln _
          (Nat.min_le_left (ln.takeWhile isSp).length indent2)]
        rw [List.drop_drop]
        split
        · rfl
        · rename_i hs12b
          have hpos2 : min (ln.takeWhile isSp).length indent2 +
              min ((ln.takeWhile isSp).length - min (ln.takeWhile isSp).length indent2)
                (4 - min (ln.takeWhile isSp).length indent2) =
              (ln.takeWhile isSp).length := by omega
          rw [hpos2, hcf2]
          rw [if_pos (by omega : 0 < openLen2)]
  · intro ln indent openLen fence h
    unfold isCodeFenceEndLine at h ⊢
    dsimp only at h ⊢
    split
    · rfl
    · split
      · rfl
      · split
        · rfl
        · rename_i hA hB hC
          rw [if_neg hA, if_neg hB, if_neg hC] at h
          simp at h

/-- C9 witness: the amended theorem at concrete lines — a tilde run does
not close a backtick fence, and an over-indented candidate is appended
with its first three spaces (the opening indent) stripped. -/
theorem c9_fence_close_witness :
    (isCodeFenceEndLine (str "~~~~") 0 3 '`').1 = false ∧
    (isCodeFenceEndLine (str "      x") 3 3 '`').2 = str "   x\n" :=
  ⟨c9_fence_close.1 (str "~~~~") 0 3 '~' 0 3 '`' (by decide) (by decide)
      (by decide) (by decide),
   c9_fence_close.2 (str "      x") 3 3 '`' (by decide)⟩

/-- C9 counterexample to "appended verbatim": inside a fence opened with
three spaces of indentation, the line `  x` is stored as `x\n` — its two
leading spaces are stripped, so the failing candidate is not appended
verbatim. -/
theorem c9_fence_append_not_verbatim :
    parseFencedCodeBlock [Tok.rawText (str "   ```") true,
        Tok.rawText (str "  x") true, Tok.rawText (str "```") true] =
      some (Tok.fencedCodeBlock (str "x\n") [], []) ∧
    str "x\n" ≠ str "  x\n" :=
  ⟨rfl, by decide⟩


theorem sliceBetween_singleton {s : List Char} {p : Nat} {c : Char}
    (h : s[p]? = some c) : sliceBetween s p (p+1) = [c] := by
  unfold sliceBetween
  have hp : p < s.length := by
    by_contra hc
    rw [List.getElem?_eq_none (by omega)] at h
    simp at h
  rw [List.take_succ, h]
  rw [List.drop_append_eq_append_drop]
  rw [List.drop_of_length_le (by simp [List.length_take])]
  have h0 : p - (List.take p s).length = 0 := by
    simp only [List.length_take]
    omega
  rw [h0]
  simp

/-- C7: when a reference-form link's id has no entry in the
link-reference table (after whitespace cleanup and the table's
case-folding lookup), the span pass emits exactly the single opening
bracket character as literal text and resumes scanning at the character
after it; in particular `[link][nope]` renders as the literal text
`[link][nope]` inside an ordinary paragraph. -/
theorem c7_unresolved_reference :
    (∀ s reps idTable lm isImg contents idStr,
      lm.kind = LMKind.ref isImg contents idStr →
      s[lm.startPos]? = some '[' →
      idTable.find (match idStr with
        | some l => if l = [] then cleanTextLinkRef contents else l
        | none => cleanTextLinkRef contents) = none →
      linkStep s reps idTable lm =
        (lm.startPos + 1, reps ++ [Tok.rawText ['['] true], [])) ∧
    markdownToHtml (str "[link][nope]") = str "<p>[link][nope]</p>\n\n" := by
  constructor
  · intro s reps idTable lm isImg contents idStr hk hb hid
    unfold linkStep
    rw [hk]
    dsimp only
    rw [hid]
    rw [sliceBetween_singleton hb]
  · decide

/-- C7 witness: the single-bracket degradation at a concrete match. -/
theorem c7_unresolved_reference_witness :
    linkStep (str "[a][b]") [] []
        ⟨LMKind.ref false (str "a") (some (str "b")), 0, 6⟩ =
      (1, [Tok.rawText ['['] true], []) :=
  c7_unresolved_reference.1 (str "[a][b]") [] []
    ⟨LMKind.ref false (str "a") (some (str "b")), 0, 6⟩
    false (str "a") (some (str "b")) rfl rfl rfl

/-- C3 counterexample: on the code span `` `  a  ` `` the stored content
is the delimited text stripped of *all* leading and trailing spaces
(`a`), not of exactly one space on each side (` a `) as the claim
states. -/
theorem c3_trim_counterexample :
    (processCodeSpans (str "`  a  `") []).2 = [Tok.codeSpan (str "a")] ∧
    specTrimOne (str "  a  ") = str " a " ∧
    trimSpaces (str "  a  ") = str "a" ∧
    str "a" ≠ str " a " :=
  ⟨rfl, by decide, by decide, by decide⟩

/-- C5 counterexample: on `***a*` the matching pass splits the 3-run
open marker, leaving a *disabled* unmatched marker of size 3 in the
token sequence; a disabled marker renders as nothing, not as its three
literal characters, and the document output shows only the leftover
`**`. -/
theorem c5_disabled_marker_counterexample :
    processBoldAndItalicSpans (str "***a*") [] =
      [Tok.boldOrItalic ⟨true, '*', 3, none, true⟩,
       Tok.boldOrItalic ⟨true, '*', 2, none, false⟩,
       Tok.boldOrItalic ⟨true, '*', 1, some 0, false⟩,
       Tok.rawText (str "a") true,
       Tok.boldOrItalic ⟨false, '*', 1, some 0, false⟩] ∧
    markerHtml ⟨true, '*', 3, none, true⟩ = [] ∧
    markerHtml ⟨true, '*', 3, none, true⟩ ≠ List.replicate 3 '*' ∧
    markdownToHtml (str "***a*") = str "<p>**<em>a</em></p>\n\n" :=
  ⟨rfl, by decide, by decide, by decide⟩


theorem find?_range_min {f : Nat → Bool} {N q : Nat} (hq : q < N)
    (hf : f q = true) (hmin : ∀ j, j < q → f j = false) :
    (List.range N).find? f = some q := by
  rw [show N = q + (N - q) from (by omega), List.range_add, List.find?_append]
  rw [List.find?_eq_none.mpr (fun x hx => by
    simp only [List.mem_range] at hx
    simp [hmin x hx])]
  rw [Option.none_or]
  rw [show N - q = (N - q - 1) + 1 from (by omega), List.range_succ_eq_map]
  simp only [List.map_cons, List.find?_cons, Nat.add_zero]
  rw [hf]

theorem takeWhile_replicate_append (c : Char) (n : Nat) (l : List Char) :
    (List.replicate n c ++ l).takeWhile (· = c) =
      List.replicate n c ++ l.takeWhile (· = c) := by
  induction n with
  | zero => simp
  | succ n ih =>
    rw [List.replicate_succ, List.cons_append, List.takeWhile_cons]
    simp [ih]

theorem takeWhile_head_ne {c : Char} {l : List Char}
    (h : l.head? ≠ some c) : l.takeWhile (· = c) = [] := by
  match l with
  | [] => rfl
  | d :: t =>
    rw [List.takeWhile_cons]
    rw [if_neg (by simpa using fun hh => h (by simp [hh]))]

theorem processCodeSpans_go_reps {fuel : Nat} :
    ∀ {s0 : List Char} {reps0 : List Tok},
      ∃ ext, (processCodeSpans.go fuel s0 reps0).2 = reps0 ++ ext := by
  induction fuel with
  | zero => exact fun {s0 reps0} => ⟨[], by simp [processCodeSpans.go]⟩
  | succ fuel ih =>
    intro s0 reps0
    rw [processCodeSpans.go]
    split
    · exact ⟨[], by simp⟩
    · rename_i p n q _
      obtain ⟨ext, hext⟩ := @ih (s0.drop (q + n))
        (reps0 ++ [Tok.codeSpan (restoreProcessedItems
          (trimSpaces (sliceBetween s0 (p + n) q)) reps0)])
      exact ⟨_, by rw [hext, List.append_assoc]⟩

/-- C3 (amended): a run of `n` backticks not preceded or followed by a
backtick opens a code span closing at the next run of exactly `n`
backticks, and the stored content is the delimited text trimmed of *all*
leading and *all* trailing spaces (the regex capture ` *(.*?[^ ]) *`),
not of at most one space on each side. -/
theorem c3_code_span_content (pre inner post : List Char) (n : Nat)
    (reps : List Tok)
    (hpre : '`' ∉ pre) (hinner : '`' ∉ inner) (hn : 1 ≤ n)
    (hnsp : ∃ c ∈ inner, ¬isSp c) (hpost : post.head? ≠ some '`') :
    codeSpanMatch (pre ++ List.replicate n '`' ++ inner ++
        List.replicate n '`' ++ post) =
      some (pre.length, n, pre.length + n + inner.length) ∧
    ∃ rest,
      (processCodeSpans (pre ++ List.replicate n '`' ++ inner ++
          List.replicate n '`' ++ post) reps).2 =
        reps ++ Tok.codeSpan (restoreProcessedItems (trimSpaces inner) reps)
          :: rest := by
  have hinner_ne : inner ≠ [] := by
    rintro rfl
    simp at hnsp
  set s := pre ++ List.replicate n '`' ++ inner ++ List.replicate n '`' ++ post
    with hs
  set p := pre.length with hp
  set q := pre.length + n + inner.length with hqdef
  -- region lookups
  have hlen : s.length = pre.length + n + inner.length + n + post.length := by
    simp [hs]
    omega
  have hpre_at : ∀ i, i < pre.length → s[i]? = pre[i]? := by
    intro i hi
    simp [hs, List.getElem?_append, hi]
  have hrun1_at : ∀ k, k < n → s[p + k]? = some '`' := by
    intro k hk
    rw [hs]
    rw [List.append_assoc, List.append_assoc, List.append_assoc]
    rw [List.getElem?_append_right (by omega)]
    rw [show pre.length + k - pre.length = k from by omega]
    rw [List.getElem?_append_left (by simp [hk])]
    simp [hk]
  have hinner_at : ∀ k, k < inner.length → s[p + n + k]? = inner[k]? := by
    intro k hk
    rw [hs]
    rw [List.append_assoc, List.append_assoc, List.append_assoc]
    rw [List.getElem?_append_right (by omega)]
    rw [show pre.length + n + k - pre.length = n + k from by omega]
    rw [List.getElem?_append_right (by simp)]
    rw [List.getElem?_append_left (by simp [hk])]
    simp
  have hrun2_at : ∀ k, k < n → s[q + k]? = some '`' := by
    intro k hk
    rw [hs]
    rw [List.append_assoc, List.append_assoc, List.append_assoc]
    rw [List.getElem?_append_right (by omega)]
    rw [show pre.length + n + inner.length + k - pre.length = n + (inner.length + k)
      from by omega]
    rw [List.getElem?_append_right (by simp)]
    simp only [List.length_replicate]
    rw [show n + (inner.length + k) - n = inner.length + k from by omega]
    rw [List.getElem?_append_right (by omega)]
    rw [show inner.length + k - inner.length = k from by omega]
    rw [List.getElem?_append_left (by simp [hk])]
    simp [hk]
  -- drops at the two run positions
  have hdrop1 : s.drop p = List.replicate n '`' ++ inner ++
      List.replicate n '`' ++ post := by
    rw [hs, List.append_assoc, List.append_assoc, List.append_assoc]
    rw [List.drop_append_eq_append_drop]
    rw [List.drop_of_length_le (le_refl pre.length)]
    simp [← List.append_assoc]
  have hdrop2 : s.drop q = List.replicate n '`' ++ post := by
    rw [hs]
    rw [show pre ++ List.replicate n '`' ++ inner ++ List.replicate n '`' ++ post
      = (pre ++ List.replicate n '`' ++ inner) ++ (List.replicate n '`' ++ post)
      from by simp [List.append_assoc]]
    rw [List.drop_append_eq_append_drop]
    rw [List.drop_of_length_le (by simp; omega)]
    rw [show q - (pre ++ List.replicate n '`' ++ inner).length = 0 from by
      simp [hqdef]; omega]
    simp
  have hrl1 : runLen s p '`' = n := by
    unfold runLen
    rw [hdrop1]
    rw [List.append_assoc, List.append_assoc]
    rw [takeWhile_replicate_append]
    obtain ⟨d, t, rfl⟩ := List.exists_cons_of_ne_nil hinner_ne
    rw [takeWhile_head_ne (by
      simp only [List.cons_append, List.head?_cons, ne_eq, Option.some.injEq]
      intro hd
      subst hd
      exact hinner (List.mem_cons_self '`' t))]
    simp
  have hrl2 : runLen s q '`' = n := by
    unfold runLen
    rw [hdrop2]
    rw [takeWhile_replicate_append]
    rw [takeWhile_head_ne hpost]
    simp
  have hslice : sliceBetween s (p + n) q = inner := by
    unfold sliceBetween
    rw [hs]
    rw [show pre ++ List.replicate n '`' ++ inner ++ List.replicate n '`' ++ post
      = (pre ++ List.replicate n '`' ++ inner) ++ (List.replicate n '`' ++ post)
      from by simp [List.append_assoc]]
    rw [List.take_append_eq_append_take]
    rw [List.take_of_length_le (by simp; omega)]
    rw [show q - (pre ++ List.replicate n '`' ++ inner).length = 0 from by
      simp [hqdef]; omega]
    rw [List.take_zero, List.append_nil]
    rw [show pre ++ List.replicate n '`' ++ inner
      = (pre ++ List.replicate n '`') ++ inner from by simp [List.append_assoc]]
    rw [List.drop_append_eq_append_drop]
    rw [List.drop_of_length_le (by simp)]
    rw [show p + n - (pre ++ List.replicate n '`').length = 0 from by simp]
    simp
  -- openCond at p, closeCond at q
  have hopen : openCond s p = true := by
    unfold openCond
    have h00 := hrun1_at 0 (by omega)
    rw [Nat.add_zero] at h00
    rw [h00]
    simp only [Nat.add_zero] at *
    rcases Nat.eq_zero_or_pos p with hp0 | hp0
    · simp [hp0]
    · have : s[p-1]? = pre[p-1]? := hpre_at (p-1) (by omega)
      simp only [Bool.and_eq_true, decide_eq_true_eq, Bool.or_eq_true]
      refine ⟨trivial, Or.inr ?_⟩
      rw [this]
      intro hc
      have hm : '`' ∈ pre := by
        have := List.getElem?_mem hc
        exact this
      exact hpre hm
  have hclose : closeCond s p n q = true := by
    unfold closeCond
    have hq1 : s[q]? = some '`' := by
      have := hrun2_at 0 (by omega)
      simpa using this
    have hqm1 : s[q-1]? = inner[inner.length - 1]? := by
      have := hinner_at (inner.length - 1) (by
        have : 0 < inner.length := List.length_pos.mpr hinner_ne
        omega)
      rw [show p + n + (inner.length - 1) = q - 1 from by
        have : 0 < inner.length := List.length_pos.mpr hinner_ne
        omega] at this
      exact this
    simp only [Bool.and_eq_true, decide_eq_true_eq, Bool.or_eq_true]
    refine ⟨⟨⟨⟨by omega, Or.inr ?_⟩, by simp [hq1]⟩, by simp [hrl2]⟩, ?_⟩
    · rw [hqm1]
      intro hc
      exact hinner (List.getElem?_mem hc)
    · rw [hslice]
      simp only [List.any_eq_true, Bool.not_eq_true']
      obtain ⟨c, hc1, hc2⟩ := hnsp
      exact ⟨c, hc1, by simpa using hc2⟩
  -- no closing candidate before q
  have hnoclose : ∀ j, j < q → closeCond s p n j = false := by
    intro j hj
    unfold closeCond
    by_cases hj1 : p + n ≤ j
    · -- j in the inner region: s[j] is an inner character, not a backtick
      have hk : j - (p + n) < inner.length := by omega
      have := hinner_at (j - (p + n)) hk
      rw [show p + n + (j - (p + n)) = j from by omega] at this
      have hne : s[j]? ≠ some '`' := by
        rw [this]
        intro hc
        exact hinner (List.getElem?_mem hc)
      rw [Bool.eq_false_iff]
      intro hcontra
      simp only [Bool.and_eq_true, decide_eq_true_eq] at hcontra
      exact hne hcontra.1.1.2
    · rw [Bool.eq_false_iff]
      intro hcontra
      simp only [Bool.and_eq_true, decide_eq_true_eq] at hcontra
      exact hj1 hcontra.1.1.1.1
  have hfind : findCloseQ s p n = some q := by
    unfold findCloseQ
    exact find?_range_min (by omega) hclose hnoclose
  -- the open search finds p
  have hg : (fun p0 => openCond s p0 &&
      (findCloseQ s p0 (runLen s p0 '`')).isSome) p = true := by
    simp only [hrl1, hopen, hfind, Option.isSome_some, Bool.and_self]
  have hgmin : ∀ j, j < p →
      (openCond s j && (findCloseQ s j (runLen s j '`')).isSome) = false := by
    intro j hjp
    have : s[j]? = pre[j]? := hpre_at j hjp
    unfold openCond
    have hne : s[j]? ≠ some '`' := by
      rw [this]
      intro hc
      exact hpre (List.getElem?_mem hc)
    simp only [Bool.and_eq_true, Bool.and_eq_false_iff]
    left
    left
    simpa using hne
  have hmatch : codeSpanMatch s = some (p, n, q) := by
    unfold codeSpanMatch
    rw [find?_range_min (by omega) hg hgmin]
    simp only [hrl1, hfind, Option.map_some']
  refine ⟨hmatch, ?_⟩
  unfold processCodeSpans
  rw [show s.length + 1 = s.length + 1 from rfl]
  rw [processCodeSpans.go]
  rw [hmatch]
  dsimp only
  rw [hslice]
  obtain ⟨ext, hext⟩ := @processCodeSpans_go_reps s.length (s.drop (q + n))
    (reps ++ [Tok.codeSpan (restoreProcessedItems (trimSpaces inner) reps)])
  rw [hext]
  exact ⟨ext, by simp⟩

/-- C3 witness: the amended content rule at `x` `` `  a  ` `` `y`. -/
theorem c3_code_span_content_witness :
    codeSpanMatch (str "x`  a  `y") = some (1, 1, 7) ∧
    ∃ rest, (processCodeSpans (str "x`  a  `y") []).2 =
      [] ++ Tok.codeSpan (restoreProcessedItems (trimSpaces (str "  a  ")) [])
        :: rest :=
  c3_code_span_content (str "x") (str "  a  ") (str "y") 1 []
    (by decide) (by decide) (by decide) ⟨'a', by decide, by decide⟩ (by decide)


/-! ## Marker-pair well-formedness (claims C5 and C10)

The matching pass hands the nesting-validation pass a token list; the
properties claimed of it are phrased with the following predicates. -/

/-- The token is an open marker matched with id `i`. -/
def openTokP (i : Nat) (t : Tok) : Bool :=
  match t with
  | .boldOrItalic m => m.isOpen && m.mtch == some i
  | _ => false

/-- The token is a close marker matched with id `i`. -/
def closeTokP (i : Nat) (t : Tok) : Bool :=
  match t with
  | .boldOrItalic m => !m.isOpen && m.mtch == some i
  | _ => false

/-- Id `i` is carried by exactly one open and one close marker, the open
strictly before the close, and the two agree on character and size. -/
def pairAt (l : List Tok) (i : Nat) : Prop :=
  l.countP (openTokP i) = 1 ∧ l.countP (closeTokP i) = 1 ∧
  ∃ a b c mo mc,
    l = a ++ Tok.boldOrItalic mo :: b ++ Tok.boldOrItalic mc :: c ∧
    mo.isOpen = true ∧ mo.mtch = some i ∧ mc.isOpen = false ∧
    mc.mtch = some i ∧ mo.ch = mc.ch ∧ mo.size = mc.size

/-- Id `i` is carried by no marker at all. -/
def absentAt (l : List Tok) (i : Nat) : Prop :=
  l.countP (openTokP i) = 0 ∧ l.countP (closeTokP i) = 0

/-- Every id is either a well-formed pair or unused. -/
def wfPairs (l : List Tok) : Prop := ∀ i, pairAt l i ∨ absentAt l i

/-- No two matched pairs interleave. -/
def noInterleave (l : List Tok) : Prop :=
  ∀ i j a b c d e t1 t2 t3 t4,
    l = a ++ t1 :: (b ++ t2 :: (c ++ t3 :: (d ++ t4 :: e))) →
    openTokP i t1 = true → openTokP j t2 = true →
    closeTokP i t3 = true → closeTokP j t4 = true → False

/-- A token carrying no match id at all (raw text, a split or disabled
marker, …): the edits of the matching pass insert and rewrite only such
tokens. -/
def neutralTok (t : Tok) : Prop :=
  ∀ i, openTokP i t = false ∧ closeTokP i t = false

/-- A token invisible to ids other than `bad`. -/
def neutralExcept (bad : Nat) (t : Tok) : Prop :=
  ∀ i, i ≠ bad → openTokP i t = false ∧ closeTokP i t = false

/-- "The right list is the left list with some `P`-tokens inserted,
deleted or rewritten": the shape of one matching-pass edit. -/
inductive SMx (P : Tok → Prop) : List Tok → List Tok → Prop where
  | nil : SMx P [] []
  | keep (t : Tok) {xs ys : List Tok} : SMx P xs ys → SMx P (t :: xs) (t :: ys)
  | subst (t u : Tok) {xs ys : List Tok} :
      P t → P u → SMx P xs ys → SMx P (t :: xs) (u :: ys)
  | ins (u : Tok) {xs ys : List Tok} : P u → SMx P xs ys → SMx P xs (u :: ys)
  | del (t : Tok) {xs ys : List Tok} : P t → SMx P xs ys → SMx P (t :: xs) ys

theorem SMx_refl (P : Tok → Prop) (l : List Tok) : SMx P l l := by
  induction l with
  | nil => exact .nil
  | cons t ts ih => exact .keep t ih

theorem SMx_mono {P Q : Tok → Prop} (hPQ : ∀ t, P t → Q t) {xs ys : List Tok}
    (h : SMx P xs ys) : SMx Q xs ys := by
  induction h with
  | nil => exact .nil
  | keep t _ ih => exact .keep t ih
  | subst t u hpt hpu _ ih => exact .subst t u (hPQ t hpt) (hPQ u hpu) ih
  | ins u hpu _ ih => exact .ins u (hPQ u hpu) ih
  | del t hpt _ ih => exact .del t (hPQ t hpt) ih

theorem SMx_countP {P : Tok → Prop} {xs ys : List Tok} (h : SMx P xs ys)
    (pred : Tok → Bool) (hP : ∀ t, P t → pred t = false) :
    ys.countP pred = xs.countP pred := by
  induction h with
  | nil => rfl
  | keep t _ ih => simp [List.countP_cons, ih]
  | subst t u hpt hpu _ ih =>
    simp [List.countP_cons, ih, hP t hpt, hP u hpu]
  | ins u hpu _ ih => simp [List.countP_cons, ih, hP u hpu]
  | del t hpt _ ih => simp [List.countP_cons, ih, hP t hpt]

theorem SMx_append {P : Tok → Prop} {a a' b b' : List Tok}
    (h1 : SMx P a a') (h2 : SMx P b b') : SMx P (a ++ b) (a' ++ b') := by
  induction h1 with
  | nil => exact h2
  | keep t _ ih => exact .keep t ih
  | subst t u hpt hpu _ ih => exact .subst t u hpt hpu ih
  | ins u hpu _ ih => exact .ins u hpu ih
  | del t hpt _ ih => exact .del t hpt ih

theorem SMx_cons_left_drop {P : Tok → Prop} {x : Tok} {xs ys : List Tok}
    (h : SMx P (x :: xs) ys) (hx : P x) : SMx P xs ys := by
  suffices H : ∀ zs ys, SMx P zs ys → ∀ x xs, zs = x :: xs → P x → SMx P xs ys from
    H _ _ h x xs rfl hx
  intro zs ys h
  induction h with
  | nil => intro x xs heq; simp at heq
  | keep t h' ih =>
    intro x xs heq hPx
    injection heq with h1 h2
    subst h1; subst h2
    exact .ins _ hPx h'
  | subst t u hpt hpu h' ih =>
    intro x xs heq hPx
    injection heq with h1 h2
    subst h1; subst h2
    exact .ins u hpu h'
  | ins u hpu h' ih =>
    intro x xs heq hPx
    exact .ins u hpu (ih x xs heq hPx)
  | del t hpt h' ih =>
    intro x xs heq hPx
    injection heq with h1 h2
    subst h1; subst h2
    exact h'

theorem SMx_insert_right {P : Tok → Prop} {xs ys : List Tok}
    (h : SMx P xs ys) : ∀ (u v : List Tok) (w : Tok), ys = u ++ v → P w →
    SMx P xs (u ++ w :: v) := by
  induction h with
  | nil =>
    intro u v w hy hw
    obtain ⟨rfl, rfl⟩ := List.append_eq_nil.mp hy.symm
    exact .ins w hw .nil
  | keep t h' ih =>
    intro u v w hy hw
    cases u with
    | nil =>
      simp only [List.nil_append] at hy ⊢
      subst hy
      exact .ins w hw (.keep t h')
    | cons a u' =>
      simp only [List.cons_append, List.cons.injEq] at hy
      obtain ⟨rfl, hy2⟩ := hy
      exact .keep t (ih u' v w hy2 hw)
  | subst t u2 hpt hpu h' ih =>
    intro u v w hy hw
    cases u with
    | nil =>
      simp only [List.nil_append] at hy ⊢
      subst hy
      exact .ins w hw (.subst t u2 hpt hpu h')
    | cons a u' =>
      simp only [List.cons_append, List.cons.injEq] at hy
      obtain ⟨rfl, hy2⟩ := hy
      exact .subst t _ hpt hpu (ih u' v w hy2 hw)
  | ins u2 hpu h' ih =>
    intro u v w hy hw
    cases u with
    | nil =>
      simp only [List.nil_append] at hy ⊢
      subst hy
      exact .ins w hw (.ins u2 hpu h')
    | cons a u' =>
      simp only [List.cons_append, List.cons.injEq] at hy
      obtain ⟨rfl, hy2⟩ := hy
      exact .ins _ hpu (ih u' v w hy2 hw)
  | del t hpt h' ih =>
    intro u v w hy hw
    exact .del t hpt (ih u v w hy hw)

theorem SMx_transport {P : Tok → Prop} {xs ys : List Tok}
    (h : SMx P xs ys) : ∀ (a b : List Tok) (t : Tok), xs = a ++ t :: b →
    ¬ P t → ∃ a' b', ys = a' ++ t :: b' ∧ SMx P a a' ∧ SMx P b b' := by
  induction h with
  | nil => intro a b t hx; simp at hx
  | keep t2 h' ih =>
    intro a b t hx hPt
    cases a with
    | nil =>
      simp only [List.nil_append, List.cons.injEq] at hx
      obtain ⟨rfl, rfl⟩ := hx
      exact ⟨[], _, rfl, .nil, h'⟩
    | cons c a2 =>
      simp only [List.cons_append, List.cons.injEq] at hx
      obtain ⟨rfl, hx2⟩ := hx
      obtain ⟨a', b', rfl, hsa, hsb⟩ := ih a2 b t hx2 hPt
      exact ⟨t2 :: a', b', rfl, .keep t2 hsa, hsb⟩
  | subst t2 u hpt hpu h' ih =>
    intro a b t hx hPt
    cases a with
    | nil =>
      simp only [List.nil_append, List.cons.injEq] at hx
      obtain ⟨rfl, rfl⟩ := hx
      exact absurd hpt hPt
    | cons c a2 =>
      simp only [List.cons_append, List.cons.injEq] at hx
      obtain ⟨rfl, hx2⟩ := hx
      obtain ⟨a', b', rfl, hsa, hsb⟩ := ih a2 b t hx2 hPt
      exact ⟨u :: a', b', rfl, .subst t2 u hpt hpu hsa, hsb⟩
  | ins u hpu h' ih =>
    intro a b t hx hPt
    obtain ⟨a', b', rfl, hsa, hsb⟩ := ih a b t hx hPt
    exact ⟨u :: a', b', rfl, .ins u hpu hsa, hsb⟩
  | del t2 hpt h' ih =>
    intro a b t hx hPt
    cases a with
    | nil =>
      simp only [List.nil_append, List.cons.injEq] at hx
      obtain ⟨rfl, rfl⟩ := hx
      exact absurd hpt hPt
    | cons c a2 =>
      simp only [List.cons_append, List.cons.injEq] at hx
      obtain ⟨rfl, hx2⟩ := hx
      obtain ⟨a', b', rfl, hsa, hsb⟩ := ih a2 b t hx2 hPt
      exact ⟨a', b', rfl, .del t2 hpt hsa, hsb⟩

theorem neutral_open_false {i : Nat} {t : Tok} (h : neutralExcept i t)
    {j : Nat} (hij : j ≠ i) : openTokP j t = false := (h j hij).1

theorem pairAt_SMx {i : Nat} {P : Tok → Prop} {xs ys : List Tok}
    (h : SMx P xs ys)
    (hP : ∀ t, P t → openTokP i t = false ∧ closeTokP i t = false)
    (hp : pairAt xs i) : pairAt ys i := by
  obtain ⟨ho, hc, a, b, c, mo, mc, hdec, hmo1, hmo2, hmc1, hmc2, hch, hsz⟩ := hp
  have hoy : ys.countP (openTokP i) = 1 := by
    rw [SMx_countP h (openTokP i) (fun t ht => (hP t ht).1)]
    exact ho
  have hcy : ys.countP (closeTokP i) = 1 := by
    rw [SMx_countP h (closeTokP i) (fun t ht => (hP t ht).2)]
    exact hc
  have hPo : ¬ P (Tok.boldOrItalic mo) := by
    intro hcon
    have := (hP _ hcon).1
    simp [openTokP, hmo1, hmo2] at this
  have hPc : ¬ P (Tok.boldOrItalic mc) := by
    intro hcon
    have := (hP _ hcon).2
    simp [closeTokP, hmc1, hmc2] at this
  obtain ⟨A', c', hy1, hsA, hsc⟩ := SMx_transport h _ _ _ hdec hPc
  obtain ⟨a', b', hy2, hsa, hsb⟩ := SMx_transport hsA _ _ _ rfl hPo
  exact ⟨hoy, hcy, a', b', c', mo, mc, by rw [hy1, hy2], hmo1, hmo2, hmc1,
    hmc2, hch, hsz⟩

theorem absentAt_SMx {i : Nat} {P : Tok → Prop} {xs ys : List Tok}
    (h : SMx P xs ys)
    (hP : ∀ t, P t → openTokP i t = false ∧ closeTokP i t = false)
    (hp : absentAt xs i) : absentAt ys i := by
  obtain ⟨ho, hc⟩ := hp
  constructor
  · rw [SMx_countP h (openTokP i) (fun t ht => (hP t ht).1)]
    exact ho
  · rw [SMx_countP h (closeTokP i) (fun t ht => (hP t ht).2)]
    exact hc


theorem countP_split_mem {P : Tok → Bool} {l u v : List Tok} {t : Tok}
    (hl : l = u ++ t :: v) (ht : P t = true) :
    l.countP P = u.countP P + v.countP P + 1 := by
  subst hl
  simp [List.countP_append, List.countP_cons, ht]
  omega

theorem countP_one_unique_split {P : Tok → Bool} {l : List Tok}
    (h : l.countP P = 1) :
    ∀ {u t v u' t' v'}, l = u ++ t :: v → l = u' ++ t' :: v' →
      P t = true → P t' = true → u = u' ∧ t = t' ∧ v = v' := by
  intro u t v u' t' v' h1 h2 ht ht'
  rcases List.append_eq_append_iff.mp (h1.symm.trans h2) with ⟨w, hw1, hw2⟩ | ⟨w, hw1, hw2⟩
  · -- u' = u ++ w, t :: v = w ++ t' :: v'
    cases w with
    | nil =>
      simp only [List.nil_append] at hw2
      simp only [List.append_nil] at hw1
      injection hw2 with e1 e2
      exact ⟨hw1.symm ▸ rfl, e1, e2⟩
    | cons x w' =>
      injection hw2 with e1 e2
      subst e1
      -- t occurs in u' and t' also occurs: two P-elements
      exfalso
      have hc1 : l.countP P = u.countP P + v.countP P + 1 := countP_split_mem h1 ht
      have hc2 : l.countP P = u'.countP P + v'.countP P + 1 := countP_split_mem h2 ht'
      have hu' : u'.countP P = u.countP P + (w'.countP P + 1) := by
        subst hw1
        simp +arith [List.countP_append, List.countP_cons, ht]
      have hv : v.countP P = w'.countP P + v'.countP P + 1 := by
        subst e2
        simp +arith [List.countP_append, List.countP_cons, ht']
      omega
  · -- u = u' ++ w, t' :: v' = w ++ t :: v
    cases w with
    | nil =>
      simp only [List.nil_append] at hw2
      simp only [List.append_nil] at hw1
      injection hw2 with e1 e2
      exact ⟨hw1, e1.symm, e2.symm⟩
    | cons x w' =>
      injection hw2 with e1 e2
      subst e1
      exfalso
      have hc1 : l.countP P = u.countP P + v.countP P + 1 := countP_split_mem h1 ht
      have hc2 : l.countP P = u'.countP P + v'.countP P + 1 := countP_split_mem h2 ht'
      have hu : u.countP P = u'.countP P + (w'.countP P + 1) := by
        subst hw1
        simp +arith [List.countP_append, List.countP_cons, ht']
      have hv' : v'.countP P = w'.countP P + v.countP P + 1 := by
        subst e2
        simp +arith [List.countP_append, List.countP_cons, ht]
      omega

theorem countP_pos_exists {P : Tok → Bool} {l : List Tok}
    (h : 1 ≤ l.countP P) : ∃ u t v, l = u ++ t :: v ∧ P t = true := by
  induction l with
  | nil => simp at h
  | cons x xs ih =>
    rcases hx : P x with _ | _
    · rw [List.countP_cons, hx] at h
      simp only [Bool.false_eq_true, if_false, Nat.add_zero] at h
      obtain ⟨u, t, v, rfl, ht⟩ := ih h
      exact ⟨x :: u, t, v, rfl, ht⟩
    · exact ⟨[], x, xs, rfl, hx⟩

theorem pairAt_close_after {l : List Tok} {i : Nat} (h : pairAt l i)
    {u v : List Tok} (hl : l = u ++ v)
    (ho : u.countP (openTokP i) = 0) : u.countP (closeTokP i) = 0 := by
  obtain ⟨hco, hcc, a, b, c, mo, mc, hdec, hmo1, hmo2, hmc1, hmc2, _, _⟩ := h
  have hmoP : openTokP i (Tok.boldOrItalic mo) = true := by
    simp [openTokP, hmo1, hmo2]
  have hmcP : closeTokP i (Tok.boldOrItalic mc) = true := by
    simp [closeTokP, hmc1, hmc2]
  -- l = (a ++ mo :: b) ++ mc :: c; compare u with the prefix a
  have hdec2 : l = a ++ Tok.boldOrItalic mo :: (b ++ Tok.boldOrItalic mc :: c) := by
    rw [hdec]
    simp
  rcases List.append_eq_append_iff.mp (hl.symm.trans hdec2) with ⟨w, hw1, hw2⟩ | ⟨w, hw1, hw2⟩
  · -- a = u ++ w: u is a prefix of a
    have hca : a.countP (closeTokP i) = 0 := by
      have := countP_split_mem hdec hmcP
      have h2 : (a ++ Tok.boldOrItalic mo :: b).countP (closeTokP i)
          = a.countP (closeTokP i) + b.countP (closeTokP i) := by
        simp [List.countP_append, List.countP_cons, closeTokP, hmo1]
      omega
    subst hw1
    simp only [List.countP_append] at hca
    omega
  · -- u = a ++ w, w ++ v = mo :: (…)
    cases w with
    | nil =>
      subst hw1
      simp only [List.append_nil]
      have := countP_split_mem hdec2 hmoP
      have hca : a.countP (closeTokP i) = 0 := by
        have h2 := countP_split_mem hdec hmcP
        have h3 : (a ++ Tok.boldOrItalic mo :: b).countP (closeTokP i)
            = a.countP (closeTokP i) + b.countP (closeTokP i) := by
          simp [List.countP_append, List.countP_cons, closeTokP, hmo1]
        omega
      exact hca
    | cons x w' =>
      injection hw2 with e1 e2
      subst e1
      exfalso
      subst hw1
      simp only [List.countP_append, List.countP_cons, hmoP] at ho
      simp at ho

theorem pairAt_at_close {l : List Tok} {i : Nat} (h : pairAt l i)
    {u v : List Tok} {t : Tok} (hl : l = u ++ t :: v)
    (ht : closeTokP i t = true) :
    u.countP (openTokP i) = 1 ∧ u.countP (closeTokP i) = 0 ∧
      v.countP (closeTokP i) = 0 ∧ v.countP (openTokP i) = 0 := by
  obtain ⟨hco, hcc, a, b, c, mo, mc, hdec, hmo1, hmo2, hmc1, hmc2, _, _⟩ := h
  have hmoP : openTokP i (Tok.boldOrItalic mo) = true := by
    simp [openTokP, hmo1, hmo2]
  have hmcP : closeTokP i (Tok.boldOrItalic mc) = true := by
    simp [closeTokP, hmc1, hmc2]
  have hmoC : closeTokP i (Tok.boldOrItalic mo) = false := by
    simp [closeTokP, hmo1]
  have hmcO : openTokP i (Tok.boldOrItalic mc) = false := by
    simp [openTokP, hmc1]
  obtain ⟨he1, he2, he3⟩ := countP_one_unique_split hcc hl hdec ht hmcP
  have hO : a.countP (openTokP i) = 0 ∧ b.countP (openTokP i) = 0 ∧
      c.countP (openTokP i) = 0 := by
    have h2 := hco
    rw [hdec] at h2
    simp [List.countP_append, List.countP_cons, hmoP, hmcO] at h2
    omega
  have hC : a.countP (closeTokP i) = 0 ∧ b.countP (closeTokP i) = 0 ∧
      c.countP (closeTokP i) = 0 := by
    have h2 := hcc
    rw [hdec] at h2
    simp [List.countP_append, List.countP_cons, hmoC, hmcP] at h2
    omega
  refine ⟨?_, ?_, ?_, ?_⟩
  · rw [he1]
    simp [List.countP_append, List.countP_cons, hmoP, hO.1, hO.2.1]
  · rw [he1]
    simp [List.countP_append, List.countP_cons, hmoC, hC.1, hC.2.1]
  · rw [he3]
    exact hC.2.2
  · rw [he3]
    exact hO.2.2

theorem mem_dropWhile_of_pred_false {p : Nat → Bool} {x : Nat} {l : List Nat}
    (hm : x ∈ l) (hp : p x = false) : x ∈ l.dropWhile p := by
  induction l with
  | nil => simp at hm
  | cons a as ih =>
    rw [List.dropWhile_cons]
    rcases ha : p a with _ | _
    · simpa using hm
    · simp only [if_pos]
      rcases List.mem_cons.mp hm with rfl | hm2
      · rw [hp] at ha
        simp at ha
      · exact ih hm2


theorem neutralTok_marker_none {m : Marker} (h : m.mtch = none) :
    neutralTok (.boldOrItalic m) := by
  intro i
  constructor
  · simp [openTokP, h]
  · simp [closeTokP, h]

/-- The inner matching scan edits only unmatched markers; when it reports
a match, its output is the input with the matched close (of the open's
character and size, carrying the fresh id) placed at the match point and
only neutral edits elsewhere. -/
theorem innerScan_spec (o : Marker) (id : Nat) :
    ∀ fuel ts,
      ((innerScan fuel o id ts).2 ≠ .matched →
        SMx neutralTok ts (innerScan fuel o id ts).1) ∧
      ((innerScan fuel o id ts).2 = .matched →
        ∃ X Y, (innerScan fuel o id ts).1 =
            X ++ Tok.boldOrItalic ⟨false, o.ch, o.size, some id, false⟩ :: Y ∧
          SMx neutralTok ts (X ++ Y)) := by
  intro fuel
  induction fuel with
  | zero =>
    intro ts
    refine ⟨fun _ => ?_, fun h => ?_⟩
    · exact SMx_refl _ _
    · simp [innerScan] at h
  | succ fuel ih =>
    intro ts
    match ts with
    | [] =>
      refine ⟨fun _ => ?_, fun h => ?_⟩
      · exact SMx_refl _ _
      · simp [innerScan] at h
    | t :: rest =>
      match t with
      | .boldOrItalic c =>
        rw [innerScan]
        dsimp only
        by_cases h1 : (!c.isOpen && c.mtch.isNone && !c.disabled) = true
        · rw [if_pos h1]
          simp only [Bool.and_eq_true, Bool.not_eq_true',
            Option.isNone_iff_eq_none] at h1
          obtain ⟨⟨hcO, hcN⟩, hcD⟩ := h1
          have hcneutral : neutralTok (.boldOrItalic c) := neutralTok_marker_none hcN
          by_cases h2 : c.size = 3 ∧ o.size ≠ 3
          · rw [if_pos h2]
            dsimp only
            have hfrag1 : neutralTok
                (.boldOrItalic ⟨false, c.ch, 3 - o.size, none, false⟩) :=
              neutralTok_marker_none rfl
            have hfrag2 : neutralTok
                (.boldOrItalic ⟨false, c.ch, o.size, none, false⟩) :=
              neutralTok_marker_none rfl
            have hdis : neutralTok (.boldOrItalic { c with disabled := true }) :=
              neutralTok_marker_none hcN
            obtain ⟨ihn, ihm⟩ := ih
              (Tok.boldOrItalic ⟨false, c.ch, 3 - o.size, none, false⟩ ::
               Tok.boldOrItalic ⟨false, c.ch, o.size, none, false⟩ :: rest)
            refine ⟨fun hst => ?_, fun hst => ?_⟩
            · have hsm := ihn hst
              have hsm2 := SMx_cons_left_drop (SMx_cons_left_drop hsm hfrag1) hfrag2
              exact .subst _ _ hcneutral hdis hsm2
            · obtain ⟨X, Y, hXY, hsm⟩ := ihm hst
              have hsm2 := SMx_cons_left_drop (SMx_cons_left_drop hsm hfrag1) hfrag2
              refine ⟨Tok.boldOrItalic { c with disabled := true } :: X, Y, ?_, ?_⟩
              · simp [hXY]
              · exact .subst _ _ hcneutral hdis hsm2
          · rw [if_neg h2]
            by_cases h3 : c.ch = o.ch ∧ c.size = o.size
            · rw [if_pos h3]
              obtain ⟨hch, hsz⟩ := h3
              refine ⟨fun hst => absurd rfl hst, fun _ => ?_⟩
              refine ⟨[], rest, ?_, ?_⟩
              · simp only [List.nil_append]
                have he : ({ c with mtch := some id } : Marker) =
                    ⟨false, o.ch, o.size, some id, false⟩ := by
                  rcases c with ⟨c1, c2, c3, c4, c5⟩
                  simp only at hcO hcD hch hsz ⊢
                  simp [hcO, hcD, hch, hsz]
                rw [he]
              · exact .del _ hcneutral (SMx_refl _ _)
            · rw [if_neg h3]
              by_cases h4 : o.size = 3
              · rw [if_pos h4]
                refine ⟨fun _ => SMx_refl _ _, fun hst => ?_⟩
                simp at hst
              · rw [if_neg h4]
                dsimp only
                obtain ⟨ihn, ihm⟩ := ih rest
                refine ⟨fun hst => ?_, fun hst => ?_⟩
                · exact .keep _ (ihn hst)
                · obtain ⟨X, Y, hXY, hsm⟩ := ihm hst
                  exact ⟨Tok.boldOrItalic c :: X, Y, by simp [hXY],
                    .keep _ hsm⟩
        · rw [if_neg h1]
          dsimp only
          obtain ⟨ihn, ihm⟩ := ih rest
          refine ⟨fun hst => ?_, fun hst => ?_⟩
          · exact .keep _ (ihn hst)
          · obtain ⟨X, Y, hXY, hsm⟩ := ihm hst
            exact ⟨Tok.boldOrItalic c :: X, Y, by simp [hXY], .keep _ hsm⟩
      | .rawText tx cm =>
        simp only [innerScan]
        obtain ⟨ihn, ihm⟩ := ih rest
        refine ⟨fun hst => ?_, fun hst => ?_⟩
        · exact .keep _ (ihn hst)
        · obtain ⟨X, Y, hXY, hsm⟩ := ihm hst
          exact ⟨_ :: X, Y, by simp [hXY], .keep _ hsm⟩
      | .blankLine tx =>
        simp only [innerScan]
        obtain ⟨ihn, ihm⟩ := ih rest
        refine ⟨fun hst => ?_, fun hst => ?_⟩
        · exact .keep _ (ihn hst)
        · obtain ⟨X, Y, hXY, hsm⟩ := ihm hst
          exact ⟨_ :: X, Y, by simp [hXY], .keep _ hsm⟩
      | .codeBlock tx =>
        simp only [innerScan]
        obtain ⟨ihn, ihm⟩ := ih rest
        refine ⟨fun hst => ?_, fun hst => ?_⟩
        · exact .keep _ (ihn hst)
        · obtain ⟨X, Y, hXY, hsm⟩ := ihm hst
          exact ⟨_ :: X, Y, by simp [hXY], .keep _ hsm⟩
      | .fencedCodeBlock tx info =>
        simp only [innerScan]
        obtain ⟨ihn, ihm⟩ := ih rest
        refine ⟨fun hst => ?_, fun hst => ?_⟩
        · exact .keep _ (ihn hst)
        · obtain ⟨X, Y, hXY, hsm⟩ := ihm hst
          exact ⟨_ :: X, Y, by simp [hXY], .keep _ hsm⟩
      | .codeSpan tx =>
        simp only [innerScan]
        obtain ⟨ihn, ihm⟩ := ih rest
        refine ⟨fun hst => ?_, fun hst => ?_⟩
        · exact .keep _ (ihn hst)
        · obtain ⟨X, Y, hXY, hsm⟩ := ihm hst
          exact ⟨_ :: X, Y, by simp [hXY], .keep _ hsm⟩
      | .textHolder tx cm f =>
        simp only [innerScan]
        obtain ⟨ihn, ihm⟩ := ih rest
        refine ⟨fun hst => ?_, fun hst => ?_⟩
        · exact .keep _ (ihn hst)
        · obtain ⟨X, Y, hXY, hsm⟩ := ihm hst
          exact ⟨_ :: X, Y, by simp [hXY], .keep _ hsm⟩
      | .htmlTag tx =>
        simp only [innerScan]
        obtain ⟨ihn, ihm⟩ := ih rest
        refine ⟨fun hst => ?_, fun hst => ?_⟩
        · exact .keep _ (ihn hst)
        · obtain ⟨X, Y, hXY, hsm⟩ := ihm hst
          exact ⟨_ :: X, Y, by simp [hXY], .keep _ hsm⟩
      | .htmlAnchorTag tx =>
        simp only [innerScan]
        obtain ⟨ihn, ihm⟩ := ih rest
        refine ⟨fun hst => ?_, fun hst => ?_⟩
        · exact .keep _ (ihn hst)
        · obtain ⟨X, Y, hXY, hsm⟩ := ihm hst
          exact ⟨_ :: X, Y, by simp [hXY], .keep _ hsm⟩
      | .inlineHtmlContents tx =>
        simp only [innerScan]
        obtain ⟨ihn, ihm⟩ := ih rest
        refine ⟨fun hst => ?_, fun hst => ?_⟩
        · exact .keep _ (ihn hst)
        · obtain ⟨X, Y, hXY, hsm⟩ := ihm hst
          exact ⟨_ :: X, Y, by simp [hXY], .keep _ hsm⟩
      | .inlineHtmlComment tx =>
        simp only [innerScan]
        obtain ⟨ihn, ihm⟩ := ih rest
        refine ⟨fun hst => ?_, fun hst => ?_⟩
        · exact .keep _ (ihn hst)
        · obtain ⟨X, Y, hXY, hsm⟩ := ihm hst
          exact ⟨_ :: X, Y, by simp [hXY], .keep _ hsm⟩
      | .escapedChar ec =>
        simp only [innerScan]
        obtain ⟨ihn, ihm⟩ := ih rest
        refine ⟨fun hst => ?_, fun hst => ?_⟩
        · exact .keep _ (ihn hst)
        · obtain ⟨X, Y, hXY, hsm⟩ := ihm hst
          exact ⟨_ :: X, Y, by simp [hXY], .keep _ hsm⟩
      | .image a1 a2 a3 =>
        simp only [innerScan]
        obtain ⟨ihn, ihm⟩ := ih rest
        refine ⟨fun hst => ?_, fun hst => ?_⟩
        · exact .keep _ (ihn hst)
        · obtain ⟨X, Y, hXY, hsm⟩ := ihm hst
          exact ⟨_ :: X, Y, by simp [hXY], .keep _ hsm⟩
      | .inlineHtmlBlock sub =>
        simp only [innerScan]
        obtain ⟨ihn, ihm⟩ := ih rest
        refine ⟨fun hst => ?_, fun hst => ?_⟩
        · exact .keep _ (ihn hst)
        · obtain ⟨X, Y, hXY, hsm⟩ := ihm hst
          exact ⟨_ :: X, Y, by simp [hXY], .keep _ hsm⟩
      | .header lv sub =>
        simp only [innerScan]
        obtain ⟨ihn, ihm⟩ := ih rest
        refine ⟨fun hst => ?_, fun hst => ?_⟩
        · exact .keep _ (ihn hst)
        · obtain ⟨X, Y, hXY, hsm⟩ := ihm hst
          exact ⟨_ :: X, Y, by simp [hXY], .keep _ hsm⟩
      | .paragraph sub =>
        simp only [innerScan]
        obtain ⟨ihn, ihm⟩ := ih rest
        refine ⟨fun hst => ?_, fun hst => ?_⟩
        · exact .keep _ (ihn hst)
        · obtain ⟨X, Y, hXY, hsm⟩ := ihm hst
          exact ⟨_ :: X, Y, by simp [hXY], .keep _ hsm⟩
      | .blockQuote sub =>
        simp only [innerScan]
        obtain ⟨ihn, ihm⟩ := ih rest
        refine ⟨fun hst => ?_, fun hst => ?_⟩
        · exact .keep _ (ihn hst)
        · obtain ⟨X, Y, hXY, hsm⟩ := ihm hst
          exact ⟨_ :: X, Y, by simp [hXY], .keep _ hsm⟩
      | .unorderedList sub =>
        simp only [innerScan]
        obtain ⟨ihn, ihm⟩ := ih rest
        refine ⟨fun hst => ?_, fun hst => ?_⟩
        · exact .keep _ (ihn hst)
        · obtain ⟨X, Y, hXY, hsm⟩ := ihm hst
          exact ⟨_ :: X, Y, by simp [hXY], .keep _ hsm⟩
      | .orderedList sub =>
        simp only [innerScan]
        obtain ⟨ihn, ihm⟩ := ih rest
        refine ⟨fun hst => ?_, fun hst => ?_⟩
        · exact .keep _ (ihn hst)
        · obtain ⟨X, Y, hXY, hsm⟩ := ihm hst
          exact ⟨_ :: X, Y, by simp [hXY], .keep _ hsm⟩
      | .listItem sub ip =>
        simp only [innerScan]
        obtain ⟨ihn, ihm⟩ := ih rest
        refine ⟨fun hst => ?_, fun hst => ?_⟩
        · exact .keep _ (ihn hst)
        · obtain ⟨X, Y, hXY, hsm⟩ := ihm hst
          exact ⟨_ :: X, Y, by simp [hXY], .keep _ hsm⟩
      | .container sub =>
        simp only [innerScan]
        obtain ⟨ihn, ihm⟩ := ih rest
        refine ⟨fun hst => ?_, fun hst => ?_⟩
        · exact .keep _ (ihn hst)
        · obtain ⟨X, Y, hXY, hsm⟩ := ihm hst
          exact ⟨_ :: X, Y, by simp [hXY], .keep _ hsm⟩


/-! ## Well-formedness of the matching pass (`markdown_tokens.cpp:540-591`) -/

theorem reverse_cons_append (t : Tok) (done ts : List Tok) :
    (t :: done).reverse ++ ts = done.reverse ++ t :: ts := by
  simp

theorem neutralExcept_marker_some {m : Marker} {id : Nat} (h : m.mtch = some id) :
    neutralExcept id (.boldOrItalic m) := by
  intro i hi
  have hne : ((some id : Option Nat) == some i) = false := by
    simp only [beq_eq_false_iff_ne, ne_eq, Option.some.injEq]
    exact fun he => hi he.symm
  constructor
  · simp [openTokP, h, hne]
  · simp [closeTokP, h, hne]

theorem neutralExcept_of_neutral {t : Tok} (h : neutralTok t) (id : Nat) :
    neutralExcept id t := fun i _ => h i

theorem absentAt_append {u v : List Tok} {j : Nat} :
    absentAt (u ++ v) j ↔ absentAt u j ∧ absentAt v j := by
  unfold absentAt
  rw [List.countP_append, List.countP_append]
  omega

theorem absentAt_cons {t : Tok} {ts : List Tok} {j : Nat} :
    absentAt (t :: ts) j ↔
      (openTokP j t = false ∧ closeTokP j t = false) ∧ absentAt ts j := by
  unfold absentAt
  rw [List.countP_cons, List.countP_cons]
  cases ho : openTokP j t <;> cases hc : closeTokP j t <;> simp

theorem pass1_wf : ∀ (fuel id : Nat) (done todo : List Tok),
    (∀ j, id ≤ j → absentAt (done.reverse ++ todo) j) →
    (∀ j, j < id → pairAt (done.reverse ++ todo) j ∨ absentAt (done.reverse ++ todo) j) →
    wfPairs (pass1 fuel id done todo) := by
  intro fuel
  induction fuel with
  | zero =>
    intro id done todo hfresh hwf j
    rw [pass1]
    rcases Nat.lt_or_ge j id with hj | hj
    · exact hwf j hj
    · exact Or.inr (hfresh j hj)
  | succ fuel ih =>
    intro id done todo hfresh hwf
    match todo with
    | [] =>
      rw [pass1]
      intro j
      rcases Nat.lt_or_ge j id with hj | hj
      · have h0 := hwf j hj
        rw [List.append_nil] at h0
        exact h0
      · have h0 := hfresh j hj
        rw [List.append_nil] at h0
        exact Or.inr h0
    | t :: ts =>
      match t with
      | .boldOrItalic o =>
        rw [pass1]
        dsimp only
        by_cases hg : (o.isOpen && o.mtch.isNone && !o.disabled) = true
        · rw [if_pos hg]
          simp only [Bool.and_eq_true, Bool.not_eq_true',
            Option.isNone_iff_eq_none] at hg
          obtain ⟨⟨hoO, hoN⟩, hoD⟩ := hg
          have honeut : neutralTok (.boldOrItalic o) := neutralTok_marker_none hoN
          rcases hs : (innerScan (3 * ts.length + 3) o id ts).2 with _ | _ | csize
          · -- matched
            dsimp only
            obtain ⟨X, Y, hXY, hsm⟩ :=
              (innerScan_spec o id (3 * ts.length + 3) ts).2 hs
            rw [hXY]
            have hneuo : neutralExcept id (Tok.boldOrItalic o) :=
              neutralExcept_of_neutral honeut id
            have hneuopn : neutralExcept id
                (Tok.boldOrItalic { o with mtch := some id }) :=
              neutralExcept_marker_some rfl
            have hneucls : neutralExcept id
                (Tok.boldOrItalic ⟨false, o.ch, o.size, some id, false⟩) :=
              neutralExcept_marker_some rfl
            have hsm' : SMx (neutralExcept id) ts (X ++ Y) :=
              SMx_mono (fun u hu => neutralExcept_of_neutral hu id) hsm
            have hrel0 : SMx (neutralExcept id)
                (done.reverse ++ Tok.boldOrItalic o :: ts)
                (done.reverse ++
                  Tok.boldOrItalic { o with mtch := some id } :: (X ++ Y)) :=
              SMx_append (SMx_refl _ _) (.subst _ _ hneuo hneuopn hsm')
            have hrel : SMx (neutralExcept id)
                (done.reverse ++ Tok.boldOrItalic o :: ts)
                ((done.reverse ++ Tok.boldOrItalic { o with mtch := some id } :: X) ++
                  Tok.boldOrItalic ⟨false, o.ch, o.size, some id, false⟩ :: Y) :=
              SMx_insert_right hrel0 _ _ _ (by simp) hneucls
            have hLeq : (Tok.boldOrItalic { o with mtch := some id } :: done).reverse ++
                (X ++ Tok.boldOrItalic ⟨false, o.ch, o.size, some id, false⟩ :: Y) =
                (done.reverse ++ Tok.boldOrItalic { o with mtch := some id } :: X) ++
                  Tok.boldOrItalic ⟨false, o.ch, o.size, some id, false⟩ :: Y := by
              simp
            have habs := hfresh id (Nat.le_refl id)
            rw [absentAt_append, absentAt_cons] at habs
            obtain ⟨habsD, _, habsTs⟩ := habs
            have habsXY : absentAt (X ++ Y) id :=
              absentAt_SMx hsm (fun u hu => hu id) habsTs
            rw [absentAt_append] at habsXY
            obtain ⟨habsX, habsY⟩ := habsXY
            have hopnO : openTokP id
                (Tok.boldOrItalic { o with mtch := some id }) = true := by
              simp [openTokP, hoO]
            have hopnC : closeTokP id
                (Tok.boldOrItalic { o with mtch := some id }) = false := by
              simp [closeTokP, hoO]
            have hclsC : closeTokP id
                (Tok.boldOrItalic
                  (⟨false, o.ch, o.size, some id, false⟩ : Marker)) = true := by
              simp [closeTokP]
            have hclsO : openTokP id
                (Tok.boldOrItalic
                  (⟨false, o.ch, o.size, some id, false⟩ : Marker)) = false := by
              simp [openTokP]
            have hpair : pairAt
                ((done.reverse ++ Tok.boldOrItalic { o with mtch := some id } :: X) ++
                  Tok.boldOrItalic ⟨false, o.ch, o.size, some id, false⟩ :: Y) id := by
              obtain ⟨hDo, hDc⟩ := habsD
              obtain ⟨hXo, hXc⟩ := habsX
              obtain ⟨hYo, hYc⟩ := habsY
              refine ⟨?_, ?_, done.reverse, X, Y,
                { o with mtch := some id }, ⟨false, o.ch, o.size, some id, false⟩,
                by simp, hoO, rfl, rfl, rfl, rfl, rfl⟩
              · simp [List.countP_append, List.countP_cons, hopnO, hclsO, hDo, hXo, hYo]
              · simp [List.countP_append, List.countP_cons, hopnC, hclsC, hDc, hXc, hYc]
            refine ih (id + 1) _ _ ?_ ?_
            · intro j hj
              rw [hLeq]
              refine absentAt_SMx hrel (fun u hu => hu j ?_) (hfresh j (by omega))
              omega
            · intro j hj
              rw [hLeq]
              rcases Nat.lt_or_ge j id with hj2 | hj2
              · have hne : j ≠ id := by omega
                rcases hwf j hj2 with hp | ha
                · exact Or.inl (pairAt_SMx hrel (fun u hu => hu j hne) hp)
                · exact Or.inr (absentAt_SMx hrel (fun u hu => hu j hne) ha)
              · have hje : j = id := by omega
                subst hje
                exact Or.inl hpair
          · -- nomatch
            dsimp only
            have hsm := (innerScan_spec o id (3 * ts.length + 3) ts).1
              (by rw [hs]; simp)
            refine ih id (Tok.boldOrItalic o :: done) _ ?_ ?_
            · intro j hj
              rw [reverse_cons_append]
              exact absentAt_SMx (SMx_append (SMx_refl _ done.reverse) (.keep _ hsm))
                (fun u hu => hu j) (hfresh j hj)
            · intro j hj
              rw [reverse_cons_append]
              rcases hwf j hj with hp | ha
              · exact Or.inl (pairAt_SMx
                  (SMx_append (SMx_refl _ done.reverse) (.keep _ hsm))
                  (fun u hu => hu j) hp)
              · exact Or.inr (absentAt_SMx
                  (SMx_append (SMx_refl _ done.reverse) (.keep _ hsm))
                  (fun u hu => hu j) ha)
          · -- osplit
            dsimp only
            have hsm := (innerScan_spec o id (3 * ts.length + 3) ts).1
              (by rw [hs]; simp)
            have hrel : SMx neutralTok (done.reverse ++ Tok.boldOrItalic o :: ts)
                (done.reverse ++ Tok.boldOrItalic { o with disabled := true } ::
                  Tok.boldOrItalic ⟨true, o.ch, o.size - csize, none, false⟩ ::
                  Tok.boldOrItalic ⟨true, o.ch, csize, none, false⟩ ::
                  (innerScan (3 * ts.length + 3) o id ts).1) :=
              SMx_append (SMx_refl _ _)
                (.subst _ _ honeut (neutralTok_marker_none hoN)
                  (.ins _ (neutralTok_marker_none rfl)
                    (.ins _ (neutralTok_marker_none rfl) hsm)))
            refine ih id _ _ ?_ ?_
            · intro j hj
              rw [reverse_cons_append]
              exact absentAt_SMx hrel (fun u hu => hu j) (hfresh j hj)
            · intro j hj
              rw [reverse_cons_append]
              rcases hwf j hj with hp | ha
              · exact Or.inl (pairAt_SMx hrel (fun u hu => hu j) hp)
              · exact Or.inr (absentAt_SMx hrel (fun u hu => hu j) ha)
        · rw [if_neg hg]
          refine ih id (Tok.boldOrItalic o :: done) ts ?_ ?_
          · intro j hj; rw [reverse_cons_append]; exact hfresh j hj
          · intro j hj; rw [reverse_cons_append]; exact hwf j hj
      | .rawText tx cm =>
        simp only [pass1]
        refine ih id (Tok.rawText tx cm :: done) ts ?_ ?_
        · intro j hj; rw [reverse_cons_append]; exact hfresh j hj
        · intro j hj; rw [reverse_cons_append]; exact hwf j hj
      | .blankLine tx =>
        simp only [pass1]
        refine ih id (Tok.blankLine tx :: done) ts ?_ ?_
        · intro j hj; rw [reverse_cons_append]; exact hfresh j hj
        · intro j hj; rw [reverse_cons_append]; exact hwf j hj
      | .codeBlock tx =>
        simp only [pass1]
        refine ih id (Tok.codeBlock tx :: done) ts ?_ ?_
        · intro j hj; rw [reverse_cons_append]; exact hfresh j hj
        · intro j hj; rw [reverse_cons_append]; exact hwf j hj
      | .fencedCodeBlock tx info =>
        simp only [pass1]
        refine ih id (Tok.fencedCodeBlock tx info :: done) ts ?_ ?_
        · intro j hj; rw [reverse_cons_append]; exact hfresh j hj
        · intro j hj; rw [reverse_cons_append]; exact hwf j hj
      | .codeSpan tx =>
        simp only [pass1]
        refine ih id (Tok.codeSpan tx :: done) ts ?_ ?_
        · intro j hj; rw [reverse_cons_append]; exact hfresh j hj
        · intro j hj; rw [reverse_cons_append]; exact hwf j hj
      | .textHolder tx cm f =>
        simp only [pass1]
        refine ih id (Tok.textHolder tx cm f :: done) ts ?_ ?_
        · intro j hj; rw [reverse_cons_append]; exact hfresh j hj
        · intro j hj; rw [reverse_cons_append]; exact hwf j hj
      | .htmlTag tx =>
        simp only [pass1]
        refine ih id (Tok.htmlTag tx :: done) ts ?_ ?_
        · intro j hj; rw [reverse_cons_append]; exact hfresh j hj
        · intro j hj; rw [reverse_cons_append]; exact hwf j hj
      | .htmlAnchorTag tx =>
        simp only [pass1]
        refine ih id (Tok.htmlAnchorTag tx :: done) ts ?_ ?_
        · intro j hj; rw [reverse_cons_append]; exact hfresh j hj
        · intro j hj; rw [reverse_cons_append]; exact hwf j hj
      | .inlineHtmlContents tx =>
        simp only [pass1]
        refine ih id (Tok.inlineHtmlContents tx :: done) ts ?_ ?_
        · intro j hj; rw [reverse_cons_append]; exact hfresh j hj
        · intro j hj; rw [reverse_cons_append]; exact hwf j hj
      | .inlineHtmlComment tx =>
        simp only [pass1]
        refine ih id (Tok.inlineHtmlComment tx :: done) ts ?_ ?_
        · intro j hj; rw [reverse_cons_append]; exact hfresh j hj
        · intro j hj; rw [reverse_cons_append]; exact hwf j hj
      | .escapedChar ec =>
        simp only [pass1]
        refine ih id (Tok.escapedChar ec :: done) ts ?_ ?_
        · intro j hj; rw [reverse_cons_append]; exact hfresh j hj
        · intro j hj; rw [reverse_cons_append]; exact hwf j hj
      | .image a1 a2 a3 =>
        simp only [pass1]
        refine ih id (Tok.image a1 a2 a3 :: done) ts ?_ ?_
        · intro j hj; rw [reverse_cons_append]; exact hfresh j hj
        · intro j hj; rw [reverse_cons_append]; exact hwf j hj
      | .inlineHtmlBlock sub =>
        simp only [pass1]
        refine ih id (Tok.inlineHtmlBlock sub :: done) ts ?_ ?_
        · intro j hj; rw [reverse_cons_append]; exact hfresh j hj
        · intro j hj; rw [reverse_cons_append]; exact hwf j hj
      | .header lv sub =>
        simp only [pass1]
        refine ih id (Tok.header lv sub :: done) ts ?_ ?_
        · intro j hj; rw [reverse_cons_append]; exact hfresh j hj
        · intro j hj; rw [reverse_cons_append]; exact hwf j hj
      | .paragraph sub =>
        simp only [pass1]
        refine ih id (Tok.paragraph sub :: done) ts ?_ ?_
        · intro j hj; rw [reverse_cons_append]; exact hfresh j hj
        · intro j hj; rw [reverse_cons_append]; exact hwf j hj
      | .blockQuote sub =>
        simp only [pass1]
        refine ih id (Tok.blockQuote sub :: done) ts ?_ ?_
        · intro j hj; rw [reverse_cons_append]; exact hfresh j hj
        · intro j hj; rw [reverse_cons_append]; exact hwf j hj
      | .unorderedList sub =>
        simp only [pass1]
        refine ih id (Tok.unorderedList sub :: done) ts ?_ ?_
        · intro j hj; rw [reverse_cons_append]; exact hfresh j hj
        · intro j hj; rw [reverse_cons_append]; exact hwf j hj
      | .orderedList sub =>
        simp only [pass1]
        refine ih id (Tok.orderedList sub :: done) ts ?_ ?_
        · intro j hj; rw [reverse_cons_append]; exact hfresh j hj
        · intro j hj; rw [reverse_cons_append]; exact hwf j hj
      | .listItem sub ip =>
        simp only [pass1]
        refine ih id (Tok.listItem sub ip :: done) ts ?_ ?_
        · intro j hj; rw [reverse_cons_append]; exact hfresh j hj
        · intro j hj; rw [reverse_cons_append]; exact hwf j hj
      | .container sub =>
        simp only [pass1]
        refine ih id (Tok.container sub :: done) ts ?_ ?_
        · intro j hj; rw [reverse_cons_append]; exact hfresh j hj
        · intro j hj; rw [reverse_cons_append]; exact hwf j hj

theorem neutralTok_rawText (tx : List Char) (cm : Bool) :
    neutralTok (.rawText tx cm) :=
  fun _ => ⟨rfl, rfl⟩

theorem emphasisScan_neutral (s : List Char) :
    ∀ fuel cur, ∀ t ∈ emphasisScanFrom.go s fuel cur, neutralTok t := by
  intro fuel
  induction fuel with
  | zero =>
    intro cur t ht
    simp [emphasisScanFrom.go] at ht
  | succ fuel ih =>
    intro cur t ht
    rw [emphasisScanFrom.go] at ht
    rcases hf : emphFind s cur with _ | p
    · simp only [hf] at ht
      by_cases hd : s.drop cur = []
      · simp [hd] at ht
      · simp only [hd, if_false, List.mem_singleton] at ht
        subst ht
        exact neutralTok_rawText _ _
    · simp only [hf] at ht
      rcases ha : emphAt s p with _ | r
      · simp [ha] at ht
      · simp only [ha] at ht
        rw [List.mem_append] at ht
        rcases ht with ht | ht
        · by_cases hc : sliceBetween s cur p = []
          · simp [hc] at ht
          · simp only [hc, if_false, List.mem_singleton] at ht
            subst ht
            exact neutralTok_rawText _ _
        · rw [List.mem_cons] at ht
          rcases ht with ht | ht
          · subst ht
            split
            · exact neutralTok_rawText _ _
            · exact neutralTok_marker_none rfl
          · exact ih _ t ht

theorem emphasisScanFrom_absent (s : List Char) (cur j : Nat) :
    absentAt (emphasisScanFrom s cur) j := by
  constructor
  · rw [List.countP_eq_zero]
    intro t ht
    rw [emphasisScanFrom] at ht
    have h := (emphasisScan_neutral s _ _ t ht j).1
    simp [h]
  · rw [List.countP_eq_zero]
    intro t ht
    rw [emphasisScanFrom] at ht
    have h := (emphasisScan_neutral s _ _ t ht j).2
    simp [h]

theorem pass1_scan_wf (s : List Char) (fuel : Nat) :
    wfPairs (pass1 fuel 0 [] (emphasisScanFrom s 0)) := by
  refine pass1_wf fuel 0 [] _ ?_ ?_
  · intro j _
    simp only [List.reverse_nil, List.nil_append]
    exact emphasisScanFrom_absent s 0 j
  · intro j hj
    omega

/-! ## Safety of the nesting-validation pass (`markdown_tokens.cpp:593-611`) -/

theorem countP_append_singleton (p : Tok → Bool) (l : List Tok) (t : Tok) :
    (l ++ [t]).countP p = l.countP p + (if p t then 1 else 0) := by
  simp [List.countP_append, List.countP_cons]

theorem neutralTok_of_no_marker {t : Tok} (h : ∀ m, t ≠ Tok.boldOrItalic m) :
    neutralTok t := by
  intro i
  cases t with
  | boldOrItalic m => exact absurd rfl (h m)
  | rawText a b => exact ⟨rfl, rfl⟩
  | blankLine a => exact ⟨rfl, rfl⟩
  | codeBlock a => exact ⟨rfl, rfl⟩
  | fencedCodeBlock a b => exact ⟨rfl, rfl⟩
  | codeSpan a => exact ⟨rfl, rfl⟩
  | textHolder a b c => exact ⟨rfl, rfl⟩
  | htmlTag a => exact ⟨rfl, rfl⟩
  | htmlAnchorTag a => exact ⟨rfl, rfl⟩
  | inlineHtmlContents a => exact ⟨rfl, rfl⟩
  | inlineHtmlComment a => exact ⟨rfl, rfl⟩
  | escapedChar a => exact ⟨rfl, rfl⟩
  | image a b c => exact ⟨rfl, rfl⟩
  | inlineHtmlBlock a => exact ⟨rfl, rfl⟩
  | header a b => exact ⟨rfl, rfl⟩
  | paragraph a => exact ⟨rfl, rfl⟩
  | blockQuote a => exact ⟨rfl, rfl⟩
  | unorderedList a => exact ⟨rfl, rfl⟩
  | orderedList a => exact ⟨rfl, rfl⟩
  | listItem a b => exact ⟨rfl, rfl⟩
  | container a => exact ⟨rfl, rfl⟩

/-- The state invariant of the validation traversal: every id whose open
has been seen but whose close has not, and which is not invalidated, sits
on the stack (T2); invalidated ids have had their close visited (T3);
every stacked id has its open in the seen prefix (T5); and ids deeper in
the stack were opened earlier (T4). -/
def stackInv (seen : List Tok) (stack invalid : List Nat) : Prop :=
  (∀ j, seen.countP (openTokP j) = 1 → seen.countP (closeTokP j) = 0 →
      j ∉ invalid → j ∈ stack) ∧
  (∀ j ∈ invalid, seen.countP (closeTokP j) = 1) ∧
  (∀ y ∈ stack, ∃ p tp q, seen = p ++ tp :: q ∧ openTokP y tp = true) ∧
  (∀ u x v y w, stack = u ++ x :: v ++ y :: w →
    ∃ p tp q tq r, seen = p ++ tp :: q ++ tq :: r ∧
      openTokP y tp = true ∧ openTokP x tq = true)

theorem stackInv_extend_neutral {seen : List Tok} {stack invalid : List Nat}
    {t : Tok} (hinv : stackInv seen stack invalid) (hneut : neutralTok t) :
    stackInv (seen ++ [t]) stack invalid := by
  obtain ⟨hT2, hT3, hT5, hT4⟩ := hinv
  refine ⟨?_, ?_, ?_, ?_⟩
  · intro j h1 h2 hni
    rw [countP_append_singleton, (hneut j).1] at h1
    rw [countP_append_singleton, (hneut j).2] at h2
    simp only [Bool.false_eq_true, if_false] at h1 h2
    exact hT2 j (by omega) (by omega) hni
  · intro j hj
    rw [countP_append_singleton, (hneut j).2]
    simp only [Bool.false_eq_true, if_false]
    have := hT3 j hj
    omega
  · intro y hy
    obtain ⟨p, tp, q, hq, ho⟩ := hT5 y hy
    subst hq
    exact ⟨p, tp, q ++ [t], by simp, ho⟩
  · intro u x v y w hsp
    obtain ⟨p, tp, q, tq, r, hr, h1, h2⟩ := hT4 u x v y w hsp
    subst hr
    exact ⟨p, tp, q, tq, r ++ [t], by simp, h1, h2⟩

theorem pass2Aux_mono : ∀ (l : List Tok) (stack invalid inv' : List Nat),
    pass2Aux stack invalid l = some inv' → ∀ x ∈ invalid, x ∈ inv' := by
  intro l
  induction l with
  | nil =>
    intro stack invalid inv' h x hx
    simp only [pass2Aux, Option.some.injEq] at h
    subst h
    exact hx
  | cons t ts ih =>
    intro stack invalid inv' h x hx
    cases t with
    | boldOrItalic m =>
      rw [pass2Aux] at h
      rcases hm : m.mtch with _ | i
      · simp only [hm] at h
        exact ih _ _ _ h x hx
      · simp only [hm] at h
        by_cases ho : m.isOpen = true
        · rw [if_pos ho] at h
          exact ih _ _ _ h x hx
        · rw [if_neg ho] at h
          cases stack with
          | nil => simp at h
          | cons top rest =>
            dsimp only at h
            by_cases hne : i ≠ top
            · rw [if_pos hne] at h
              exact ih _ _ _ h x (List.mem_cons_of_mem _ hx)
            · rw [if_neg hne] at h
              exact ih _ _ _ h x hx
    | rawText a b => simp only [pass2Aux] at h; exact ih _ _ _ h x hx
    | blankLine a => simp only [pass2Aux] at h; exact ih _ _ _ h x hx
    | codeBlock a => simp only [pass2Aux] at h; exact ih _ _ _ h x hx
    | fencedCodeBlock a b => simp only [pass2Aux] at h; exact ih _ _ _ h x hx
    | codeSpan a => simp only [pass2Aux] at h; exact ih _ _ _ h x hx
    | textHolder a b c => simp only [pass2Aux] at h; exact ih _ _ _ h x hx
    | htmlTag a => simp only [pass2Aux] at h; exact ih _ _ _ h x hx
    | htmlAnchorTag a => simp only [pass2Aux] at h; exact ih _ _ _ h x hx
    | inlineHtmlContents a => simp only [pass2Aux] at h; exact ih _ _ _ h x hx
    | inlineHtmlComment a => simp only [pass2Aux] at h; exact ih _ _ _ h x hx
    | escapedChar a => simp only [pass2Aux] at h; exact ih _ _ _ h x hx
    | image a b c => simp only [pass2Aux] at h; exact ih _ _ _ h x hx
    | inlineHtmlBlock a => simp only [pass2Aux] at h; exact ih _ _ _ h x hx
    | header a b => simp only [pass2Aux] at h; exact ih _ _ _ h x hx
    | paragraph a => simp only [pass2Aux] at h; exact ih _ _ _ h x hx
    | blockQuote a => simp only [pass2Aux] at h; exact ih _ _ _ h x hx
    | unorderedList a => simp only [pass2Aux] at h; exact ih _ _ _ h x hx
    | orderedList a => simp only [pass2Aux] at h; exact ih _ _ _ h x hx
    | listItem a b => simp only [pass2Aux] at h; exact ih _ _ _ h x hx
    | container a => simp only [pass2Aux] at h; exact ih _ _ _ h x hx

theorem pairAt_of_close_mem {full : List Tok} (hwf : wfPairs full)
    {u v : List Tok} {t : Tok} {i : Nat} (hl : full = u ++ t :: v)
    (ht : closeTokP i t = true) : pairAt full i := by
  rcases hwf i with hp | ha
  · exact hp
  · exfalso
    have h1 := countP_split_mem hl ht
    have h2 := ha.2
    omega

/-- The "no interleaving among surviving pairs" consequence carried
through the validation traversal: any crossed pattern of two open and two
close markers in the full token list (with the first close not yet
consumed) forces one of the two ids into the invalidated set. -/
def noCrossOut (seen l : List Tok) (inv : List Nat) : Prop :=
  ∀ i j a b c d e t1 t2 t3 t4,
    seen ++ l = a ++ t1 :: (b ++ t2 :: (c ++ t3 :: (d ++ t4 :: e))) →
    openTokP i t1 = true → openTokP j t2 = true →
    closeTokP i t3 = true → closeTokP j t4 = true →
    seen.length ≤ a.length + 1 + b.length + 1 + c.length →
    i ∈ inv ∨ j ∈ inv

/-- Combined safety statement for the validation traversal: it never
reads the top of an empty stack, and it invalidates one id out of every
crossed pair. -/
def pass2Goal (seen l : List Tok) (stack invalid : List Nat) : Prop :=
  pass2Aux stack invalid l ≠ none ∧
  ∀ inv, pass2Aux stack invalid l = some inv → noCrossOut seen l inv

theorem openTokP_true_elim {i : Nat} {t : Tok} (h : openTokP i t = true) :
    ∃ m1, t = Tok.boldOrItalic m1 ∧ m1.isOpen = true ∧ m1.mtch = some i := by
  cases t <;> simp [openTokP] at h
  case boldOrItalic m1 => exact ⟨m1, rfl, h.1, h.2⟩

theorem closeTokP_true_elim {i : Nat} {t : Tok} (h : closeTokP i t = true) :
    ∃ m1, t = Tok.boldOrItalic m1 ∧ m1.isOpen = false ∧ m1.mtch = some i := by
  cases t <;> simp [closeTokP] at h
  case boldOrItalic m1 => exact ⟨m1, rfl, h.1, h.2⟩

theorem pass2_neutral_step {ts seen : List Tok} {stack invalid : List Nat}
    {t : Tok}
    (IH : ∀ (seen2 : List Tok) (stack2 invalid2 : List Nat),
      wfPairs (seen2 ++ ts) → stackInv seen2 stack2 invalid2 →
      pass2Goal seen2 ts stack2 invalid2)
    (hwf : wfPairs (seen ++ t :: ts)) (hinv : stackInv seen stack invalid)
    (hneut : neutralTok t)
    (heq : pass2Aux stack invalid (t :: ts) = pass2Aux stack invalid ts) :
    pass2Goal seen (t :: ts) stack invalid := by
  have hwf2 : wfPairs ((seen ++ [t]) ++ ts) := by
    rw [show (seen ++ [t]) ++ ts = seen ++ t :: ts from by simp]
    exact hwf
  obtain ⟨ihn, ihm⟩ :=
    IH (seen ++ [t]) stack invalid hwf2 (stackInv_extend_neutral hinv hneut)
  constructor
  · rw [heq]
    exact ihn
  · intro inv h
    rw [heq] at h
    intro i j a b c d e t1 t2 t3 t4 hsp h1 h2 h3 h4 hzone
    rcases Nat.lt_or_ge seen.length (a.length + 1 + b.length + 1 + c.length)
      with hz | hz
    · refine ihm inv h i j a b c d e t1 t2 t3 t4 ?_ h1 h2 h3 h4 ?_
      · rw [show (seen ++ [t]) ++ ts = seen ++ t :: ts from by simp]
        exact hsp
      · simp only [List.length_append, List.length_cons, List.length_nil]
        omega
    · exfalso
      have hre : seen ++ t :: ts =
          (a ++ t1 :: (b ++ t2 :: c)) ++ (t3 :: (d ++ t4 :: e)) := by
        rw [hsp]
        simp
      have hpl : seen.length = (a ++ t1 :: (b ++ t2 :: c)).length := by
        simp only [List.length_append, List.length_cons]
        omega
      obtain ⟨hse, hrest⟩ := List.append_inj hre hpl
      injection hrest with hts _
      rw [← hts] at h3
      rw [(hneut i).2] at h3
      exact Bool.false_ne_true h3

theorem pass2_open_step {ts seen : List Tok} {stack invalid : List Nat}
    {m : Marker} {k : Nat}
    (IH : ∀ (seen2 : List Tok) (stack2 invalid2 : List Nat),
      wfPairs (seen2 ++ ts) → stackInv seen2 stack2 invalid2 →
      pass2Goal seen2 ts stack2 invalid2)
    (hwf : wfPairs (seen ++ Tok.boldOrItalic m :: ts))
    (hinv : stackInv seen stack invalid)
    (hm : m.mtch = some k) (hop : m.isOpen = true) :
    pass2Goal seen (Tok.boldOrItalic m :: ts) stack invalid := by
  have hOk : openTokP k (Tok.boldOrItalic m) = true := by
    simp [openTokP, hm, hop]
  have hOne : ∀ j2, j2 ≠ k → openTokP j2 (Tok.boldOrItalic m) = false := by
    intro j2 hj2
    have hb : ((some k : Option Nat) == some j2) = false := by
      simp only [beq_eq_false_iff_ne, ne_eq, Option.some.injEq]
      exact fun he => hj2 he.symm
    simp [openTokP, hm, hb]
  have hCall : ∀ j2, closeTokP j2 (Tok.boldOrItalic m) = false := by
    intro j2
    simp [closeTokP, hop]
  have heq : pass2Aux stack invalid (Tok.boldOrItalic m :: ts) =
      pass2Aux (k :: stack) invalid ts := by
    rw [pass2Aux]
    simp only [hm]
    rw [if_pos hop]
  have hwf2 : wfPairs ((seen ++ [Tok.boldOrItalic m]) ++ ts) := by
    rw [show (seen ++ [Tok.boldOrItalic m]) ++ ts =
        seen ++ Tok.boldOrItalic m :: ts from by simp]
    exact hwf
  obtain ⟨hT2, hT3, hT5, hT4⟩ := hinv
  have hinv2 : stackInv (seen ++ [Tok.boldOrItalic m]) (k :: stack) invalid := by
    refine ⟨?_, ?_, ?_, ?_⟩
    · intro j2 h1 h2 hni
      by_cases hjk : j2 = k
      · subst hjk
        exact List.mem_cons_self _ _
      · rw [countP_append_singleton, hOne j2 hjk] at h1
        rw [countP_append_singleton, hCall j2] at h2
        simp only [Bool.false_eq_true, if_false] at h1 h2
        exact List.mem_cons_of_mem _ (hT2 j2 (by omega) (by omega) hni)
    · intro j2 hj2
      rw [countP_append_singleton, hCall j2]
      simp only [Bool.false_eq_true, if_false]
      have := hT3 j2 hj2
      omega
    · intro y hy
      rcases List.mem_cons.mp hy with rfl | hy2
      · exact ⟨seen, Tok.boldOrItalic m, [], by simp, hOk⟩
      · obtain ⟨p, tp, q, hq, ho⟩ := hT5 y hy2
        subst hq
        exact ⟨p, tp, q ++ [Tok.boldOrItalic m], by simp, ho⟩
    · intro u x v y w hsp2
      cases u with
      | nil =>
        rw [List.nil_append] at hsp2
        injection hsp2 with hxk hstk
        subst hxk
        have hy : y ∈ stack := by
          rw [hstk]
          exact List.mem_append_right _ (List.mem_cons_self _ _)
        obtain ⟨p, tp, q, hq, ho⟩ := hT5 y hy
        subst hq
        exact ⟨p, tp, q, Tok.boldOrItalic m, [], by simp, ho, hOk⟩
      | cons z u2 =>
        injection hsp2 with hzk hstk
        obtain ⟨p, tp, q, tq, r, hr, hh1, hh2⟩ := hT4 u2 x v y w hstk
        subst hr
        exact ⟨p, tp, q, tq, r ++ [Tok.boldOrItalic m], by simp, hh1, hh2⟩
  obtain ⟨ihn, ihm⟩ := IH (seen ++ [Tok.boldOrItalic m]) (k :: stack) invalid hwf2 hinv2
  constructor
  · rw [heq]
    exact ihn
  · intro inv h
    rw [heq] at h
    intro i j a b c d e t1 t2 t3 t4 hsp h1 h2 h3 h4 hzone
    rcases Nat.lt_or_ge seen.length (a.length + 1 + b.length + 1 + c.length)
      with hz | hz
    · refine ihm inv h i j a b c d e t1 t2 t3 t4 ?_ h1 h2 h3 h4 ?_
      · rw [show (seen ++ [Tok.boldOrItalic m]) ++ ts =
            seen ++ Tok.boldOrItalic m :: ts from by simp]
        exact hsp
      · simp only [List.length_append, List.length_cons, List.length_nil]
        omega
    · exfalso
      have hre : seen ++ Tok.boldOrItalic m :: ts =
          (a ++ t1 :: (b ++ t2 :: c)) ++ (t3 :: (d ++ t4 :: e)) := by
        rw [hsp]
        simp
      have hpl : seen.length = (a ++ t1 :: (b ++ t2 :: c)).length := by
        simp only [List.length_append, List.length_cons]
        omega
      obtain ⟨hse, hrest⟩ := List.append_inj hre hpl
      injection hrest with hts _
      rw [← hts] at h3
      rw [hCall i] at h3
      exact Bool.false_ne_true h3

theorem pass2_close_step {ts seen : List Tok} {stack invalid : List Nat}
    {m : Marker} {i0 : Nat}
    (IH : ∀ (seen2 : List Tok) (stack2 invalid2 : List Nat),
      wfPairs (seen2 ++ ts) → stackInv seen2 stack2 invalid2 →
      pass2Goal seen2 ts stack2 invalid2)
    (hwf : wfPairs (seen ++ Tok.boldOrItalic m :: ts))
    (hinv : stackInv seen stack invalid)
    (hm : m.mtch = some i0) (hop : m.isOpen = false) :
    pass2Goal seen (Tok.boldOrItalic m :: ts) stack invalid := by
  have hCi0 : closeTokP i0 (Tok.boldOrItalic m) = true := by
    simp [closeTokP, hm, hop]
  have hCne : ∀ j2, j2 ≠ i0 → closeTokP j2 (Tok.boldOrItalic m) = false := by
    intro j2 hj2
    have hb : ((some i0 : Option Nat) == some j2) = false := by
      simp only [beq_eq_false_iff_ne, ne_eq, Option.some.injEq]
      exact fun he => hj2 he.symm
    simp [closeTokP, hm, hb]
  have hOall : ∀ j2, openTokP j2 (Tok.boldOrItalic m) = false := by
    intro j2
    simp [openTokP, hop]
  have hpair : pairAt (seen ++ Tok.boldOrItalic m :: ts) i0 :=
    pairAt_of_close_mem hwf rfl hCi0
  obtain ⟨hco1, hcc0, _, _⟩ := pairAt_at_close hpair rfl hCi0
  obtain ⟨hT2, hT3, hT5, hT4⟩ := hinv
  have hi0ninv : i0 ∉ invalid := by
    intro hmem
    have := hT3 i0 hmem
    omega
  have hi0stack : i0 ∈ stack := hT2 i0 hco1 hcc0 hi0ninv
  have hwf2 : wfPairs ((seen ++ [Tok.boldOrItalic m]) ++ ts) := by
    rw [show (seen ++ [Tok.boldOrItalic m]) ++ ts =
        seen ++ Tok.boldOrItalic m :: ts from by simp]
    exact hwf
  cases stack with
  | nil => exact absurd hi0stack (List.not_mem_nil _)
  | cons top rest =>
    by_cases hit : i0 ≠ top
    · -- mismatched top: the close's id is invalidated
      have heq : pass2Aux (top :: rest) invalid (Tok.boldOrItalic m :: ts) =
          pass2Aux (top :: rest) (i0 :: invalid) ts := by
        rw [pass2Aux]
        simp only [hm]
        rw [if_neg (by simp [hop])]
        rw [if_pos hit]
      have hinv2 : stackInv (seen ++ [Tok.boldOrItalic m]) (top :: rest)
          (i0 :: invalid) := by
        refine ⟨?_, ?_, ?_, ?_⟩
        · intro j2 h1 h2 hni
          by_cases hji : j2 = i0
          · subst hji
            rw [countP_append_singleton, hCi0] at h2
            simp at h2
          · rw [countP_append_singleton, hOall j2] at h1
            rw [countP_append_singleton, hCne j2 hji] at h2
            simp only [Bool.false_eq_true, if_false] at h1 h2
            have hni2 : j2 ∉ invalid := fun hmem =>
              hni (List.mem_cons_of_mem _ hmem)
            exact hT2 j2 (by omega) (by omega) hni2
        · intro j2 hj2
          rcases List.mem_cons.mp hj2 with rfl | hj2b
          · rw [countP_append_singleton, hCi0, hcc0]
            simp
          · have hne : j2 ≠ i0 := fun he => hi0ninv (he ▸ hj2b)
            rw [countP_append_singleton, hCne j2 hne]
            simp only [Bool.false_eq_true, if_false]
            have := hT3 j2 hj2b
            omega
        · intro y hy
          obtain ⟨p, tp, q, hq, ho⟩ := hT5 y hy
          subst hq
          exact ⟨p, tp, q ++ [Tok.boldOrItalic m], by simp, ho⟩
        · intro u x v y w hsp2
          obtain ⟨p, tp, q, tq, r, hr, hh1, hh2⟩ := hT4 u x v y w hsp2
          subst hr
          exact ⟨p, tp, q, tq, r ++ [Tok.boldOrItalic m], by simp, hh1, hh2⟩
      obtain ⟨ihn, ihm⟩ :=
        IH (seen ++ [Tok.boldOrItalic m]) (top :: rest) (i0 :: invalid) hwf2 hinv2
      constructor
      · rw [heq]
        exact ihn
      · intro inv h
        rw [heq] at h
        intro i j a b c d e t1 t2 t3 t4 hsp h1 h2 h3 h4 hzone
        rcases Nat.lt_or_ge seen.length (a.length + 1 + b.length + 1 + c.length)
          with hz | hz
        · refine ihm inv h i j a b c d e t1 t2 t3 t4 ?_ h1 h2 h3 h4 ?_
          · rw [show (seen ++ [Tok.boldOrItalic m]) ++ ts =
                seen ++ Tok.boldOrItalic m :: ts from by simp]
            exact hsp
          · simp only [List.length_append, List.length_cons, List.length_nil]
            omega
        · -- the head is exactly the crossed close: its id is now invalid
          have hre : seen ++ Tok.boldOrItalic m :: ts =
              (a ++ t1 :: (b ++ t2 :: c)) ++ (t3 :: (d ++ t4 :: e)) := by
            rw [hsp]
            simp
          have hpl : seen.length = (a ++ t1 :: (b ++ t2 :: c)).length := by
            simp only [List.length_append, List.length_cons]
            omega
          obtain ⟨hse, hrest⟩ := List.append_inj hre hpl
          injection hrest with hts hts2
          rw [← hts] at h3
          have hii : i0 = i := by
            simp [closeTokP, hm] at h3
            exact h3.2
          subst hii
          exact Or.inl (pass2Aux_mono ts _ _ _ h i0 (List.mem_cons_self _ _))
    · -- matching top: pop, dropping stale invalidated entries
      have hit2 : i0 = top := by
        by_contra hcon
        exact hit hcon
      subst hit2
      have heq : pass2Aux (i0 :: rest) invalid (Tok.boldOrItalic m :: ts) =
          pass2Aux (rest.dropWhile (fun j2 => invalid.contains j2)) invalid ts := by
        rw [pass2Aux]
        simp only [hm]
        rw [if_neg (by simp [hop])]
        rw [if_neg (by simp)]
      have hinv2 : stackInv (seen ++ [Tok.boldOrItalic m])
          (rest.dropWhile (fun j2 => invalid.contains j2)) invalid := by
        refine ⟨?_, ?_, ?_, ?_⟩
        · intro j2 h1 h2 hni
          by_cases hji : j2 = i0
          · subst hji
            rw [countP_append_singleton, hCi0] at h2
            simp at h2
          · rw [countP_append_singleton, hOall j2] at h1
            rw [countP_append_singleton, hCne j2 hji] at h2
            simp only [Bool.false_eq_true, if_false] at h1 h2
            have hj2st : j2 ∈ i0 :: rest := hT2 j2 (by omega) (by omega) hni
            have hj2r : j2 ∈ rest := by
              rcases List.mem_cons.mp hj2st with he | hr2
              · exact absurd he hji
              · exact hr2
            have hcf : invalid.contains j2 = false := by
              rcases hc : invalid.contains j2 with _ | _
              · rfl
              · exact absurd (List.mem_of_elem_eq_true hc) hni
            exact mem_dropWhile_of_pred_false hj2r hcf
        · intro j2 hj2
          have hne : j2 ≠ i0 := fun he => hi0ninv (he ▸ hj2)
          rw [countP_append_singleton, hCne j2 hne]
          simp only [Bool.false_eq_true, if_false]
          have := hT3 j2 hj2
          omega
        · intro y hy
          have hy2 : y ∈ rest := (List.dropWhile_sublist _).subset hy
          obtain ⟨p, tp, q, hq, ho⟩ := hT5 y (List.mem_cons_of_mem _ hy2)
          subst hq
          exact ⟨p, tp, q ++ [Tok.boldOrItalic m], by simp, ho⟩
        · intro u x v y w hsp2
          have h0 := List.takeWhile_append_dropWhile
            (fun j2 => invalid.contains j2) rest
          have hstk : i0 :: rest =
              (i0 :: (rest.takeWhile (fun j2 => invalid.contains j2) ++ u)) ++
                x :: v ++ y :: w := by
            conv_lhs => rw [← h0, hsp2]
            simp
          obtain ⟨p, tp, q, tq, r, hr, hh1, hh2⟩ := hT4 _ x v y w hstk
          subst hr
          exact ⟨p, tp, q, tq, r ++ [Tok.boldOrItalic m], by simp, hh1, hh2⟩
      obtain ⟨ihn, ihm⟩ :=
        IH (seen ++ [Tok.boldOrItalic m])
          (rest.dropWhile (fun j2 => invalid.contains j2)) invalid hwf2 hinv2
      constructor
      · rw [heq]
        exact ihn
      · intro inv h
        rw [heq] at h
        intro i j a b c d e t1 t2 t3 t4 hsp h1 h2 h3 h4 hzone
        rcases Nat.lt_or_ge seen.length (a.length + 1 + b.length + 1 + c.length)
          with hz | hz
        · refine ihm inv h i j a b c d e t1 t2 t3 t4 ?_ h1 h2 h3 h4 ?_
          · rw [show (seen ++ [Tok.boldOrItalic m]) ++ ts =
                seen ++ Tok.boldOrItalic m :: ts from by simp]
            exact hsp
          · simp only [List.length_append, List.length_cons, List.length_nil]
            omega
        · -- the crossed close matches the top: the crossing open cannot
          -- be on the stack below it, contradiction
          exfalso
          have hre : seen ++ Tok.boldOrItalic m :: ts =
              (a ++ t1 :: (b ++ t2 :: c)) ++ (t3 :: (d ++ t4 :: e)) := by
            rw [hsp]
            simp
          have hpl : seen.length = (a ++ t1 :: (b ++ t2 :: c)).length := by
            simp only [List.length_append, List.length_cons]
            omega
          obtain ⟨hse, hrest⟩ := List.append_inj hre hpl
          injection hrest with hts hts2
          rw [← hts] at h3
          have hii : i0 = i := by
            simp [closeTokP, hm] at h3
            exact h3.2
          subst hii
          have hij : j ≠ i0 := by
            intro he
            subst he
            have hsplit1 : seen = (a ++ t1 :: b) ++ t2 :: c := by
              rw [hse]
              simp
            have hcnt := countP_split_mem hsplit1 h2
            have hcnt2 := countP_split_mem
              (rfl : a ++ t1 :: b = a ++ t1 :: b) h1
            omega
          have hsplit4 : seen ++ Tok.boldOrItalic m :: ts =
              (seen ++ Tok.boldOrItalic m :: d) ++ t4 :: e := by
            rw [hts2]
            simp
          have hpairj : pairAt (seen ++ Tok.boldOrItalic m :: ts) j :=
            pairAt_of_close_mem hwf hsplit4 h4
          obtain ⟨hjo1, hjc0, _, _⟩ := pairAt_at_close hpairj hsplit4 h4
          rw [List.countP_append, List.countP_cons, hOall j] at hjo1
          simp only [Bool.false_eq_true, if_false] at hjo1
          rw [List.countP_append, List.countP_cons, hCne j hij] at hjc0
          simp only [Bool.false_eq_true, if_false] at hjc0
          have hsplit2 : seen = (a ++ t1 :: b) ++ t2 :: c := by
            rw [hse]
            simp
          have hge := countP_split_mem hsplit2 h2
          have hjO1 : seen.countP (openTokP j) = 1 := by omega
          have hjC0 : seen.countP (closeTokP j) = 0 := by omega
          have hjninv : j ∉ invalid := by
            intro hmem
            have := hT3 j hmem
            omega
          have hjstack : j ∈ i0 :: rest := hT2 j hjO1 hjC0 hjninv
          have hjrest : j ∈ rest := by
            rcases List.mem_cons.mp hjstack with he | hr2
            · exact absurd he hij
            · exact hr2
          obtain ⟨v2, w2, hvw⟩ := List.append_of_mem hjrest
          have hstk : i0 :: rest = [] ++ i0 :: v2 ++ j :: w2 := by
            rw [hvw]
            simp
          obtain ⟨p, tp, q, tq, r, hseen2, hoj, hoi⟩ := hT4 [] i0 v2 j w2 hstk
          have hsB : seen = (p ++ tp :: q) ++ tq :: r := by
            rw [hseen2]
          obtain ⟨hae, hte, hre2⟩ := countP_one_unique_split hco1 hse hsB h1 hoi
          have hja := countP_split_mem hae hoj
          rw [List.countP_append] at hge
          omega
      
theorem pass2Aux_safe : ∀ (l seen : List Tok) (stack invalid : List Nat),
    wfPairs (seen ++ l) → stackInv seen stack invalid →
    pass2Goal seen l stack invalid := by
  intro l
  induction l with
  | nil =>
    intro seen stack invalid hwf hinv
    constructor
    · simp [pass2Aux]
    · intro inv h i j a b c d e t1 t2 t3 t4 hsp h1 h2 h3 h4 hzone
      exfalso
      rw [List.append_nil] at hsp
      have hlen := congrArg List.length hsp
      simp only [List.length_append, List.length_cons] at hlen
      omega
  | cons t ts ih =>
    intro seen stack invalid hwf hinv
    cases t with
    | boldOrItalic m =>
      rcases hm : m.mtch with _ | k
      · refine pass2_neutral_step ih hwf hinv (neutralTok_marker_none hm) ?_
        rw [pass2Aux]
        simp only [hm]
      · rcases hop : m.isOpen with _ | _
        · exact pass2_close_step ih hwf hinv hm hop
        · exact pass2_open_step ih hwf hinv hm hop
    | rawText a b =>
      exact pass2_neutral_step ih hwf hinv
        (neutralTok_of_no_marker (by simp)) rfl
    | blankLine a =>
      exact pass2_neutral_step ih hwf hinv
        (neutralTok_of_no_marker (by simp)) rfl
    | codeBlock a =>
      exact pass2_neutral_step ih hwf hinv
        (neutralTok_of_no_marker (by simp)) rfl
    | fencedCodeBlock a b =>
      exact pass2_neutral_step ih hwf hinv
        (neutralTok_of_no_marker (by simp)) rfl
    | codeSpan a =>
      exact pass2_neutral_step ih hwf hinv
        (neutralTok_of_no_marker (by simp)) rfl
    | textHolder a b c =>
      exact pass2_neutral_step ih hwf hinv
        (neutralTok_of_no_marker (by simp)) rfl
    | htmlTag a =>
      exact pass2_neutral_step ih hwf hinv
        (neutralTok_of_no_marker (by simp)) rfl
    | htmlAnchorTag a =>
      exact pass2_neutral_step ih hwf hinv
        (neutralTok_of_no_marker (by simp)) rfl
    | inlineHtmlContents a =>
      exact pass2_neutral_step ih hwf hinv
        (neutralTok_of_no_marker (by simp)) rfl
    | inlineHtmlComment a =>
      exact pass2_neutral_step ih hwf hinv
        (neutralTok_of_no_marker (by simp)) rfl
    | escapedChar a =>
      exact pass2_neutral_step ih hwf hinv
        (neutralTok_of_no_marker (by simp)) rfl
    | image a b c =>
      exact pass2_neutral_step ih hwf hinv
        (neutralTok_of_no_marker (by simp)) rfl
    | inlineHtmlBlock a =>
      exact pass2_neutral_step ih hwf hinv
        (neutralTok_of_no_marker (by simp)) rfl
    | header a b =>
      exact pass2_neutral_step ih hwf hinv
        (neutralTok_of_no_marker (by simp)) rfl
    | paragraph a =>
      exact pass2_neutral_step ih hwf hinv
        (neutralTok_of_no_marker (by simp)) rfl
    | blockQuote a =>
      exact pass2_neutral_step ih hwf hinv
        (neutralTok_of_no_marker (by simp)) rfl
    | unorderedList a =>
      exact pass2_neutral_step ih hwf hinv
        (neutralTok_of_no_marker (by simp)) rfl
    | orderedList a =>
      exact pass2_neutral_step ih hwf hinv
        (neutralTok_of_no_marker (by simp)) rfl
    | listItem a b =>
      exact pass2_neutral_step ih hwf hinv
        (neutralTok_of_no_marker (by simp)) rfl
    | container a =>
      exact pass2_neutral_step ih hwf hinv
        (neutralTok_of_no_marker (by simp)) rfl

theorem stackInv_nil : stackInv [] [] [] := by
  refine ⟨?_, ?_, ?_, ?_⟩
  · intro j h1 h2 hni
    simp at h1
  · intro j hj
    simp at hj
  · intro y hy
    simp at hy
  · intro u x v y w hsp
    exact absurd hsp (by simp)

/-- C10: in the nesting-validation traversal of
`RawText::_processBoldAndItalicSpans` — run by the pipeline on the
matching pass's output over the delimiter scan — a matched close marker is
never visited with an empty stack of matched open markers: `pass2Aux`,
which returns `none` exactly when `top()` would be read on an empty
stack, always returns `some`. -/
theorem c10_pass2_stack_nonempty (s : List Char) :
    ∀ fuel, pass2Aux [] [] (pass1 fuel 0 [] (emphasisScanFrom s 0)) ≠ none := by
  intro fuel
  have hwf : wfPairs ([] ++ pass1 fuel 0 [] (emphasisScanFrom s 0)) := by
    rw [List.nil_append]
    exact pass1_scan_wf s fuel
  exact (pass2Aux_safe _ [] [] [] hwf stackInv_nil).1

theorem SMx_transport_rev {P : Tok → Prop} {xs ys : List Tok}
    (h : SMx P xs ys) : ∀ (a b : List Tok) (t : Tok), ys = a ++ t :: b →
    ¬ P t → ∃ a2 b2, xs = a2 ++ t :: b2 ∧ SMx P a2 a ∧ SMx P b2 b := by
  induction h with
  | nil => intro a b t hx; simp at hx
  | keep t2 h2 ih =>
    intro a b t hx hPt
    cases a with
    | nil =>
      simp only [List.nil_append, List.cons.injEq] at hx
      obtain ⟨rfl, rfl⟩ := hx
      exact ⟨[], _, rfl, .nil, h2⟩
    | cons c a2 =>
      simp only [List.cons_append, List.cons.injEq] at hx
      obtain ⟨rfl, hx2⟩ := hx
      obtain ⟨a3, b3, rfl, hsa, hsb⟩ := ih a2 b t hx2 hPt
      exact ⟨t2 :: a3, b3, rfl, .keep t2 hsa, hsb⟩
  | subst t2 u hpt hpu h2 ih =>
    intro a b t hx hPt
    cases a with
    | nil =>
      simp only [List.nil_append, List.cons.injEq] at hx
      obtain ⟨rfl, rfl⟩ := hx
      exact absurd hpu hPt
    | cons c a2 =>
      simp only [List.cons_append, List.cons.injEq] at hx
      obtain ⟨rfl, hx2⟩ := hx
      obtain ⟨a3, b3, rfl, hsa, hsb⟩ := ih a2 b t hx2 hPt
      exact ⟨t2 :: a3, b3, rfl, .subst t2 u hpt hpu hsa, hsb⟩
  | ins u hpu h2 ih =>
    intro a b t hx hPt
    cases a with
    | nil =>
      simp only [List.nil_append, List.cons.injEq] at hx
      obtain ⟨rfl, rfl⟩ := hx
      exact absurd hpu hPt
    | cons c a2 =>
      simp only [List.cons_append, List.cons.injEq] at hx
      obtain ⟨rfl, hx2⟩ := hx
      obtain ⟨a3, b3, rfl, hsa, hsb⟩ := ih a2 b t hx2 hPt
      exact ⟨a3, b3, rfl, .ins u hpu hsa, hsb⟩
  | del t2 hpt h2 ih =>
    intro a b t hx hPt
    obtain ⟨a3, b3, rfl, hsa, hsb⟩ := ih a b t hx hPt
    exact ⟨t2 :: a3, b3, rfl, .del t2 hpt hsa, hsb⟩

theorem not_neutral_of_open {i : Nat} {t : Tok} (h : openTokP i t = true) :
    ¬ neutralTok t := by
  intro hn
  rw [(hn i).1] at h
  exact Bool.false_ne_true h

theorem not_neutral_of_close {i : Nat} {t : Tok} (h : closeTokP i t = true) :
    ¬ neutralTok t := by
  intro hn
  rw [(hn i).2] at h
  exact Bool.false_ne_true h

theorem noInterleave_SMx {xs ys : List Tok} (h : SMx neutralTok xs ys)
    (hni : noInterleave xs) : noInterleave ys := by
  intro i j a b c d e t1 t2 t3 t4 hsp h1 h2 h3 h4
  obtain ⟨A, R1, hxs, hsA, hsR1⟩ :=
    SMx_transport_rev h a _ t1 hsp (not_neutral_of_open h1)
  obtain ⟨B, R2, hR1, hsB, hsR2⟩ :=
    SMx_transport_rev hsR1 b _ t2 rfl (not_neutral_of_open h2)
  obtain ⟨C, R3, hR2, hsC, hsR3⟩ :=
    SMx_transport_rev hsR2 c _ t3 rfl (not_neutral_of_close h3)
  obtain ⟨D, R4, hR3, hsD, hsR4⟩ :=
    SMx_transport_rev hsR3 d _ t4 rfl (not_neutral_of_close h4)
  exact hni i j A B C D R4 t1 t2 t3 t4
    (by rw [hxs, hR1, hR2, hR3]) h1 h2 h3 h4

theorem wfPairs_SMx {xs ys : List Tok} (h : SMx neutralTok xs ys)
    (hwf : wfPairs xs) : wfPairs ys := by
  intro i
  rcases hwf i with hp | ha
  · exact Or.inl (pairAt_SMx h (fun u hu => hu i) hp)
  · exact Or.inr (absentAt_SMx h (fun u hu => hu i) ha)

theorem SMx_ins_list {P : Tok → Prop} {xs ys : List Tok} (us : List Tok)
    (hus : ∀ u ∈ us, P u) (h : SMx P xs ys) : SMx P xs (us ++ ys) := by
  induction us with
  | nil => exact h
  | cons u us2 ih =>
    exact .ins u (hus u (List.mem_cons_self _ _))
      (ih (fun v hv => hus v (List.mem_cons_of_mem _ hv)))

theorem SMx_flatMap {P : Tok → Prop} (f : Tok → List Tok) :
    ∀ l : List Tok, (∀ t ∈ l, f t = [t] ∨ (P t ∧ ∀ u ∈ f t, P u)) →
    SMx P l (l.flatMap f) := by
  intro l
  induction l with
  | nil =>
    intro _
    exact .nil
  | cons t l2 ih =>
    intro h
    have hstep := ih (fun v hv => h v (List.mem_cons_of_mem _ hv))
    rcases h t (List.mem_cons_self _ _) with he | ⟨hPt, hfu⟩
    · rw [show (t :: l2).flatMap f = f t ++ l2.flatMap f from rfl, he]
      exact .keep t hstep
    · rw [show (t :: l2).flatMap f = f t ++ l2.flatMap f from rfl]
      exact .del t hPt (SMx_ins_list (f t) hfu hstep)

theorem SMx_map {P : Tok → Prop} (g : Tok → Tok) :
    ∀ l : List Tok, (∀ t ∈ l, g t = t ∨ (P t ∧ P (g t))) →
    SMx P l (l.map g) := by
  intro l
  induction l with
  | nil =>
    intro _
    exact .nil
  | cons t l2 ih =>
    intro h
    have hstep := ih (fun v hv => h v (List.mem_cons_of_mem _ hv))
    rcases h t (List.mem_cons_self _ _) with he | ⟨h1, h2⟩
    · rw [List.map_cons, he]
      exact .keep t hstep
    · rw [List.map_cons]
      exact .subst t (g t) h1 h2 hstep

theorem map_split {g : Tok → Tok} : ∀ {l u : List Tok} {t : Tok} {v : List Tok},
    l.map g = u ++ t :: v →
    ∃ u0 t0 v0, l = u0 ++ t0 :: v0 ∧ u0.map g = u ∧ g t0 = t ∧ v0.map g = v := by
  intro l
  induction l with
  | nil =>
    intro u t v h
    rw [List.map_nil] at h
    cases u <;> simp at h
  | cons x l2 ih =>
    intro u t v h
    cases u with
    | nil =>
      rw [List.map_cons, List.nil_append] at h
      injection h with h1 h2
      exact ⟨[], x, l2, rfl, rfl, h1, h2⟩
    | cons y u2 =>
      rw [List.map_cons] at h
      injection h with h1 h2
      obtain ⟨u0, t0, v0, rfl, hm1, hm2, hm3⟩ := ih h2
      exact ⟨x :: u0, t0, v0, rfl, by rw [List.map_cons, hm1, h1], hm2, hm3⟩

/-- The per-token rewrite applied by `pass2Apply` once the invalidated
ids are known (`matched(0)` on both ends of each invalidated pair). -/
def invalMap (invalid : List Nat) (t : Tok) : Tok :=
  match t with
  | .boldOrItalic m =>
    match m.mtch with
    | some i =>
      if invalid.contains i then Tok.boldOrItalic { m with mtch := none } else t
    | none => t
  | _ => t

theorem pass2Apply_eq_map {l : List Tok} {inv : List Nat}
    (hsome : pass2Aux [] [] l = some inv) :
    pass2Apply l = l.map (invalMap inv) := by
  rw [pass2Apply, hsome]
  rfl

theorem invalMap_open_false {inv : List Nat} {i : Nat}
    (hiv : inv.contains i = true) (t0 : Tok) :
    openTokP i (invalMap inv t0) = false := by
  cases t0 with
  | boldOrItalic m =>
    rw [invalMap]
    rcases hm : m.mtch with _ | k
    · simp [openTokP, hm]
    · dsimp only
      by_cases hk : inv.contains k = true
      · rw [if_pos hk]
        simp [openTokP]
      · rw [if_neg hk]
        have hki : k ≠ i := fun he => hk (he ▸ hiv)
        have hb : ((some k : Option Nat) == some i) = false := by
          simp only [beq_eq_false_iff_ne, ne_eq, Option.some.injEq]
          exact hki
        simp [openTokP, hm, hb]
  | rawText a b => rfl
  | blankLine a => rfl
  | codeBlock a => rfl
  | fencedCodeBlock a b => rfl
  | codeSpan a => rfl
  | textHolder a b c => rfl
  | htmlTag a => rfl
  | htmlAnchorTag a => rfl
  | inlineHtmlContents a => rfl
  | inlineHtmlComment a => rfl
  | escapedChar a => rfl
  | image a b c => rfl
  | inlineHtmlBlock a => rfl
  | header a b => rfl
  | paragraph a => rfl
  | blockQuote a => rfl
  | unorderedList a => rfl
  | orderedList a => rfl
  | listItem a b => rfl
  | container a => rfl

theorem invalMap_close_false {inv : List Nat} {i : Nat}
    (hiv : inv.contains i = true) (t0 : Tok) :
    closeTokP i (invalMap inv t0) = false := by
  cases t0 with
  | boldOrItalic m =>
    rw [invalMap]
    rcases hm : m.mtch with _ | k
    · simp [closeTokP, hm]
    · dsimp only
      by_cases hk : inv.contains k = true
      · rw [if_pos hk]
        simp [closeTokP]
      · rw [if_neg hk]
        have hki : k ≠ i := fun he => hk (he ▸ hiv)
        have hb : ((some k : Option Nat) == some i) = false := by
          simp only [beq_eq_false_iff_ne, ne_eq, Option.some.injEq]
          exact hki
        simp [closeTokP, hm, hb]
  | rawText a b => rfl
  | blankLine a => rfl
  | codeBlock a => rfl
  | fencedCodeBlock a b => rfl
  | codeSpan a => rfl
  | textHolder a b c => rfl
  | htmlTag a => rfl
  | htmlAnchorTag a => rfl
  | inlineHtmlContents a => rfl
  | inlineHtmlComment a => rfl
  | escapedChar a => rfl
  | image a b c => rfl
  | inlineHtmlBlock a => rfl
  | header a b => rfl
  | paragraph a => rfl
  | blockQuote a => rfl
  | unorderedList a => rfl
  | orderedList a => rfl
  | listItem a b => rfl
  | container a => rfl

theorem invalMap_open_pull {inv : List Nat} {i : Nat} {t0 : Tok}
    (h : openTokP i (invalMap inv t0) = true) : openTokP i t0 = true := by
  cases t0 with
  | boldOrItalic m =>
    rw [invalMap] at h
    rcases hm : m.mtch with _ | k
    · simp only [hm] at h
      exact h
    · simp only [hm] at h
      by_cases hk : inv.contains k = true
      · rw [if_pos hk] at h
        simp [openTokP] at h
      · rw [if_neg hk] at h
        exact h
  | rawText a b => exact h
  | blankLine a => exact h
  | codeBlock a => exact h
  | fencedCodeBlock a b => exact h
  | codeSpan a => exact h
  | textHolder a b c => exact h
  | htmlTag a => exact h
  | htmlAnchorTag a => exact h
  | inlineHtmlContents a => exact h
  | inlineHtmlComment a => exact h
  | escapedChar a => exact h
  | image a b c => exact h
  | inlineHtmlBlock a => exact h
  | header a b => exact h
  | paragraph a => exact h
  | blockQuote a => exact h
  | unorderedList a => exact h
  | orderedList a => exact h
  | listItem a b => exact h
  | container a => exact h

theorem invalMap_close_pull {inv : List Nat} {i : Nat} {t0 : Tok}
    (h : closeTokP i (invalMap inv t0) = true) : closeTokP i t0 = true := by
  cases t0 with
  | boldOrItalic m =>
    rw [invalMap] at h
    rcases hm : m.mtch with _ | k
    · simp only [hm] at h
      exact h
    · simp only [hm] at h
      by_cases hk : inv.contains k = true
      · rw [if_pos hk] at h
        simp [closeTokP] at h
      · rw [if_neg hk] at h
        exact h
  | rawText a b => exact h
  | blankLine a => exact h
  | codeBlock a => exact h
  | fencedCodeBlock a b => exact h
  | codeSpan a => exact h
  | textHolder a b c => exact h
  | htmlTag a => exact h
  | htmlAnchorTag a => exact h
  | inlineHtmlContents a => exact h
  | inlineHtmlComment a => exact h
  | escapedChar a => exact h
  | image a b c => exact h
  | inlineHtmlBlock a => exact h
  | header a b => exact h
  | paragraph a => exact h
  | blockQuote a => exact h
  | unorderedList a => exact h
  | orderedList a => exact h
  | listItem a b => exact h
  | container a => exact h

theorem invalMap_spec (inv : List Nat) (t : Tok) :
    invalMap inv t = t ∨
    ((∀ j2, (openTokP j2 t = true ∨ closeTokP j2 t = true) → j2 ∈ inv) ∧
     (∀ j2, (openTokP j2 (invalMap inv t) = true ∨
        closeTokP j2 (invalMap inv t) = true) → j2 ∈ inv)) := by
  cases t with
  | boldOrItalic m =>
    rcases hm : m.mtch with _ | k
    · left
      rw [invalMap]
      simp only [hm]
    · by_cases hk : inv.contains k = true
      · right
        constructor
        · intro j2 hj2
          have hjk : j2 = k := by
            rcases hj2 with h | h
            · simp [openTokP, hm] at h
              exact h.2.symm
            · simp [closeTokP, hm] at h
              exact h.2.symm
          subst hjk
          exact List.mem_of_elem_eq_true hk
        · intro j2 hj2
          exfalso
          rw [invalMap] at hj2
          simp only [hm, if_pos hk] at hj2
          rcases hj2 with h | h
          · simp [openTokP] at h
          · simp [closeTokP] at h
      · left
        rw [invalMap]
        simp only [hm]
        rw [if_neg hk]
  | rawText a b => exact Or.inl rfl
  | blankLine a => exact Or.inl rfl
  | codeBlock a => exact Or.inl rfl
  | fencedCodeBlock a b => exact Or.inl rfl
  | codeSpan a => exact Or.inl rfl
  | textHolder a b c => exact Or.inl rfl
  | htmlTag a => exact Or.inl rfl
  | htmlAnchorTag a => exact Or.inl rfl
  | inlineHtmlContents a => exact Or.inl rfl
  | inlineHtmlComment a => exact Or.inl rfl
  | escapedChar a => exact Or.inl rfl
  | image a b c => exact Or.inl rfl
  | inlineHtmlBlock a => exact Or.inl rfl
  | header a b => exact Or.inl rfl
  | paragraph a => exact Or.inl rfl
  | blockQuote a => exact Or.inl rfl
  | unorderedList a => exact Or.inl rfl
  | orderedList a => exact Or.inl rfl
  | listItem a b => exact Or.inl rfl
  | container a => exact Or.inl rfl

theorem wfPairs_pass2Apply_map {l : List Tok} (hwf : wfPairs l)
    {inv : List Nat} :
    wfPairs (l.map (invalMap inv)) := by
  intro i
  by_cases hiv : inv.contains i = true
  · right
    constructor
    · rw [List.countP_eq_zero]
      intro u hu
      rw [List.mem_map] at hu
      obtain ⟨t0, _, rfl⟩ := hu
      simp [invalMap_open_false hiv]
    · rw [List.countP_eq_zero]
      intro u hu
      rw [List.mem_map] at hu
      obtain ⟨t0, _, rfl⟩ := hu
      simp [invalMap_close_false hiv]
  · have hsm : SMx (fun t => ∀ j2,
        (openTokP j2 t = true ∨ closeTokP j2 t = true) → j2 ∈ inv)
        l (l.map (invalMap inv)) :=
      SMx_map _ l (fun t _ => invalMap_spec inv t)
    have hP : ∀ t, (∀ j2,
        (openTokP j2 t = true ∨ closeTokP j2 t = true) → j2 ∈ inv) →
        openTokP i t = false ∧ closeTokP i t = false := by
      intro t ht
      constructor
      · rcases ho : openTokP i t with _ | _
        · rfl
        · exact absurd (List.elem_eq_true_of_mem (ht i (Or.inl ho))) hiv
      · rcases ho : closeTokP i t with _ | _
        · rfl
        · exact absurd (List.elem_eq_true_of_mem (ht i (Or.inr ho))) hiv
    rcases hwf i with hp | ha
    · exact Or.inl (pairAt_SMx hsm hP hp)
    · exact Or.inr (absentAt_SMx hsm hP ha)

theorem noInterleave_pass2Apply_map {l : List Tok} (hwf : wfPairs l)
    {inv : List Nat} (hsome : pass2Aux [] [] l = some inv) :
    noInterleave (l.map (invalMap inv)) := by
  intro i j a b c d e t1 t2 t3 t4 hsp h1 h2 h3 h4
  obtain ⟨a0, t10, R0, hl0, hma, hg1, hmR0⟩ := map_split hsp
  obtain ⟨b0, t20, R1, hl1, hmb, hg2, hmR1⟩ := map_split hmR0
  obtain ⟨c0, t30, R2, hl2, hmc, hg3, hmR2⟩ := map_split hmR1
  obtain ⟨d0, t40, e0, hl3, hmd, hg4, hme⟩ := map_split hmR2
  rw [← hg1] at h1
  rw [← hg2] at h2
  rw [← hg3] at h3
  rw [← hg4] at h4
  have hci : inv.contains i = false := by
    rcases hc : inv.contains i with _ | _
    · rfl
    · exfalso
      rw [invalMap_open_false hc] at h1
      exact Bool.false_ne_true h1
  have hcj : inv.contains j = false := by
    rcases hc : inv.contains j with _ | _
    · rfl
    · exfalso
      rw [invalMap_close_false hc] at h4
      exact Bool.false_ne_true h4
  have h1b := invalMap_open_pull h1
  have h2b := invalMap_open_pull h2
  have h3b := invalMap_close_pull h3
  have h4b := invalMap_close_pull h4
  have hncr := (pass2Aux_safe l [] [] []
    (by rw [List.nil_append]; exact hwf) stackInv_nil).2 inv hsome
  have hres := hncr i j a0 b0 c0 d0 e0 t10 t20 t30 t40
    (by rw [List.nil_append, hl0, hl1, hl2, hl3]) h1b h2b h3b h4b
    (by simp)
  rcases hres with hmem | hmem
  · have h5 : inv.contains i = true := List.elem_eq_true_of_mem hmem
    rw [h5] at hci
    exact Bool.noConfusion hci
  · have h5 : inv.contains j = true := List.elem_eq_true_of_mem hmem
    rw [h5] at hcj
    exact Bool.noConfusion hcj

theorem encodeProcessedItems_go_neutral (reps : List Tok)
    (hreps : ∀ r ∈ reps, neutralTok r) :
    ∀ fuel s0, ∀ u ∈ encodeProcessedItems.go reps fuel s0, neutralTok u := by
  intro fuel
  induction fuel with
  | zero =>
    intro s0 u hu
    simp [encodeProcessedItems.go] at hu
  | succ fuel ih =>
    intro s0 u hu
    rw [encodeProcessedItems.go.eq_def] at hu
    cases s0 with
    | nil => simp at hu
    | cons c t =>
      rcases hp : matchPH (c :: t) with _ | ⟨ref, rest⟩
      · simp only [hp] at hu
        rcases hg : encodeProcessedItems.go reps fuel t with _ | ⟨t0, r⟩
        · simp only [hg] at hu
          rw [List.mem_singleton] at hu
          subst hu
          exact neutralTok_rawText _ _
        · cases t0 with
          | rawText pre cm =>
            simp only [hg] at hu
            rw [List.mem_cons] at hu
            rcases hu with rfl | hu2
            · exact neutralTok_rawText _ _
            · exact ih t u (by rw [hg]; exact List.mem_cons_of_mem _ hu2)
          | blankLine a =>
            simp only [hg] at hu
            rw [List.mem_cons] at hu
            rcases hu with rfl | hu2
            · exact neutralTok_rawText _ _
            · exact ih t u (by rw [hg]; exact hu2)
          | codeBlock a =>
            simp only [hg] at hu
            rw [List.mem_cons] at hu
            rcases hu with rfl | hu2
            · exact neutralTok_rawText _ _
            · exact ih t u (by rw [hg]; exact hu2)
          | fencedCodeBlock a b =>
            simp only [hg] at hu
            rw [List.mem_cons] at hu
            rcases hu with rfl | hu2
            · exact neutralTok_rawText _ _
            · exact ih t u (by rw [hg]; exact hu2)
          | codeSpan a =>
            simp only [hg] at hu
            rw [List.mem_cons] at hu
            rcases hu with rfl | hu2
            · exact neutralTok_rawText _ _
            · exact ih t u (by rw [hg]; exact hu2)
          | textHolder a b c2 =>
            simp only [hg] at hu
            rw [List.mem_cons] at hu
            rcases hu with rfl | hu2
            · exact neutralTok_rawText _ _
            · exact ih t u (by rw [hg]; exact hu2)
          | htmlTag a =>
            simp only [hg] at hu
            rw [List.mem_cons] at hu
            rcases hu with rfl | hu2
            · exact neutralTok_rawText _ _
            · exact ih t u (by rw [hg]; exact hu2)
          | htmlAnchorTag a =>
            simp only [hg] at hu
            rw [List.mem_cons] at hu
            rcases hu with rfl | hu2
            · exact neutralTok_rawText _ _
            · exact ih t u (by rw [hg]; exact hu2)
          | inlineHtmlContents a =>
            simp only [hg] at hu
            rw [List.mem_cons] at hu
            rcases hu with rfl | hu2
            · exact neutralTok_rawText _ _
            · exact ih t u (by rw [hg]; exact hu2)
          | inlineHtmlComment a =>
            simp only [hg] at hu
            rw [List.mem_cons] at hu
            rcases hu with rfl | hu2
            · exact neutralTok_rawText _ _
            · exact ih t u (by rw [hg]; exact hu2)
          | escapedChar a =>
            simp only [hg] at hu
            rw [List.mem_cons] at hu
            rcases hu with rfl | hu2
            · exact neutralTok_rawText _ _
            · exact ih t u (by rw [hg]; exact hu2)
          | image a b c2 =>
            simp only [hg] at hu
            rw [List.mem_cons] at hu
            rcases hu with rfl | hu2
            · exact neutralTok_rawText _ _
            · exact ih t u (by rw [hg]; exact hu2)
          | boldOrItalic m =>
            simp only [hg] at hu
            rw [List.mem_cons] at hu
            rcases hu with rfl | hu2
            · exact neutralTok_rawText _ _
            · exact ih t u (by rw [hg]; exact hu2)
          | inlineHtmlBlock a =>
            simp only [hg] at hu
            rw [List.mem_cons] at hu
            rcases hu with rfl | hu2
            · exact neutralTok_rawText _ _
            · exact ih t u (by rw [hg]; exact hu2)
          | header a b =>
            simp only [hg] at hu
            rw [List.mem_cons] at hu
            rcases hu with rfl | hu2
            · exact neutralTok_rawText _ _
            · exact ih t u (by rw [hg]; exact hu2)
          | paragraph a =>
            simp only [hg] at hu
            rw [List.mem_cons] at hu
            rcases hu with rfl | hu2
            · exact neutralTok_rawText _ _
            · exact ih t u (by rw [hg]; exact hu2)
          | blockQuote a =>
            simp only [hg] at hu
            rw [List.mem_cons] at hu
            rcases hu with rfl | hu2
            · exact neutralTok_rawText _ _
            · exact ih t u (by rw [hg]; exact hu2)
          | unorderedList a =>
            simp only [hg] at hu
            rw [List.mem_cons] at hu
            rcases hu with rfl | hu2
            · exact neutralTok_rawText _ _
            · exact ih t u (by rw [hg]; exact hu2)
          | orderedList a =>
            simp only [hg] at hu
            rw [List.mem_cons] at hu
            rcases hu with rfl | hu2
            · exact neutralTok_rawText _ _
            · exact ih t u (by rw [hg]; exact hu2)
          | listItem a b =>
            simp only [hg] at hu
            rw [List.mem_cons] at hu
            rcases hu with rfl | hu2
            · exact neutralTok_rawText _ _
            · exact ih t u (by rw [hg]; exact hu2)
          | container a =>
            simp only [hg] at hu
            rw [List.mem_cons] at hu
            rcases hu with rfl | hu2
            · exact neutralTok_rawText _ _
            · exact ih t u (by rw [hg]; exact hu2)
      · simp only [hp] at hu
        rw [List.mem_append] at hu
        rcases hu with hu | hu
        · rcases ref with n | n | _
          · rw [List.mem_singleton] at hu
            subst hu
            exact fun _ => ⟨rfl, rfl⟩
          · rcases hr : reps[n]? with _ | tok
            · simp [hr] at hu
            · simp only [hr, List.mem_singleton] at hu
              subst hu
              exact hreps u (List.getElem?_mem hr)
          · simp at hu
        · exact ih rest u hu

theorem encodeProcessedItems_neutral (txt : List Char) (reps : List Tok)
    (hreps : ∀ r ∈ reps, neutralTok r) :
    ∀ u ∈ encodeProcessedItems txt reps, neutralTok u := by
  intro u hu
  rw [encodeProcessedItems] at hu
  exact encodeProcessedItems_go_neutral reps hreps _ _ u hu

theorem encStep_spec (reps : List Tok) (hreps : ∀ r ∈ reps, neutralTok r)
    (t : Tok) :
    (if t.text?.isSome && t.canContainMarkup then
      encodeProcessedItems (t.text?.getD []) reps else [t]) = [t] ∨
    (neutralTok t ∧ ∀ u ∈ (if t.text?.isSome && t.canContainMarkup then
      encodeProcessedItems (t.text?.getD []) reps else [t]), neutralTok u) := by
  by_cases hc : (t.text?.isSome && t.canContainMarkup) = true
  · right
    refine ⟨?_, ?_⟩
    · apply neutralTok_of_no_marker
      intro m hm
      subst hm
      simp [Tok.canContainMarkup] at hc
    · intro u hu
      rw [if_pos hc] at hu
      exact encodeProcessedItems_neutral _ reps hreps u hu
  · left
    rw [if_neg hc]

theorem processBoldAndItalicSpans_SMx (s : List Char) (reps : List Tok)
    (hreps : ∀ r ∈ reps, neutralTok r) :
    SMx neutralTok
      (pass2Apply (pass1 (3 * (emphasisScanFrom s 0).length + 3) 0 []
        (emphasisScanFrom s 0)))
      (processBoldAndItalicSpans s reps) := by
  rw [processBoldAndItalicSpans]
  exact SMx_flatMap _ _ (fun t _ => encStep_spec reps hreps t)

/-- C5 (amended): after `RawText::_processBoldAndItalicSpans` — delimiter
scan, forward matching with 3-run splitting, stack-based nesting
validation, then placeholder decoding (whose replacement tokens carry no
match ids) — every match id is carried by exactly one open and one close
marker of equal character and run length with the open strictly first, or
by no marker at all, and no two matched pairs interleave. -/
theorem c5_matched_pairs_wf (s : List Char) (reps : List Tok)
    (hreps : ∀ r ∈ reps, neutralTok r) :
    wfPairs (processBoldAndItalicSpans s reps) ∧
    noInterleave (processBoldAndItalicSpans s reps) := by
  have hl1 : wfPairs (pass1 (3 * (emphasisScanFrom s 0).length + 3) 0 []
      (emphasisScanFrom s 0)) := pass1_scan_wf s _
  have hne := (pass2Aux_safe _ [] [] []
    (by rw [List.nil_append]; exact hl1) stackInv_nil).1
  obtain ⟨inv, hsome⟩ := Option.ne_none_iff_exists'.mp hne
  have happly := pass2Apply_eq_map hsome
  have hmapwf : wfPairs (pass2Apply (pass1
      (3 * (emphasisScanFrom s 0).length + 3) 0 [] (emphasisScanFrom s 0))) := by
    rw [happly]
    exact wfPairs_pass2Apply_map hl1
  have hmapni : noInterleave (pass2Apply (pass1
      (3 * (emphasisScanFrom s 0).length + 3) 0 [] (emphasisScanFrom s 0))) := by
    rw [happly]
    exact noInterleave_pass2Apply_map hl1 hsome
  have hsm := processBoldAndItalicSpans_SMx s reps hreps
  exact ⟨wfPairs_SMx hsm hmapwf, noInterleave_SMx hsm hmapni⟩

theorem c5_matched_pairs_wf_witness :
    (∀ r ∈ ([] : List Tok), neutralTok r) ∧
    (wfPairs (processBoldAndItalicSpans (str "***a*") []) ∧
     noInterleave (processBoldAndItalicSpans (str "***a*") [])) :=
  ⟨by simp, c5_matched_pairs_wf (str "***a*") [] (by simp)⟩

/-! ## Support for the emphasis round-trip claim -/

theorem alnum_toNat {c : Char} (h : isAlnumAscii c = true) :
    (48 ≤ c.toNat ∧ c.toNat ≤ 57) ∨ (97 ≤ c.toNat ∧ c.toNat ≤ 122) ∨
    (65 ≤ c.toNat ∧ c.toNat ≤ 90) := by
  unfold isAlnumAscii at h
  simp only [Bool.or_eq_true, Bool.and_eq_true, decide_eq_true_eq] at h
  rcases h with (⟨h1, h2⟩ | ⟨h1, h2⟩) | ⟨h1, h2⟩
  · rw [Char.le_def] at h1 h2
    rw [UInt32.le_def] at h1 h2
    exact Or.inl ⟨h1, h2⟩
  · rw [Char.le_def] at h1 h2
    rw [UInt32.le_def] at h1 h2
    exact Or.inr (Or.inl ⟨h1, h2⟩)
  · rw [Char.le_def] at h1 h2
    rw [UInt32.le_def] at h1 h2
    exact Or.inr (Or.inr ⟨h1, h2⟩)

theorem alnum_not_punct {c : Char} (h : isAlnumAscii c = true) :
    isPunctAscii c = false := by
  have h2 := alnum_toNat h
  unfold isPunctAscii
  rw [Bool.eq_false_iff]
  intro hc
  simp only [Bool.or_eq_true, Bool.and_eq_true, decide_eq_true_eq] at hc
  omega

theorem alnum_ne {c : Char} (h : isAlnumAscii c = true) {d : Char}
    (hd : isAlnumAscii d = false) : c ≠ d := by
  intro he
  rw [he, hd] at h
  exact Bool.noConfusion h

theorem alnum_not_sp {c : Char} (h : isAlnumAscii c = true) :
    isSp c = false := by
  unfold isSp
  simp only [decide_eq_false_iff_not]
  exact alnum_ne h (by decide)

theorem getline_plain (spt : Nat) :
    ∀ cs line ws, (∀ c ∈ cs, c ≠ '\r' ∧ c ≠ '\n' ∧ c ≠ '\t') →
    getline spt cs line ws =
      if line ++ cs = [] then none else some (line ++ cs, []) := by
  intro cs
  induction cs with
  | nil =>
    intro line ws _
    rw [getline]
    rcases hl : line with _ | ⟨c, t⟩
    · simp
    · simp
  | cons c t ih =>
    intro line ws h
    obtain ⟨h1, h2, h3⟩ := h c (List.mem_cons_self _ _)
    rw [getline]
    rw [if_neg h1, if_neg h2, if_neg h3]
    rw [ih (line ++ [c]) _ (fun d hd => h d (List.mem_cons_of_mem _ hd))]
    simp

theorem readLines_single (spt n : Nat) (s : List Char) (hne : s ≠ [])
    (h : ∀ c ∈ s, c ≠ '\r' ∧ c ≠ '\n' ∧ c ≠ '\t') :
    readLines spt (n + 2) s =
      [if isBlankLine s then Tok.blankLine s else Tok.rawText s true] := by
  rw [readLines.eq_def]
  rw [getline_plain spt s [] true h]
  rw [List.nil_append, if_neg hne]
  dsimp only
  rw [readLines.eq_def]
  rw [getline_plain spt [] [] true (by simp)]
  simp

theorem isBlankLine_cons_star (t : List Char) :
    isBlankLine ('*' :: t) = false := by
  unfold isBlankLine
  rw [Bool.eq_false_iff]
  intro hc
  simp only [List.any_eq_true, List.mem_range, Bool.and_eq_true] at hc
  obtain ⟨j, hj, hall, hbg⟩ := hc
  rw [blankGroups] at hbg
  rcases hjz : j with _ | j2
  · subst hjz
    simp only [List.drop_zero] at hbg
    simp only [Bool.or_eq_true, Bool.and_eq_true] at hbg
    rcases hbg with hbg | ⟨hbg, _⟩
    · simp [isSp] at hbg
    · simp at hbg
  · subst hjz
    rw [List.take_succ_cons] at hall
    simp [isSp] at hall

theorem isCodeFenceBeginLine_cons_star (t : List Char) :
    isCodeFenceBeginLine ('*' :: t) = none := by
  unfold isCodeFenceBeginLine
  have h1 : (('*' :: t).takeWhile isSp).length = 0 := by
    rw [List.takeWhile_cons]
    simp [isSp]
  rw [h1]
  simp

theorem matchBlockQuote_cons_star (t : List Char) :
    matchBlockQuote ('*' :: t) = none := by
  unfold matchBlockQuote
  have hg : quoteGroup ('*' :: t) 0 = none := by
    unfold quoteGroup
    have h1 : ((('*' :: t).drop 0).takeWhile isSp).length = 0 := by
      simp [List.takeWhile_cons, isSp]
    rw [h1]
    simp
  rw [quotePrefix, hg]
  simp

theorem matchHashHeader_cons_star (t : List Char) :
    matchHashHeader ('*' :: t) = none := by
  unfold matchHashHeader
  have h1 : leadSp ('*' :: t) = 0 := by
    unfold leadSp
    simp [List.takeWhile_cons, isSp]
  rw [h1]
  simp

theorem bestK_zero (cond : Nat → Bool) : bestK 0 cond = none := by
  unfold bestK
  rw [List.find?_eq_none]
  intro x hx
  simp only [List.mem_reverse, List.mem_range] at hx
  have hx0 : x = 0 := by omega
  subst hx0
  simp

theorem matchUnorderedList_star_noSp {t : List Char}
    (ht : ∀ c, t.head? = some c → isSp c = false) :
    matchUnorderedList ('*' :: t) = none := by
  unfold matchUnorderedList
  have h1 : leadSp ('*' :: t) = 0 := by
    unfold leadSp
    simp [List.takeWhile_cons, isSp]
  rw [h1]
  simp only [List.getElem?_cons_zero, Option.some.injEq]
  rw [if_pos (by simp)]
  unfold listTail
  have h2 : ((('*' :: t).drop 1).takeWhile isSp).length = 0 := by
    simp only [List.drop_succ_cons, List.drop_zero]
    rcases t with _ | ⟨c, t2⟩
    · simp
    · rw [List.takeWhile_cons]
      rw [ht c rfl]
      simp
  rw [h2, bestK_zero]
  simp

theorem matchOrderedList_cons_star (t : List Char) :
    matchOrderedList ('*' :: t) = none := by
  unfold matchOrderedList
  have h1 : leadSp ('*' :: t) = 0 := by
    unfold leadSp
    simp [List.takeWhile_cons, isSp]
  rw [h1]
  simp only [List.drop_zero]
  rw [List.takeWhile_cons]
  rw [show ('*'.isDigit) = false from by decide]
  simp

theorem matchReference_cons_star (t : List Char) :
    matchReference ('*' :: t) = none := by
  unfold matchReference
  have h1 : leadSp ('*' :: t) = 0 := by
    unfold leadSp
    simp [List.takeWhile_cons, isSp]
  rw [h1]
  simp

theorem parseHtmlTagStart_cons_star (t : List Char) :
    parseHtmlTagStart ('*' :: t) = none := by
  unfold parseHtmlTagStart parseHtmlTagAt
  simp

theorem isHtmlCommentStart_cons_star (t : List Char) :
    isHtmlCommentStart ('*' :: t) = false := by
  unfold isHtmlCommentStart
  rcases t with _ | ⟨a, t2⟩ <;> simp [str]

theorem getElem?_mem_char {s : List Char} {p : Nat} {c : Char}
    (h : s[p]? = some c) : c ∈ s := List.getElem?_mem h

theorem htmlTokenSearch_no_lt {s : List Char} (h : '<' ∉ s) :
    htmlTokenSearch s = none := by
  unfold htmlTokenSearch
  rw [List.find?_eq_none.mpr ?_]
  intro p _
  unfold matchHtmlToken
  rw [if_neg (fun hc => h (getElem?_mem_char hc))]
  simp

theorem processHtmlTagAttributes_id (s : List Char) (reps : List Tok)
    (h : '<' ∉ s) : processHtmlTagAttributes s reps = (s, reps) := by
  rw [processHtmlTagAttributes]
  rw [processHtmlTagAttributes.go]
  rw [htmlTokenSearch_no_lt h]

theorem codeSpanMatch_no_tick {s : List Char} (h : '`' ∉ s) :
    codeSpanMatch s = none := by
  unfold codeSpanMatch
  rw [List.find?_eq_none.mpr ?_]
  intro p _
  have hne : s[p]? ≠ some '`' := fun hc => h (getElem?_mem_char hc)
  simp only [openCond, Bool.and_eq_true, decide_eq_true_eq]
  intro hcon
  exact hne hcon.1.1

theorem processCodeSpans_id (s : List Char) (reps : List Tok)
    (h : '`' ∉ s) : processCodeSpans s reps = (s, reps) := by
  rw [processCodeSpans]
  rw [processCodeSpans.go]
  rw [codeSpanMatch_no_tick h]

theorem processEscapedCharacters_id (s : List Char) (h : '\\' ∉ s) :
    processEscapedCharacters s = s := by
  induction s with
  | nil => rfl
  | cons c t ih =>
    rw [processEscapedCharacters.eq_def]
    dsimp only
    have hcc : ¬ c = '\\' := fun hc => h (by rw [hc]; exact List.mem_cons_self _ _)
    rw [if_neg hcc]
    rw [ih (fun hc => h (List.mem_cons_of_mem _ hc))]

theorem linkSearch_none {s : List Char}
    (h : ∀ c ∈ s, c ≠ '[' ∧ c ≠ '<' ∧ c ≠ '!') :
    linkSearch s = none := by
  unfold linkSearch
  rw [List.find?_eq_none.mpr ?_]
  intro p _
  have hnone : linkMatchAt s p = none := by
    unfold linkMatchAt matchInline matchRef matchTag
    have hp : ∀ c, s[p]? = some c → c ≠ '[' ∧ c ≠ '<' ∧ c ≠ '!' :=
      fun c hc => h c (getElem?_mem_char hc)
    have hbang : ¬ s[p]? = some '!' := fun hc => (hp _ hc).2.2 rfl
    rw [if_neg hbang]
    unfold matchInlineAt matchRefAt
    rw [if_neg (fun hc => (hp _ hc).1 rfl)]
    rw [if_neg hbang]
    rw [if_neg (fun hc => (hp _ hc).1 rfl)]
    rw [if_neg (fun hc => (hp _ hc).2.1 rfl)]
  rw [hnone]
  simp

theorem processLinksImagesAndTags_id (s : List Char) (reps : List Tok)
    (idt : LinkIds) (h : ∀ c ∈ s, c ≠ '[' ∧ c ≠ '<' ∧ c ≠ '!') :
    processLinksImagesAndTags s reps idt = (s, reps) := by
  rw [processLinksImagesAndTags]
  rw [processLinksImagesAndTags.go]
  rw [linkSearch_none h]

theorem mem_star_word {k : Nat} {w : List Char} {c : Char}
    (hc : c ∈ List.replicate k '*' ++ w ++ List.replicate k '*')
    (hw : ∀ d ∈ w, isAlnumAscii d = true) :
    c = '*' ∨ isAlnumAscii c = true := by
  rcases List.mem_append.mp hc with hc2 | hc2
  · rcases List.mem_append.mp hc2 with hc3 | hc3
    · exact Or.inl (List.eq_of_mem_replicate hc3)
    · exact Or.inr (hw c hc3)
  · exact Or.inl (List.eq_of_mem_replicate hc2)

theorem rawTextSpan_emph (k : Nat) (w : List Char) (idt : LinkIds)
    (hw : ∀ d ∈ w, isAlnumAscii d = true) :
    rawTextSpan (List.replicate k '*' ++ w ++ List.replicate k '*') idt =
      processBoldAndItalicSpans
        (List.replicate k '*' ++ w ++ List.replicate k '*') [] := by
  have hchar : ∀ c ∈ List.replicate k '*' ++ w ++ List.replicate k '*',
      c = '*' ∨ isAlnumAscii c = true := fun c hc => mem_star_word hc hw
  have hnot : ∀ (d : Char), isAlnumAscii d = false → '*' ≠ d →
      d ∉ List.replicate k '*' ++ w ++ List.replicate k '*' := by
    intro d hd hne hmem
    rcases hchar d hmem with h2 | h2
    · exact hne h2.symm
    · rw [h2] at hd
      exact Bool.noConfusion hd
  rw [rawTextSpan]
  rw [processHtmlTagAttributes_id _ _ (hnot '<' (by decide) (by decide))]
  rw [processCodeSpans_id _ _ (hnot '`' (by decide) (by decide))]
  rw [processEscapedCharacters_id _ (hnot '\\' (by decide) (by decide))]
  rw [processLinksImagesAndTags_id _ _ _ (by
    intro c hc
    rcases hchar c hc with h2 | h2
    · subst h2
      refine ⟨by decide, by decide, by decide⟩
    · exact ⟨alnum_ne h2 (by decide), alnum_ne h2 (by decide),
        alnum_ne h2 (by decide)⟩)]

theorem runLen_getElem {s : List Char} {p : Nat} {c : Char} {k j : Nat}
    (h : runLen s p c = k) (hj : j < k) : s[p + j]? = some c := by
  unfold runLen at h
  have hlen : j < ((s.drop p).takeWhile (· = c)).length := by omega
  obtain ⟨x, hx⟩ : ∃ x, ((s.drop p).takeWhile (· = c))[j]? = some x := by
    rw [List.getElem?_eq_getElem hlen]
    exact ⟨_, rfl⟩
  have hxc : x = c := by
    have hmem : x ∈ (s.drop p).takeWhile (· = c) := List.getElem?_mem hx
    have hp := List.mem_takeWhile_imp hmem
    simpa using hp
  have hpre : (s.drop p).takeWhile (· = c) <+: (s.drop p) :=
    List.takeWhile_prefix _
  obtain ⟨r, hr⟩ := hpre
  have h2 : (s.drop p)[j]? = some x := by
    rw [← hr, List.getElem?_append_left hlen]
    exact hx
  rw [← List.getElem?_drop, h2, hxc]

theorem star_word_getElem (k : Nat) (w : List Char) (j : Nat) :
    (List.replicate k '*' ++ (w ++ List.replicate k '*'))[j]? =
      if j < k then some '*'
      else if j < k + w.length then w[j - k]?
      else if j < 2 * k + w.length then some '*'
      else none := by
  by_cases h1 : j < k
  · rw [List.getElem?_append_left (by simpa using h1)]
    simp [List.getElem?_replicate, h1]
  · rw [List.getElem?_append_right (by simpa using h1)]
    simp only [List.length_replicate]
    by_cases h2 : j < k + w.length
    · rw [List.getElem?_append_left (by omega)]
      simp [h1, h2]
    · rw [List.getElem?_append_right (by omega)]
      simp only [List.getElem?_replicate, List.length_replicate]
      by_cases h3 : j < 2 * k + w.length
      · rw [if_pos (by omega)]
        simp [h1, h2, h3]
      · rw [if_neg (by omega)]
        simp [h1, h2, h3]

theorem bestK_top {cap : Nat} {cond : Nat → Bool} (hc : 1 ≤ cap)
    (h : cond cap = true) : bestK cap cond = some cap := by
  unfold bestK
  rw [List.range_succ, List.reverse_append]
  rw [show ([cap] : List Nat).reverse = [cap] from rfl]
  rw [List.singleton_append]
  rw [List.find?_cons_of_pos _ (by simp [hc, h])]

theorem bestK_none {cap : Nat} {cond : Nat → Bool}
    (h : ∀ j, 1 ≤ j → j ≤ cap → cond j = false) : bestK cap cond = none := by
  unfold bestK
  rw [List.find?_eq_none]
  intro x hx
  simp only [List.mem_reverse, List.mem_range] at hx
  rcases Nat.lt_or_ge x 1 with h1 | h1
  · have hx0 : x = 0 := by omega
    subst hx0
    simp
  · rw [h x h1 (by omega)]
    simp

theorem emphAt_open_here {s : List Char} {k : Nat}
    (h0 : s[0]? = some '*') (hrun : runLen s 0 '*' = k)
    (hk1 : 1 ≤ k) (hk3 : k ≤ 3)
    {d : Char} (hd : s[k]? = some d) (hda : isAlnumAscii d = true) :
    emphAt s 0 = some (true, '*', k, false) := by
  unfold emphAt
  rw [if_pos h0]
  have hcond : nextNotSpacePunct s 0 k = true := by
    unfold nextNotSpacePunct
    simp only [Nat.zero_add]
    rw [hd]
    have hne : d ≠ ' ' := alnum_ne hda (by decide)
    simp [alnum_not_punct hda, hne]
  have hm : emphMatchStar s 0 = some (true, k) := by
    unfold emphMatchStar
    rw [show prevChar s 0 = none from rfl]
    rw [hrun]
    rw [show min 3 k = k from by omega]
    rw [bestK_top hk1 hcond]
    rfl
  rw [hm]
  rfl

theorem emphAt_close_end {s : List Char} {p k : Nat}
    (h0 : s[p]? = some '*') (hrun : runLen s p '*' = k)
    (hk1 : 1 ≤ k) (hk3 : k ≤ 3)
    (hlen : s.length = p + k)
    {d : Char} (hd : prevChar s p = some d) (hda : isAlnumAscii d = true) :
    emphAt s p = some (false, '*', k, false) := by
  have hnone : s[p + k]? = none := by
    rw [List.getElem?_eq_none]
    omega
  unfold emphAt
  rw [if_pos h0]
  have hdsp : (decide (d = ' ') || isPunctAscii d) = false := by
    have hne : d ≠ ' ' := alnum_ne hda (by decide)
    simp [alnum_not_punct hda, hne]
  have hb2 : bestK k (fun k2 => nextNotSpacePunct s p k2) = none := by
    apply bestK_none
    intro j h1 h2
    unfold nextNotSpacePunct
    rcases Nat.lt_or_ge j k with hjk | hjk
    · rw [runLen_getElem hrun hjk]
      decide
    · have hj2 : j = k := by omega
      subst hj2
      rw [hnone]
  have hnsp : nextSpaceEndPunct s p k = true := by
    unfold nextSpaceEndPunct
    rw [hnone]
  have hm : emphMatchStar s p = some (false, k) := by
    unfold emphMatchStar
    rw [hd, hrun, show min 3 k = k from by omega]
    dsimp only
    rw [hdsp]
    rw [hb2]
    have hne2 : (!decide (d = ' ')) = true := by
      have hne : d ≠ ' ' := alnum_ne hda (by decide)
      simp [hne]
    rw [hne2]
    rw [bestK_top hk1 hnsp]
    rfl
  rw [hm]
  rfl

theorem emphAt_other {s : List Char} {p : Nat} {d : Char}
    (hd : s[p]? = some d) (h1 : d ≠ '*') (h2 : d ≠ '_') :
    emphAt s p = none := by
  unfold emphAt
  rw [if_neg (by rw [hd]; simp [h1]), if_neg (by rw [hd]; simp [h2])]

theorem emphAt_oob {s : List Char} {p : Nat} (h : s.length ≤ p) :
    emphAt s p = none := by
  unfold emphAt
  rw [List.getElem?_eq_none h]
  simp

theorem emphFind_eq {s : List Char} {cur q : Nat} (hq : q < s.length)
    (hcur : cur ≤ q) (hsome : (emphAt s q).isSome = true)
    (hnone : ∀ j, cur ≤ j → j < q → emphAt s j = none) :
    emphFind s cur = some q := by
  unfold emphFind
  apply find?_range_min hq
  · simp [hcur, hsome]
  · intro j hj
    by_cases hcj : cur ≤ j
    · simp [hnone j hcj hj]
    · simp [hcj]

theorem emphFind_none {s : List Char} {cur : Nat}
    (h : ∀ p, cur ≤ p → p < s.length → emphAt s p = none) :
    emphFind s cur = none := by
  unfold emphFind
  rw [List.find?_eq_none]
  intro p hp
  rw [List.mem_range] at hp
  by_cases hcp : cur ≤ p
  · simp [h p hcp hp]
  · simp [hcp]

theorem emphasisScanFrom_star_word (k : Nat) (w : List Char)
    (hk1 : 1 ≤ k) (hk3 : k ≤ 3) (hw : w ≠ [])
    (hal : ∀ d ∈ w, isAlnumAscii d = true) :
    emphasisScanFrom (List.replicate k '*' ++ w ++ List.replicate k '*') 0 =
      [Tok.boldOrItalic ⟨true, '*', k, none, false⟩,
       Tok.rawText w true,
       Tok.boldOrItalic ⟨false, '*', k, none, false⟩] := by
  rcases w with _ | ⟨c0, w2⟩
  · exact absurd rfl hw
  rw [List.append_assoc]
  have hL : 1 ≤ (c0 :: w2).length := by simp
  have hc0 : isAlnumAscii c0 = true := hal c0 (List.mem_cons_self _ _)
  have hlen : (List.replicate k '*' ++ (c0 :: w2 ++ List.replicate k '*')).length
      = 2 * k + (c0 :: w2).length := by
    simp only [List.length_append, List.length_replicate, List.length_cons]
    omega
  have h0 : (List.replicate k '*' ++ (c0 :: w2 ++ List.replicate k '*'))[0]?
      = some '*' := by
    rw [star_word_getElem]
    rw [if_pos (by omega)]
  have hrun0 : runLen (List.replicate k '*' ++ (c0 :: w2 ++ List.replicate k '*'))
      0 '*' = k := by
    unfold runLen
    rw [List.drop_zero, takeWhile_replicate_append]
    rw [takeWhile_head_ne (by
      simp only [List.cons_append, List.head?_cons, ne_eq, Option.some.injEq]
      exact alnum_ne hc0 (by decide))]
    simp
  have hdk : (List.replicate k '*' ++ (c0 :: w2 ++ List.replicate k '*'))[k]?
      = some c0 := by
    rw [star_word_getElem]
    rw [if_neg (by omega), if_pos (by omega)]
    simp
  have hAt0 : emphAt (List.replicate k '*' ++ (c0 :: w2 ++ List.replicate k '*'))
      0 = some (true, '*', k, false) :=
    emphAt_open_here h0 hrun0 hk1 hk3 hdk hc0
  have hmid : ∀ j, k ≤ j → j < k + (c0 :: w2).length →
      emphAt (List.replicate k '*' ++ (c0 :: w2 ++ List.replicate k '*')) j
        = none := by
    intro j h1 h2
    have hjw : j - k < (c0 :: w2).length := by omega
    obtain ⟨d, hdj⟩ : ∃ d, (c0 :: w2)[j - k]? = some d := by
      rw [List.getElem?_eq_getElem hjw]
      exact ⟨_, rfl⟩
    have hda : isAlnumAscii d = true := hal d (List.getElem?_mem hdj)
    have hsj : (List.replicate k '*' ++ (c0 :: w2 ++ List.replicate k '*'))[j]?
        = some d := by
      rw [star_word_getElem]
      rw [if_neg (by omega), if_pos (by omega)]
      exact hdj
    exact emphAt_other hsj (alnum_ne hda (by decide)) (alnum_ne hda (by decide))
  have hFind0 : emphFind (List.replicate k '*' ++ (c0 :: w2 ++ List.replicate k '*'))
      0 = some 0 :=
    emphFind_eq (by omega) (Nat.le_refl 0) (by rw [hAt0]; rfl)
      (fun j hj1 hj2 => absurd hj2 (by omega))
  have hqs : (List.replicate k '*' ++
      (c0 :: w2 ++ List.replicate k '*'))[k + (c0 :: w2).length]? = some '*' := by
    rw [star_word_getElem]
    rw [if_neg (by omega), if_neg (by omega), if_pos (by omega)]
  have hdropq : (List.replicate k '*' ++ (c0 :: w2 ++ List.replicate k '*')).drop
      (k + (c0 :: w2).length) = List.replicate k '*' := by
    rw [List.drop_append_eq_append_drop]
    rw [List.drop_of_length_le (by simp)]
    rw [List.nil_append, List.length_replicate]
    rw [List.drop_append_eq_append_drop]
    rw [List.drop_of_length_le (by omega)]
    rw [List.nil_append]
    rw [show k + (c0 :: w2).length - k - (c0 :: w2).length = 0 from by omega]
    rw [List.drop_zero]
  have hrunq : runLen (List.replicate k '*' ++ (c0 :: w2 ++ List.replicate k '*'))
      (k + (c0 :: w2).length) '*' = k := by
    unfold runLen
    rw [hdropq]
    rw [show (List.replicate k '*' : List Char) =
      List.replicate k '*' ++ ([] : List Char) from by simp]
    rw [takeWhile_replicate_append]
    simp
  obtain ⟨dl, hdlE⟩ : ∃ dl, (c0 :: w2)[(c0 :: w2).length - 1]? = some dl := by
    rw [List.getElem?_eq_getElem (by omega)]
    exact ⟨_, rfl⟩
  have hdla : isAlnumAscii dl = true := hal dl (List.getElem?_mem hdlE)
  have hprevq : prevChar (List.replicate k '*' ++ (c0 :: w2 ++ List.replicate k '*'))
      (k + (c0 :: w2).length) = some dl := by
    unfold prevChar
    rw [if_neg (by omega)]
    rw [star_word_getElem]
    rw [if_neg (by omega), if_pos (by omega)]
    rw [show k + (c0 :: w2).length - 1 - k = (c0 :: w2).length - 1 from by omega]
    exact hdlE
  have hlenq : (List.replicate k '*' ++ (c0 :: w2 ++ List.replicate k '*')).length
      = k + (c0 :: w2).length + k := by omega
  have hAtq : emphAt (List.replicate k '*' ++ (c0 :: w2 ++ List.replicate k '*'))
      (k + (c0 :: w2).length) = some (false, '*', k, false) :=
    emphAt_close_end hqs hrunq hk1 hk3 hlenq hprevq hdla
  have hFindk : emphFind (List.replicate k '*' ++ (c0 :: w2 ++ List.replicate k '*'))
      k = some (k + (c0 :: w2).length) :=
    emphFind_eq (by omega) (by omega) (by rw [hAtq]; rfl) hmid
  have hFindEnd : emphFind (List.replicate k '*' ++ (c0 :: w2 ++ List.replicate k '*'))
      (k + (c0 :: w2).length + k) = none :=
    emphFind_none (fun p h1 h2 => absurd h2 (by omega))
  have htakeq : (List.replicate k '*' ++ (c0 :: w2 ++ List.replicate k '*')).take
      (k + (c0 :: w2).length) = List.replicate k '*' ++ (c0 :: w2) := by
    rw [List.take_append_eq_append_take]
    rw [List.take_of_length_le (by simp)]
    rw [List.length_replicate]
    rw [List.take_append_eq_append_take]
    rw [List.take_of_length_le (by omega)]
    rw [show k + (c0 :: w2).length - k - (c0 :: w2).length = 0 from by omega]
    rw [List.take_zero, List.append_nil]
  have hslice1 : sliceBetween (List.replicate k '*' ++ (c0 :: w2 ++ List.replicate k '*'))
      k (k + (c0 :: w2).length) = c0 :: w2 := by
    unfold sliceBetween
    rw [htakeq]
    rw [List.drop_append_eq_append_drop]
    rw [List.drop_of_length_le (by simp)]
    rw [List.nil_append, List.length_replicate]
    rw [show k - k = 0 from by omega]
    rw [List.drop_zero]
  have hdropEnd : (List.replicate k '*' ++ (c0 :: w2 ++ List.replicate k '*')).drop
      (k + (c0 :: w2).length + k) = [] := by
    rw [List.drop_eq_nil_iff]
    omega
  obtain ⟨m, hm⟩ : ∃ m, (List.replicate k '*' ++
      (c0 :: w2 ++ List.replicate k '*')).length = m + 3 :=
    ⟨(List.replicate k '*' ++ (c0 :: w2 ++ List.replicate k '*')).length - 3,
      by omega⟩
  rw [emphasisScanFrom]
  rw [hm]
  rw [emphasisScanFrom.go.eq_def]
  dsimp only
  rw [hFind0]
  dsimp only
  rw [hAt0]
  dsimp only
  rw [show sliceBetween (List.replicate k '*' ++ (c0 :: w2 ++ List.replicate k '*'))
      0 0 = [] from rfl]
  rw [if_pos rfl]
  rw [List.nil_append]
  rw [emphasisScanFrom.go.eq_def]
  dsimp only
  rw [show (0 + k) = k from by omega]
  rw [hFindk]
  dsimp only
  rw [hAtq]
  dsimp only
  rw [hslice1]
  rw [if_neg (by simp)]
  rw [emphasisScanFrom.go.eq_def]
  dsimp only
  rw [hFindEnd]
  rw [hdropEnd]
  rw [if_pos rfl]
  dsimp only
  simp only [Bool.false_and, Bool.false_eq_true, if_false]
  rw [if_neg (List.cons_ne_nil c0 w2)]
  simp

theorem matchPH_none_of_head {c : Char} (hc : c ≠ SOH) (t : List Char) :
    matchPH (c :: t) = none := by
  unfold matchPH
  cases t with
  | nil => rfl
  | cons c2 t2 =>
    dsimp only
    rw [if_neg]
    rintro ⟨h1, h2⟩
    exact hc h1

theorem encodeProcessedItems_go_nil (reps : List Tok) :
    ∀ fuel, encodeProcessedItems.go reps fuel [] = [] := by
  intro fuel
  cases fuel with
  | zero => rfl
  | succ fuel => rfl

theorem encodeProcessedItems_go_plain (reps : List Tok) :
    ∀ fuel (w : List Char), w ≠ [] → (∀ c ∈ w, c ≠ SOH) → w.length < fuel →
    encodeProcessedItems.go reps fuel w = [Tok.rawText w true] := by
  intro fuel
  induction fuel with
  | zero =>
    intro w _ _ hlen
    omega
  | succ fuel ih =>
    intro w hne hsoh hlen
    cases w with
    | nil => exact absurd rfl hne
    | cons c t =>
      rw [encodeProcessedItems.go.eq_def]
      dsimp only
      rw [matchPH_none_of_head (hsoh c (List.mem_cons_self _ _)) t]
      cases t with
      | nil =>
        rw [encodeProcessedItems_go_nil]
      | cons d t2 =>
        rw [ih (d :: t2) (by simp) (fun x hx => hsoh x (List.mem_cons_of_mem _ hx))
          (by simp only [List.length_cons] at hlen ⊢; omega)]

theorem encodeProcessedItems_plain (w : List Char) (reps : List Tok)
    (hne : w ≠ []) (hsoh : ∀ c ∈ w, c ≠ SOH) :
    encodeProcessedItems w reps = [Tok.rawText w true] := by
  rw [encodeProcessedItems]
  exact encodeProcessedItems_go_plain reps _ w hne hsoh (by omega)

theorem pbis_star_word (k : Nat) (w : List Char)
    (hk1 : 1 ≤ k) (hk3 : k ≤ 3) (hw : w ≠ [])
    (hal : ∀ d ∈ w, isAlnumAscii d = true) :
    processBoldAndItalicSpans (List.replicate k '*' ++ w ++ List.replicate k '*')
      [] =
      [Tok.boldOrItalic ⟨true, '*', k, some 0, false⟩,
       Tok.rawText w true,
       Tok.boldOrItalic ⟨false, '*', k, some 0, false⟩] := by
  have hsoh : ∀ c ∈ w, c ≠ SOH := fun c hc =>
    alnum_ne (hal c hc) (by decide)
  have hk : k = 1 ∨ k = 2 ∨ k = 3 := by omega
  unfold processBoldAndItalicSpans
  dsimp only
  rw [emphasisScanFrom_star_word k w hk1 hk3 hw hal]
  rcases hk with hk | hk | hk <;> subst hk
  · show Tok.boldOrItalic ⟨true, '*', 1, some 0, false⟩ ::
      (encodeProcessedItems w [] ++
        [Tok.boldOrItalic ⟨false, '*', 1, some 0, false⟩]) = _
    rw [encodeProcessedItems_plain w [] hw hsoh]
    rfl
  · show Tok.boldOrItalic ⟨true, '*', 2, some 0, false⟩ ::
      (encodeProcessedItems w [] ++
        [Tok.boldOrItalic ⟨false, '*', 2, some 0, false⟩]) = _
    rw [encodeProcessedItems_plain w [] hw hsoh]
    rfl
  · show Tok.boldOrItalic ⟨true, '*', 3, some 0, false⟩ ::
      (encodeProcessedItems w [] ++
        [Tok.boldOrItalic ⟨false, '*', 3, some 0, false⟩]) = _
    rw [encodeProcessedItems_plain w [] hw hsoh]
    rfl

theorem parseFencedCodeBlock_star (t : List Char) (ts : List Tok) :
    parseFencedCodeBlock (Tok.rawText ('*' :: t) true :: ts) = none := by
  unfold parseFencedCodeBlock
  dsimp only
  rw [show ((Tok.rawText ('*' :: t) true).isBlankLineTok ||
      !(Tok.rawText ('*' :: t) true).text?.isSome ||
      !(Tok.rawText ('*' :: t) true).canContainMarkup) = false from rfl]
  rw [show (Tok.rawText ('*' :: t) true).text?.getD [] = '*' :: t from rfl]
  rw [isCodeFenceBeginLine_cons_star]
  rfl

theorem processFencedBlocks_star (t : List Char) :
    processFencedBlocks [Tok.rawText ('*' :: t) true] =
      [Tok.rawText ('*' :: t) true] := by
  unfold processFencedBlocks
  rw [processFencedBlocks.go.eq_def]
  dsimp only
  rw [parseFencedCodeBlock_star]
  rfl

theorem mergeMultilineHtmlTags_single (t : Tok) :
    mergeMultilineHtmlTags [t] = [t] := by
  rw [mergeMultilineHtmlTags]

theorem parseInlineHtml_star (t : List Char) (ts : List Tok) :
    parseInlineHtml (Tok.rawText ('*' :: t) true :: ts) = none := by
  unfold parseInlineHtml
  dsimp only
  rw [show (Tok.rawText ('*' :: t) true).text? = some ('*' :: t) from rfl]
  dsimp only
  rw [parseHtmlTagStart_cons_star]
  dsimp only
  rw [isHtmlCommentStart_cons_star]
  rfl

theorem parseReference_star (t : List Char) (ts : List Tok) (idt : LinkIds) :
    parseReference (Tok.rawText ('*' :: t) true :: ts) idt = none := by
  unfold parseReference
  dsimp only
  rw [show ((Tok.rawText ('*' :: t) true).text?.isSome : Bool) = true from rfl]
  rw [if_pos rfl]
  rw [show (Tok.rawText ('*' :: t) true).text?.getD [] = '*' :: t from rfl]
  rw [matchReference_cons_star]

theorem pihr_nil (fuel : Nat) (idt : LinkIds) (b : Bool) :
    processInlineHtmlAndReferences fuel [] idt b = ([], idt) := by
  cases fuel with
  | zero => rfl
  | succ fuel => rfl

theorem pihr_star (fuel : Nat) (t : List Char) (idt : LinkIds) :
    processInlineHtmlAndReferences (fuel + 1) [Tok.rawText ('*' :: t) true]
      idt true = ([Tok.rawText ('*' :: t) true], idt) := by
  rw [processInlineHtmlAndReferences]
  dsimp only
  rw [if_pos rfl]
  rw [parseInlineHtml_star]
  dsimp only
  rw [parseReference_star]
  dsimp only
  rw [pihr_nil]
  split <;> rfl

theorem parseBlockQuote_star (t : List Char) (ts : List Tok) :
    parseBlockQuote (Tok.rawText ('*' :: t) true :: ts) = none := by
  unfold parseBlockQuote
  dsimp only
  rw [show (lineGuard (Tok.rawText ('*' :: t) true) : Bool) = true from rfl]
  rw [if_pos rfl]
  rw [show (Tok.rawText ('*' :: t) true).text?.getD [] = '*' :: t from rfl]
  rw [matchBlockQuote_cons_star]

theorem isHorizontalRule_star_alnum {t : List Char} {c : Char}
    (hmem : c ∈ '*' :: t) (hc : isAlnumAscii c = true) :
    isHorizontalRule ('*' :: t) = false := by
  have hall : (('*' :: t).all (fun d => d = '*' || d = ' ')) = false := by
    rw [List.all_eq_false]
    refine ⟨c, hmem, ?_⟩
    simp only [Bool.or_eq_true, decide_eq_true_eq, not_or]
    exact ⟨alnum_ne hc (by decide), alnum_ne hc (by decide)⟩
  unfold isHorizontalRule leadSp
  have hlead : ('*' :: t).takeWhile isSp = [] := by
    rw [List.takeWhile_cons, show isSp '*' = false from by decide]
    simp
  rw [hlead, List.length_nil]
  rw [show min 3 0 = 0 from rfl]
  rw [List.drop_zero]
  dsimp only [List.head?]
  rw [hall]
  simp

theorem parseHorizontalRule_star {t : List Char} (ts : List Tok) {c : Char}
    (hmem : c ∈ '*' :: t) (hc : isAlnumAscii c = true) :
    parseHorizontalRule (Tok.rawText ('*' :: t) true :: ts) = none := by
  unfold parseHorizontalRule
  dsimp only
  rw [show (Tok.rawText ('*' :: t) true).text?.getD [] = '*' :: t from rfl]
  rw [show (lineGuard (Tok.rawText ('*' :: t) true) : Bool) = true from rfl]
  rw [isHorizontalRule_star_alnum hmem hc]
  rfl

theorem parseListBlock_star {t : List Char}
    (ht : ∀ c, t.head? = some c → isSp c = false) :
    parseListBlock [Tok.rawText ('*' :: t) true] = none := by
  unfold parseListBlock
  rw [show 2 * ([Tok.rawText ('*' :: t) true]).length + 4 = 5 + 1 from rfl]
  rw [parseListInner]
  rw [show (lineGuard (Tok.rawText ('*' :: t) true) : Bool) = true from rfl]
  rw [if_pos rfl]
  rw [show (Tok.rawText ('*' :: t) true).text?.getD [] = '*' :: t from rfl]
  rw [matchUnorderedList_star_noSp ht]
  dsimp only
  rw [matchOrderedList_cons_star]
  rfl

theorem parseHeader_star (t : List Char) :
    parseHeader [Tok.rawText ('*' :: t) true] = none := by
  unfold parseHeader
  dsimp only
  rw [show (lineGuard (Tok.rawText ('*' :: t) true) : Bool) = true from rfl]
  rw [if_pos rfl]
  rw [show (Tok.rawText ('*' :: t) true).text?.getD [] = '*' :: t from rfl]
  rw [matchHashHeader_cons_star]

theorem isCodeBlockLine_star (t : List Char) (ts : List Tok) :
    isCodeBlockLine (Tok.rawText ('*' :: t) true :: ts) = none := by
  unfold isCodeBlockLine
  rw [show ((Tok.rawText ('*' :: t) true).isBlankLineTok : Bool) = false from rfl]
  rw [show (Tok.rawText ('*' :: t) true).text?.getD [] = '*' :: t from rfl]
  have h4 : decide (List.take 4 ('*' :: t) = List.replicate 4 ' ') = false := by
    apply decide_eq_false
    intro h
    rw [List.take_succ_cons] at h
    rw [show List.replicate 4 ' ' = ' ' :: List.replicate 3 ' ' from rfl] at h
    exact absurd (List.head_eq_of_cons_eq h) (by decide)
  rw [h4]
  simp

theorem parseCodeBlock_star (t : List Char) (ts : List Tok) :
    parseCodeBlock (Tok.rawText ('*' :: t) true :: ts) = none := by
  unfold parseCodeBlock
  dsimp only
  rw [show ((Tok.rawText ('*' :: t) true).isBlankLineTok : Bool) = false from rfl]
  rw [isCodeBlockLine_star]
  rfl

theorem pbiLoop_nil (fuel : Nat) (accu processed : List Tok) (p q : Bool) :
    pbiLoop fuel [] accu processed p q = processed := by
  cases fuel with
  | zero => show processed ++ [] = processed; simp
  | succ fuel => rfl

theorem pbiLoop_star (fuel : Nat) {t : List Char} {c : Char}
    (hmem : c ∈ '*' :: t) (hc : isAlnumAscii c = true)
    (ht : ∀ d, t.head? = some d → isSp d = false) :
    pbiLoop (fuel + 2) [Tok.rawText ('*' :: t) true] [] [] false false =
      [Tok.rawText ('*' :: t) true] := by
  rw [show fuel + 2 = Nat.succ (fuel + 1) from rfl]
  rw [pbiLoop]
  dsimp only
  rw [parseBlockQuote_star]
  dsimp only
  rw [parseHorizontalRule_star [] hmem hc]
  dsimp only
  rw [parseListBlock_star ht]
  dsimp only
  rw [parseHeader_star]
  dsimp only
  rw [parseCodeBlock_star]
  rw [pbiLoop_nil]
  rfl

theorem pbiTok_container_star (fuel : Nat) {t : List Char} {c : Char}
    (hmem : c ∈ '*' :: t) (hc : isAlnumAscii c = true)
    (ht : ∀ d, t.head? = some d → isSp d = false) :
    pbiTok (fuel + 3) (Tok.container [Tok.rawText ('*' :: t) true]) =
      Tok.container [Tok.rawText ('*' :: t) true] := by
  rw [show fuel + 3 = Nat.succ (fuel + 2) from rfl]
  rw [pbiTok]
  rw [if_pos (show (Tok.container [Tok.rawText ('*' :: t) true]).isContainer =
    true from rfl)]
  rw [show (Tok.container [Tok.rawText ('*' :: t) true]).sub =
    [Tok.rawText ('*' :: t) true] from rfl]
  rw [pbiLoop_star fuel hmem hc ht]
  rfl

theorem paraLine_star (s : List Char) (hhead : s.head? = some '*')
    (hlast : s.reverse.head? = some '*') : paraLine s = (s, false) := by
  unfold paraLine
  have h1 : s.dropWhile isSp = s := by
    cases s with
    | nil => rfl
    | cons a t =>
      rw [List.dropWhile_cons]
      rw [show a = '*' from by simpa using hhead]
      rw [show isSp '*' = false from by decide]
      simp
  rw [h1]
  dsimp only
  have h2 : s.reverse.takeWhile isSp = [] := by
    cases hr : s.reverse with
    | nil => rfl
    | cons a t2 =>
      rw [List.takeWhile_cons]
      rw [hr] at hlast
      rw [show a = '*' from by simpa using hlast]
      rw [show isSp '*' = false from by decide]
      simp
  rw [h2]
  rfl

theorem paraGroup_star (s : List Char) (h1 : paraLine s = (s, false)) :
    paraGroup [Tok.rawText s true] [] [] false =
      [Tok.paragraph [Tok.rawText s true]] := by
  rw [paraGroup]
  rw [if_pos (show ((Tok.rawText s true).text?.isSome &&
    (Tok.rawText s true).canContainMarkup &&
    !(Tok.rawText s true).inhibitParagraphs) = true from rfl)]
  rw [show (Tok.rawText s true).text?.getD [] = s from rfl]
  rw [h1]
  dsimp only
  rw [paraGroup]
  rfl

theorem paraMap_nil (fuel : Nat) : paraMap fuel [] = [] := by
  cases fuel with
  | zero => rfl
  | succ fuel => rfl

theorem paraMap_raw (fuel : Nat) (s : List Char) :
    paraMap fuel [Tok.rawText s true] = [Tok.rawText s true] := by
  cases fuel with
  | zero => rfl
  | succ fuel =>
    rw [paraMap]
    rw [paraMap_nil]
    rfl

theorem paraTok_star (fuel : Nat) (s : List Char) (h1 : paraLine s = (s, false)) :
    paraTok (fuel + 1) (Tok.container [Tok.rawText s true]) =
      Tok.container [Tok.paragraph [Tok.rawText s true]] := by
  rw [show fuel + 1 = Nat.succ fuel from rfl]
  rw [paraTok]
  rw [if_pos (show (Tok.container [Tok.rawText s true]).isContainer =
    true from rfl)]
  rw [show (Tok.container [Tok.rawText s true]).sub =
    [Tok.rawText s true] from rfl]
  rw [paraMap_raw]
  rw [show (Tok.container [Tok.rawText s true]).inhibitParagraphs = false from rfl]
  rw [paraGroup_star s h1]
  rfl

theorem spanToks_nil (fuel : Nat) (idt : LinkIds) : spanToks fuel [] idt = [] := by
  cases fuel with
  | zero => rfl
  | succ fuel => rfl

theorem spanToks_raw (fuel : Nat) (tx : List Char) (idt : LinkIds)
    (A B C : Tok) (h : rawTextSpan tx idt = [A, B, C]) :
    spanToks (fuel + 1) [Tok.rawText tx true] idt = [Tok.container [A, B, C]] := by
  rw [show fuel + 1 = Nat.succ fuel from rfl]
  rw [spanToks]
  rw [if_neg (show ¬((Tok.rawText tx true).isContainer = true) from
    fun hh => Bool.noConfusion hh)]
  dsimp only
  rw [h]
  rw [if_pos (show ([A, B, C] : List Tok).length > 1 from by simp)]
  rw [spanToks_nil]
  simp

theorem spanTok_star (fuel : Nat) (tx : List Char) (idt : LinkIds)
    (A B C : Tok) (h : rawTextSpan tx idt = [A, B, C]) :
    spanTok (fuel + 4) (Tok.container [Tok.paragraph [Tok.rawText tx true]]) idt =
      Tok.container [Tok.paragraph [Tok.container [A, B, C]]] := by
  rw [show fuel + 4 = Nat.succ (fuel + 3) from rfl]
  rw [spanTok]
  rw [if_pos (show (Tok.container [Tok.paragraph [Tok.rawText tx true]]).isContainer
    = true from rfl)]
  rw [show (Tok.container [Tok.paragraph [Tok.rawText tx true]]).sub =
    [Tok.paragraph [Tok.rawText tx true]] from rfl]
  rw [show fuel + 3 = Nat.succ (fuel + 2) from rfl]
  rw [spanToks]
  rw [if_pos (show (Tok.paragraph [Tok.rawText tx true]).isContainer =
    true from rfl)]
  rw [show fuel + 2 = Nat.succ (fuel + 1) from rfl]
  rw [spanTok]
  rw [if_pos (show (Tok.paragraph [Tok.rawText tx true]).isContainer =
    true from rfl)]
  rw [show (Tok.paragraph [Tok.rawText tx true]).sub =
    [Tok.rawText tx true] from rfl]
  rw [spanToks_raw fuel tx idt A B C h]
  rw [spanToks_nil]
  · rfl
  · intro tx1 hh
    exact Tok.noConfusion hh

theorem encodeString_alnum (f : EncFlags) :
    ∀ w : List Char, (∀ c ∈ w, isAlnumAscii c = true) → encodeString w f = w := by
  intro w
  induction w with
  | nil => intro _; rfl
  | cons c t ih =>
    intro hal
    have hc := hal c (List.mem_cons_self _ _)
    rw [encodeString]
    simp only [show (decide (c = '&') : Bool) = false from
        decide_eq_false (alnum_ne hc (by decide)),
      show (decide (c = '<') : Bool) = false from
        decide_eq_false (alnum_ne hc (by decide)),
      show (decide (c = '>') : Bool) = false from
        decide_eq_false (alnum_ne hc (by decide)),
      show (decide (c = '"') : Bool) = false from
        decide_eq_false (alnum_ne hc (by decide)),
      Bool.false_and, Bool.false_eq_true, if_false]
    rw [ih (fun d hd => hal d (List.mem_cons_of_mem _ hd))]
    rfl

theorem process_star {t : List Char} {c : Char}
    (hmem : c ∈ '*' :: t) (hc : isAlnumAscii c = true)
    (ht : ∀ d, t.head? = some d → isSp d = false)
    (h1 : paraLine ('*' :: t) = ('*' :: t, false))
    (A B C : Tok) (hspan : rawTextSpan ('*' :: t) [] = [A, B, C]) :
    Document.process ⟨[Tok.rawText ('*' :: t) true], [], false⟩ =
      ⟨[Tok.paragraph [Tok.container [A, B, C]]], [], true⟩ := by
  unfold Document.process
  rw [if_neg (show ¬((⟨[Tok.rawText ('*' :: t) true], [], false⟩ :
    Document).processed = true) from fun hh => Bool.noConfusion hh)]
  rw [processFencedBlocks_star]
  dsimp only
  rw [mergeMultilineHtmlTags_single]
  rw [pihr_star]
  dsimp only
  rw [show (tokWeight (Tok.container [Tok.rawText ('*' :: t) true]) + 4) *
    (tokWeight (Tok.container [Tok.rawText ('*' :: t) true]) + 4) =
    46 + 3 from rfl]
  rw [pbiTok_container_star 46 hmem hc ht]
  rw [show tokWeight (Tok.container [Tok.rawText ('*' :: t) true]) + 2 =
    4 + 1 from rfl]
  rw [paraTok_star 4 ('*' :: t) h1]
  rw [show tokWeight (Tok.container [Tok.paragraph [Tok.rawText ('*' :: t) true]])
    + 2 = 1 + 4 from rfl]
  rw [spanTok_star 1 ('*' :: t) [] A B C hspan]
  rfl

theorem toksHtml_eval (mA mC : Marker) (w : List Char) :
    toksHtml 10 [Tok.paragraph [Tok.container
      [Tok.boldOrItalic mA, Tok.rawText w true, Tok.boldOrItalic mC]]] =
      ((str "<p>" ++ (markerHtml mA ++ (encodeString w ampsAngles ++
        (markerHtml mC ++ [])))) ++ str "</p>\n\n") ++ [] := rfl

theorem markdownToHtml_star_word (k : Nat) (w : List Char)
    (hk1 : 1 ≤ k) (hk3 : k ≤ 3) (hw : w ≠ [])
    (hal : ∀ d ∈ w, isAlnumAscii d = true) :
    markdownToHtml (List.replicate k '*' ++ w ++ List.replicate k '*') =
      str "<p>" ++ markerHtml ⟨true, '*', k, some 0, false⟩ ++ w ++
        markerHtml ⟨false, '*', k, some 0, false⟩ ++ str "</p>\n\n" := by
  obtain ⟨m, rfl⟩ : ∃ m, k = m + 1 := ⟨k - 1, by omega⟩
  have hs : List.replicate (m + 1) '*' ++ w ++ List.replicate (m + 1) '*' =
      '*' :: (List.replicate m '*' ++ w ++ List.replicate (m + 1) '*') := rfl
  obtain ⟨c0, hc0w⟩ : ∃ c, c ∈ w := List.exists_mem_of_ne_nil w hw
  have hc : isAlnumAscii c0 = true := hal c0 hc0w
  have hmem : c0 ∈ '*' :: (List.replicate m '*' ++ w ++ List.replicate (m + 1) '*') := by
    apply List.mem_cons_of_mem
    simp [hc0w]
  have ht : ∀ d, (List.replicate m '*' ++ w ++
      List.replicate (m + 1) '*').head? = some d → isSp d = false := by
    cases m with
    | zero =>
      intro d hd
      cases w with
      | nil => exact absurd rfl hw
      | cons c1 w2 =>
        have hdc : c1 = d := by simpa using hd
        rw [← hdc]
        exact alnum_not_sp (hal c1 (List.mem_cons_self _ _))
    | succ m2 =>
      intro d hd
      have hdc : '*' = d := by
        rw [show (List.replicate (m2 + 1) '*' ++ w ++
          List.replicate (m2 + 1 + 1) '*' : List Char) =
          '*' :: (List.replicate m2 '*' ++ w ++
            List.replicate (m2 + 1 + 1) '*') from rfl] at hd
        simpa using hd
      rw [← hdc]
      decide
  have hlast : ('*' :: (List.replicate m '*' ++ w ++
      List.replicate (m + 1) '*')).reverse.head? = some '*' := by
    rw [← hs]
    rw [List.reverse_append]
    rw [List.reverse_replicate]
    rw [show (List.replicate (m + 1) '*' : List Char) =
      '*' :: List.replicate m '*' from rfl]
    rfl
  have h1 : paraLine ('*' :: (List.replicate m '*' ++ w ++
      List.replicate (m + 1) '*')) =
      ('*' :: (List.replicate m '*' ++ w ++ List.replicate (m + 1) '*'), false) :=
    paraLine_star _ rfl hlast
  have hspan : rawTextSpan ('*' :: (List.replicate m '*' ++ w ++
      List.replicate (m + 1) '*')) [] =
      [Tok.boldOrItalic ⟨true, '*', m + 1, some 0, false⟩,
       Tok.rawText w true,
       Tok.boldOrItalic ⟨false, '*', m + 1, some 0, false⟩] := by
    rw [← hs]
    rw [rawTextSpan_emph (m + 1) w [] hal]
    exact pbis_star_word (m + 1) w hk1 hk3 hw hal
  have hchars : ∀ c ∈ '*' :: (List.replicate m '*' ++ w ++
      List.replicate (m + 1) '*'), c ≠ '\r' ∧ c ≠ '\n' ∧ c ≠ '\t' := by
    intro c hcs
    rw [← hs] at hcs
    rcases mem_star_word hcs hal with hstar | halc
    · subst hstar
      exact ⟨by decide, by decide, by decide⟩
    · exact ⟨alnum_ne halc (by decide), alnum_ne halc (by decide),
        alnum_ne halc (by decide)⟩
  rw [hs]
  unfold markdownToHtml Document.read Document.new Document.write
  dsimp only
  rw [if_neg (show ¬((false : Bool) = true) from fun hh => Bool.noConfusion hh)]
  dsimp only
  rw [show ('*' :: (List.replicate m '*' ++ w ++
    List.replicate (m + 1) '*')).length + 1 =
    (List.replicate m '*' ++ w ++ List.replicate (m + 1) '*').length + 2 from rfl]
  rw [readLines_single 4 _ _ (by simp) hchars]
  rw [isBlankLine_cons_star]
  rw [if_neg (show ¬((false : Bool) = true) from fun hh => Bool.noConfusion hh)]
  simp only [List.nil_append]
  rw [process_star hmem hc ht h1 _ _ _ hspan]
  rw [show toksWeight [Tok.paragraph [Tok.container
    [Tok.boldOrItalic ⟨true, '*', m + 1, some 0, false⟩,
     Tok.rawText w true,
     Tok.boldOrItalic ⟨false, '*', m + 1, some 0, false⟩]]] + 1 = 10 from rfl]
  rw [toksHtml_eval]
  rw [encodeString_alnum ampsAngles w hal]
  simp [List.append_assoc]

/-- **C6**: for every nonempty plain word `text` of ASCII alphanumeric
characters (no markup characters), the full read+write pipeline turns
`*text*` into `<p><em>text</em></p>`, `**text**` into
`<p><strong>text</strong></p>`, and `***text***` into
`<p><strong><em>text</em></strong></p>` — in particular the produced HTML
contains `<em>text</em>`, `<strong>text</strong>` and
`<strong><em>text</em></strong>` respectively. -/
theorem c6_emphasis_roundtrip (w : List Char) (hw : w ≠ [])
    (hal : ∀ d ∈ w, isAlnumAscii d = true) :
    markdownToHtml (str "*" ++ w ++ str "*") =
      str "<p><em>" ++ w ++ str "</em></p>\n\n" ∧
    markdownToHtml (str "**" ++ w ++ str "**") =
      str "<p><strong>" ++ w ++ str "</strong></p>\n\n" ∧
    markdownToHtml (str "***" ++ w ++ str "***") =
      str "<p><strong><em>" ++ w ++ str "</em></strong></p>\n\n" := by
  refine ⟨?_, ?_, ?_⟩
  · rw [show (str "*" : List Char) = List.replicate 1 '*' from rfl]
    rw [markdownToHtml_star_word 1 w (by omega) (by omega) hw hal]
    simp only [List.append_assoc]
    rfl
  · rw [show (str "**" : List Char) = List.replicate 2 '*' from rfl]
    rw [markdownToHtml_star_word 2 w (by omega) (by omega) hw hal]
    simp only [List.append_assoc]
    rfl
  · rw [show (str "***" : List Char) = List.replicate 3 '*' from rfl]
    rw [markdownToHtml_star_word 3 w (by omega) (by omega) hw hal]
    simp only [List.append_assoc]
    rfl

/-- Witness for **C6** at the concrete word `text`. -/
theorem c6_emphasis_roundtrip_witness :
    ((str "text" : List Char) ≠ [] ∧
      (∀ d ∈ (str "text" : List Char), isAlnumAscii d = true)) ∧
    markdownToHtml (str "*" ++ str "text" ++ str "*") =
      str "<p><em>" ++ str "text" ++ str "</em></p>\n\n" :=
  ⟨⟨by decide, by decide⟩,
    (c6_emphasis_roundtrip (str "text") (by decide) (by decide)).1⟩

end Libmdcpp
